import Mathlib

/-!
# AArch64 code logging helpers (a64log)

A shallow embedding of `src/devices/cpu/a64log.h` and `src/devices/cpu/a64log.cpp`, and
properties of the registries and of the render loop proved on it.

Conventions of the embedding:

* a code pointer (`a64code *`) is the natural number of its address; the generated-code
  buffer is a function `mem` from addresses to bytes, read little-endian as on AArch64;
* `int` values (the `size` of a data range, the `bytes` of an element) are integers, and
  `cur += bytes` is the address `cur + bytes` (0 should the sum fall below 0);
* the fixed arrays `data_range[]` and `comment_list[]` are functions from the index to the
  entry, so that a slot at or above the live count keeps whatever was stored there last
  (`reset_log` only clears the counts);
* `comment_pool_next` and the `string` field of a comment are offsets from `comment_pool`;
  `sprintf` is given the text it formats, so that its return value is the length of that
  text;
* a function named as in the source is its body with assertions compiled out (`NDEBUG`);
  the assertions are separate predicates, and a `_checked` variant yields `none` when one
  fails;
* the `while` loop of `a64log_disasm_code_range` takes a bound on the number of rounds
  and yields `none` when the bound is used up before `cur >= stop`;
* the external disassembler is a function from the address to the text it writes and the
  value of `disassemble(...) & LENGTHMASK`;
* the `a64log_printf` calls of a render are kept as a list of events; the file is a sink
  outside the context, opened by an `fopen` that may fail.
-/

namespace A64Log

/-! ## Constants -/

def A64LOG_MAX_COMMENTS : Nat := 4000

def A64LOG_MAX_DATA_RANGES : Nat := 1000

def A64LOG_COMMENT_POOL_SIZE : Nat := A64LOG_MAX_COMMENTS * 40

/-- Modelled from the spec: the constant `MAX_DATA_RANGES` tested by `a64log_mark_as_data`
is declared in none of the sources at hand; the spec gives the capacity of the data-range
registry as 1000, the value of `A64LOG_MAX_DATA_RANGES` that sizes the array. -/
def MAX_DATA_RANGES : Nat := 1000

/-! ## Types -/

/-- The struct `a64log_comment`: `string` is `none` for `nullptr`, otherwise the offset of
the text from `comment_pool`. -/
structure a64log_comment where
  base : Nat := 0
  string : Option Nat := none

/-- The struct `a64log_data_range_t` (`end` is spelled `end_`). -/
structure a64log_data_range_t where
  base : Nat := 0
  end_ : Nat := 0
  size : Int := 0
deriving DecidableEq

/-- The struct `a64log_context`. `file` is `none` for `nullptr`, otherwise the number of
the `fopen` call that returned the handle. -/
structure a64log_context where
  filename : String
  file : Option Nat := none
  data_range : Nat → a64log_data_range_t := fun _ => {}
  data_range_count : Nat := 0
  comment_list : Nat → a64log_comment := fun _ => {}
  comment_count : Nat := 0
  comment_pool : Nat → Char := fun _ => Char.ofNat 0
  comment_pool_next : Nat := 0

/-- One call of `a64log_printf` made by `a64log_disasm_code_range`, with its arguments:
`label` for the format `"\n%s\n"`, `comment_line` for `"%p: %-50s; %s\n"` and `plain_line`
for `"%p: %s\n"`. -/
inductive log_event where
  | label (label : String)
  | comment_line (cur : Nat) (buffer : String) (comment : String)
  | plain_line (cur : Nat) (buffer : String)
deriving DecidableEq, Repr

/-- The log file as seen from outside the context: how many `fopen` calls were made and
what was printed to the file since it was last opened (mode `"w"` empties it). -/
structure a64log_sink where
  fopen_calls : Nat := 0
  written : List log_event := []
deriving DecidableEq

/-! ## reset_log, a64log_create_context -/

def reset_log (log : a64log_context) : a64log_context :=
  { log with data_range_count := 0, comment_count := 0, comment_pool_next := 0 }

def a64log_create_context (filename : String) : a64log_context :=
  reset_log { filename := filename }

/-! ## a64log_mark_as_data -/

/-- The four `assert`s at the head of `a64log_mark_as_data`, in order. -/
def a64log_mark_as_data_asserts (log : a64log_context) (base end_ : Nat) (size : Int) : Bool :=
  decide (log.data_range_count < MAX_DATA_RANGES)
    && decide (end_ ≥ base)
    && decide (size = 1 ∨ size = 2 ∨ size = 4 ∨ size = 8)
    && decide (log.data_range_count = 0 ∨
        base > (log.data_range (log.data_range_count - 1)).end_)

/-- The body of `a64log_mark_as_data` with assertions compiled out. -/
def a64log_mark_as_data (log : a64log_context) (base end_ : Nat) (size : Int) :
    a64log_context :=
  if log.data_range_count ≥ MAX_DATA_RANGES then log
  else
    { log with
      data_range := fun i =>
        if i = log.data_range_count then { base := base, end_ := end_, size := size }
        else log.data_range i
      data_range_count := log.data_range_count + 1 }

/-- The function `a64log_mark_as_data` with assertions enabled: `none` is a failed
assertion. -/
def a64log_mark_as_data_checked (log : a64log_context) (base end_ : Nat) (size : Int) :
    Option a64log_context :=
  if a64log_mark_as_data_asserts log base end_ size then
    some (a64log_mark_as_data log base end_ size)
  else none

/-! ## a64log_add_comment -/

/-- What `sprintf(comment_pool_next, format, xs...)` stores: the characters of `msg` from
offset `next` on, then the terminating nul. Offsets of `A64LOG_COMMENT_POOL_SIZE` and more
lie outside the array `comment_pool`. -/
def sprintf_pool (pool : Nat → Char) (next : Nat) (msg : List Char) : Nat → Char :=
  fun i =>
    if next ≤ i ∧ i < next + msg.length then msg.getD (i - next) (Char.ofNat 0)
    else if i = next + msg.length then Char.ofNat 0
    else pool i

/-- The three `assert`s at the head of `a64log_add_comment`. -/
def a64log_add_comment_asserts (log : a64log_context) (base : Nat) (format : List Char) :
    Bool :=
  decide (log.comment_count < A64LOG_MAX_COMMENTS)
    && decide (log.comment_pool_next + format.length + 256 < A64LOG_COMMENT_POOL_SIZE)
    && decide (log.comment_count = 0 ∨
        base ≥ (log.comment_list (log.comment_count - 1)).base)

/-- The body of `a64log_add_comment` with assertions compiled out. `format` is the format
string and `msg` the text that `sprintf` produces from it and the arguments `xs...`
(`sprintf` returns `msg.length`). -/
def a64log_add_comment (log : a64log_context) (base : Nat) (format msg : List Char) :
    a64log_context :=
  if log.comment_count ≥ A64LOG_MAX_COMMENTS then log
  else if log.comment_pool_next + format.length + 256 ≥ A64LOG_COMMENT_POOL_SIZE then log
  else
    { log with
      comment_pool := sprintf_pool log.comment_pool log.comment_pool_next msg
      comment_pool_next := log.comment_pool_next + (msg.length + 1)
      comment_list := fun i =>
        if i = log.comment_count then
          { base := base, string := some log.comment_pool_next }
        else log.comment_list i
      comment_count := log.comment_count + 1 }

/-! ## a64log_printf -/

/-- The function `a64log_printf`: `fopen_ok n` tells whether the `n`-th `fopen` call of the
session succeeds. -/
def a64log_printf (fopen_ok : Nat → Bool) (p : a64log_context × a64log_sink)
    (ev : log_event) : a64log_context × a64log_sink :=
  match p.1.file with
  | none =>
    if fopen_ok p.2.fopen_calls then
      ({ p.1 with file := some p.2.fopen_calls },
        { fopen_calls := p.2.fopen_calls + 1, written := [ev] })
    else (p.1, { p.2 with fopen_calls := p.2.fopen_calls + 1 })
  | some _ => (p.1, { p.2 with written := p.2.written ++ [ev] })

/-! ## Reading the code buffer and the string pool -/

def r8 (mem : Nat → Nat) (pc : Nat) : Nat := mem pc % 256

def r16 (mem : Nat → Nat) (pc : Nat) : Nat := r8 mem pc + 256 * r8 mem (pc + 1)

def r32 (mem : Nat → Nat) (pc : Nat) : Nat := r16 mem pc + 65536 * r16 mem (pc + 2)

def hex_digit (d : Nat) : Char :=
  if d < 10 then Char.ofNat (48 + d) else Char.ofNat (55 + d)

/-- The `w` upper-case hexadecimal digits of `v` modulo `16 ^ w`: what `%0wX` prints for
a value below `16 ^ w`. -/
def hex_digits : Nat → Nat → List Char
  | 0, _ => []
  | w + 1, v => hex_digits w (v / 16) ++ [hex_digit (v % 16)]

/-- The C string at offset `off` of the pool, read for at most `n` characters. -/
def pool_string (pool : Nat → Char) : Nat → Nat → List Char
  | 0, _ => []
  | n + 1, off =>
    if pool off = Char.ofNat 0 then [] else pool off :: pool_string pool n (off + 1)

/-- The text `%s` prints for `comment->string`. -/
def comment_string (log : a64log_context) (c : a64log_comment) : String :=
  match c.string with
  | none => ""
  | some off => String.mk (pool_string log.comment_pool (A64LOG_COMMENT_POOL_SIZE - off) off)

/-! ## a64log_disasm_code_range -/

/-- The `switch (curdata->size)` of the data branch. -/
def data_text (mem : Nat → Nat) (cur : Nat) (size : Int) : String :=
  if size = 2 then "dw      " ++ String.mk (hex_digits 4 (r16 mem cur))
  else if size = 4 then "dd      " ++ String.mk (hex_digits 8 (r32 mem cur))
  else if size = 8 then
    "dq      " ++ String.mk (hex_digits 8 (r32 mem (cur + 4)))
      ++ String.mk (hex_digits 8 (r32 mem cur))
  else "db      " ++ String.mk (hex_digits 2 (r8 mem cur))

/-- The cursors of the render loop, with the `a64log_printf` calls made so far (`out`) and
the addresses the disassembler was invoked at so far (`dis_calls`). -/
structure render_state where
  cur : Nat
  curdata : Nat := 0
  curcomment : Nat := 0
  out : List log_event := []
  dis_calls : List Nat := []

/-- The loop `while (curdata < lastdata && cur > curdata->end) curdata++`, for at most `n`
rounds. -/
def skip_data_ranges_loop (log : a64log_context) (cur : Nat) : Nat → Nat → Nat
  | 0, curdata => curdata
  | n + 1, curdata =>
    if curdata < log.data_range_count ∧ cur > (log.data_range curdata).end_ then
      skip_data_ranges_loop log cur n (curdata + 1)
    else curdata

def skip_data_ranges (log : a64log_context) (cur curdata : Nat) : Nat :=
  skip_data_ranges_loop log cur (log.data_range_count - curdata) curdata

/-- The loop `while (curcomment < lastcomment && cur > curcomment->base) curcomment++`, for
at most `n` rounds. -/
def skip_comments_loop (log : a64log_context) (cur : Nat) : Nat → Nat → Nat
  | 0, curcomment => curcomment
  | n + 1, curcomment =>
    if curcomment < log.comment_count ∧ cur > (log.comment_list curcomment).base then
      skip_comments_loop log cur n (curcomment + 1)
    else curcomment

def skip_comments (log : a64log_context) (cur curcomment : Nat) : Nat :=
  skip_comments_loop log cur (log.comment_count - curcomment) curcomment

/-- The loop `for ( ; curcomment + 1 < lastcomment && cur == curcomment[1].base;
curcomment++)` with its `a64log_printf` calls, for at most `n` rounds. -/
def stacked_comments_loop (log : a64log_context) (cur : Nat) :
    Nat → Nat → Nat × List log_event
  | 0, curcomment => (curcomment, [])
  | n + 1, curcomment =>
    if curcomment + 1 < log.comment_count ∧ cur = (log.comment_list (curcomment + 1)).base
    then
      let r := stacked_comments_loop log cur n (curcomment + 1)
      (r.1, log_event.comment_line cur "" (comment_string log (log.comment_list curcomment))
        :: r.2)
    else (curcomment, [])

def stacked_comments (log : a64log_context) (cur curcomment : Nat) : Nat × List log_event :=
  stacked_comments_loop log cur (log.comment_count - curcomment) curcomment

/-- The tail of the loop body: print `buffer` with the matching comments, if any, and
advance `cur` by `bytes`. -/
def print_and_advance (log : a64log_context) (st : render_state) (buffer : String)
    (bytes : Int) : render_state :=
  if st.curcomment < log.comment_count ∧ st.cur = (log.comment_list st.curcomment).base then
    let r := stacked_comments log st.cur st.curcomment
    { st with
      curcomment := r.1
      out := st.out ++ r.2 ++
        [log_event.comment_line st.cur buffer (comment_string log (log.comment_list r.1))]
      cur := Int.toNat (st.cur + bytes) }
  else
    { st with
      out := st.out ++ [log_event.plain_line st.cur buffer]
      cur := Int.toNat (st.cur + bytes) }

/-- One round of the body of `while (cur < stop)`. -/
def render_iter (mem : Nat → Nat) (dis : Nat → String × Nat) (log : a64log_context)
    (st : render_state) : render_state :=
  let curdata := skip_data_ranges log st.cur st.curdata
  let curcomment := skip_comments log st.cur st.curcomment
  let st1 : render_state := { st with curdata := curdata, curcomment := curcomment }
  if st.cur ≥ (log.data_range curdata).base ∧ st.cur ≤ (log.data_range curdata).end_ then
    print_and_advance log st1 (data_text mem st.cur (log.data_range curdata).size)
      (log.data_range curdata).size
  else if r8 mem st.cur = 0xcc then
    { st1 with cur := st.cur + 1 }
  else
    print_and_advance log { st1 with dis_calls := st.dis_calls ++ [st.cur] }
      (dis st.cur).1 ((dis st.cur).2 : Int)

/-- The loop `while (cur < stop)`, for at most `fuel` rounds. -/
def render_loop (mem : Nat → Nat) (dis : Nat → String × Nat) (log : a64log_context)
    (stop : Nat) : Nat → render_state → Option render_state
  | 0, st => if st.cur < stop then none else some st
  | fuel + 1, st =>
    if st.cur < stop then render_loop mem dis log stop fuel (render_iter mem dis log st)
    else some st

/-- The state in which the loop of `a64log_disasm_code_range` starts, the optional label
printed. -/
def render_start (label : Option String) (start : Nat) : render_state :=
  { cur := start
    out := match label with
      | none => []
      | some l => [log_event.label l] }

/-- The walk of `a64log_disasm_code_range` over `[start, stop)`: the final cursors, the
`a64log_printf` calls in order and the disassembler calls in order. -/
def render (mem : Nat → Nat) (dis : Nat → String × Nat) (fuel : Nat) (log : a64log_context)
    (label : Option String) (start stop : Nat) : Option render_state :=
  render_loop mem dis log stop fuel (render_start label start)

/-- The function `a64log_disasm_code_range`: the `a64log_printf` calls of the walk act on
the file handle and the sink, then `reset_log` runs. -/
def a64log_disasm_code_range (fopen_ok : Nat → Bool) (mem : Nat → Nat)
    (dis : Nat → String × Nat) (fuel : Nat) (p : a64log_context × a64log_sink)
    (label : Option String) (start stop : Nat) : Option (a64log_context × a64log_sink) :=
  (render mem dis fuel p.1 label start stop).map fun st =>
    let q := st.out.foldl (a64log_printf fopen_ok) p
    (reset_log q.1, q.2)

/-! ## Notions used to state properties of the walk -/

/-- The states the loop of `a64log_disasm_code_range` passes through when started in `st0`:
`st0` itself, and the state after one more round from any such state with `cur < stop`. -/
inductive render_reach (mem : Nat → Nat) (dis : Nat → String × Nat) (log : a64log_context)
    (stop : Nat) (st0 : render_state) : render_state → Prop where
  | start : render_reach mem dis log stop st0 st0
  | step {st : render_state} : render_reach mem dis log stop st0 st → st.cur < stop →
      render_reach mem dis log stop st0 (render_iter mem dis log st)

/-- The address a line is printed for (`none` for the label). -/
def event_addr : log_event → Option Nat
  | log_event.label _ => none
  | log_event.comment_line cur _ _ => some cur
  | log_event.plain_line cur _ => some cur

/-- The instruction or data text of a line. -/
def event_buffer : log_event → String
  | log_event.label _ => ""
  | log_event.comment_line _ buffer _ => buffer
  | log_event.plain_line _ buffer => buffer

/-- The comment of a line, if it has one. -/
def event_comment : log_event → Option String
  | log_event.label _ => none
  | log_event.comment_line _ _ comment => some comment
  | log_event.plain_line _ _ => none

/-- The address `a` lies in the `i`-th slot of `data_range[]`. -/
def in_data_range (log : a64log_context) (i a : Nat) : Prop :=
  (log.data_range i).base ≤ a ∧ a ≤ (log.data_range i).end_

instance (log : a64log_context) (i a : Nat) : Decidable (in_data_range log i a) := by
  unfold in_data_range; infer_instance

/-- What the assertions of `a64log_mark_as_data` ask of the registered ranges: each has
`end >= base` and a size of 1, 2, 4 or 8, and each `base` lies above the `end` before it. -/
def data_ranges_ordered (log : a64log_context) : Prop :=
  (∀ i, i < log.data_range_count →
    (log.data_range i).base ≤ (log.data_range i).end_ ∧
    ((log.data_range i).size = 1 ∨ (log.data_range i).size = 2 ∨
      (log.data_range i).size = 4 ∨ (log.data_range i).size = 8)) ∧
  (∀ i, i < log.data_range_count →
    i = 0 ∨ (log.data_range i).base > (log.data_range (i - 1)).end_)

instance (log : a64log_context) : Decidable (data_ranges_ordered log) := by
  unfold data_ranges_ordered; infer_instance

/-- What the assertion of `a64log_add_comment` asks of the registered comments: their
addresses never decrease. -/
def comments_ordered (log : a64log_context) : Prop :=
  ∀ i, i < log.comment_count →
    i = 0 ∨ (log.comment_list i).base ≥ (log.comment_list (i - 1)).base

instance (log : a64log_context) : Decidable (comments_ordered log) := by
  unfold comments_ordered; infer_instance

/-- The data cursor has only passed slots that end below `cur`, and is within the count. -/
def data_cursor_ok (log : a64log_context) (st : render_state) : Prop :=
  st.curdata ≤ log.data_range_count ∧
    ∀ j, j < st.curdata → (log.data_range j).end_ < st.cur

/-- The round of the loop at `st` takes the data branch: the cursor lies in the slot the
data cursor stops at. -/
def takes_data (log : a64log_context) (st : render_state) : Prop :=
  in_data_range log (skip_data_ranges log st.cur st.curdata) st.cur

instance (log : a64log_context) (st : render_state) : Decidable (takes_data log st) := by
  unfold takes_data; infer_instance

/-- The round of the loop at `st` takes the filler branch: not in the data slot, and the
byte at `cur` is 0xCC. -/
def takes_filler (mem : Nat → Nat) (log : a64log_context) (st : render_state) : Prop :=
  ¬ takes_data log st ∧ r8 mem st.cur = 0xcc

instance (mem : Nat → Nat) (log : a64log_context) (st : render_state) :
    Decidable (takes_filler mem log st) := by
  unfold takes_filler; infer_instance

/-- The text of the element that begins at `st.cur`: the data literal in the data branch,
the text of the disassembler otherwise. -/
def element_buffer (mem : Nat → Nat) (dis : Nat → String × Nat) (log : a64log_context)
    (st : render_state) : String :=
  if takes_data log st then
    data_text mem st.cur (log.data_range (skip_data_ranges log st.cur st.curdata)).size
  else (dis st.cur).1

/-- The number of bytes of the element that begins at `st.cur`. -/
def element_bytes (dis : Nat → String × Nat) (log : a64log_context)
    (st : render_state) : Int :=
  if takes_data log st then
    (log.data_range (skip_data_ranges log st.cur st.curdata)).size
  else ((dis st.cur).2 : Int)

/-- The indices of the registered comments at address `a`, in registration order. -/
def comments_at (log : a64log_context) (a : Nat) : List Nat :=
  (List.range log.comment_count).filter (fun j => (log.comment_list j).base = a)

/-- Every element the walk over a span from `start` can meet has at least one byte: the
disassembler consumes at least one byte everywhere, and every slot up to the count that
ends at or after `start` has a positive size. -/
def elements_advance (dis : Nat → String × Nat) (log : a64log_context) (start : Nat) : Prop :=
  (∀ a, 1 ≤ (dis a).2) ∧
    ∀ i, i ≤ log.data_range_count → start ≤ (log.data_range i).end_ →
      1 ≤ (log.data_range i).size

/-- The cursors of a walk from `start` with advancing elements: the address cursor is at
or above `start`, the data cursor within the count, the comment cursor has only passed
comments below `cur`, and every line printed so far is for an address below `cur`. -/
def walk_ok (log : a64log_context) (start : Nat) (st : render_state) : Prop :=
  start ≤ st.cur ∧ st.curdata ≤ log.data_range_count ∧
    (∀ j, j < st.curcomment → j < log.comment_count ∧ (log.comment_list j).base < st.cur) ∧
    (∀ e, e ∈ st.out → ∀ a, event_addr e = some a → a < st.cur)

/-- No slot of `data_range[]` up to the count holds a negative size. -/
def sizes_nonneg (log : a64log_context) : Prop :=
  ∀ i, i ≤ log.data_range_count → 0 ≤ (log.data_range i).size

/-- The cursors of a walk whose elements have no negative size: the data cursor is within
the count and every line printed so far is for an address at or below `cur`. -/
def walk_weak_ok (log : a64log_context) (st : render_state) : Prop :=
  st.curdata ≤ log.data_range_count ∧
    ∀ e, e ∈ st.out → ∀ a, event_addr e = some a → a ≤ st.cur

/-- The line `e` is printed for the element that begins at the cursor of `st`, with the
text of the element or, for a stacked comment, with no text, and any comment on it is a
registered comment at that address. -/
def line_of_element (mem : Nat → Nat) (dis : Nat → String × Nat) (log : a64log_context)
    (st : render_state) (e : log_event) : Prop :=
  ¬ takes_filler mem log st ∧ event_addr e = some st.cur ∧
    (event_buffer e = element_buffer mem dis log st ∨ event_buffer e = "") ∧
    ∀ c, event_comment e = some c →
      ∃ j, j < log.comment_count ∧ (log.comment_list j).base = st.cur ∧
        c = comment_string log (log.comment_list j)

/-- The contexts a caller can reach with the assertions of `a64log_mark_as_data` and
`a64log_add_comment` holding at every call: a new context, and the context after one more
registration whose assertions hold or after one more `a64log_disasm_code_range` call that
returned. -/
inductive api_reachable : a64log_context → Prop where
  | create (filename : String) : api_reachable (a64log_create_context filename)
  | mark_as_data {log : a64log_context} (base end_ : Nat) (size : Int) :
      api_reachable log → a64log_mark_as_data_asserts log base end_ size = true →
      api_reachable (a64log_mark_as_data log base end_ size)
  | add_comment {log : a64log_context} (base : Nat) (format msg : List Char) :
      api_reachable log → a64log_add_comment_asserts log base format = true →
      api_reachable (a64log_add_comment log base format msg)
  | disasm_code_range {log : a64log_context} (fopen_ok : Nat → Bool) (mem : Nat → Nat)
      (dis : Nat → String × Nat) (fuel : Nat) (sink : a64log_sink) (label : Option String)
      (start stop : Nat) (q : a64log_context × a64log_sink) :
      api_reachable log →
      a64log_disasm_code_range fopen_ok mem dis fuel (log, sink) label start stop = some q →
      api_reachable q.1

/-- Every slot of `data_range[]` is as a new context has it or holds a size of 1, 2, 4
or 8. -/
def slots_valid (log : a64log_context) : Prop :=
  ∀ i, log.data_range i = {} ∨
    ((log.data_range i).size = 1 ∨ (log.data_range i).size = 2 ∨
      (log.data_range i).size = 4 ∨ (log.data_range i).size = 8)

/-! ## Sequences of registrations -/

/-- A run of `a64log_mark_as_data` calls, each entry of `calls` giving the arguments
`base`, `end` and `size` of one call. -/
def mark_ranges (log : a64log_context) (calls : List a64log_data_range_t) : a64log_context :=
  calls.foldl (fun l c => a64log_mark_as_data l c.base c.end_ c.size) log

/-- The arguments of one `a64log_add_comment` call: the address, the format string, and the
text `sprintf` makes of the format and the further arguments. -/
structure comment_call where
  base : Nat
  format : List Char
  msg : List Char
deriving DecidableEq

/-- A run of `a64log_add_comment` calls. -/
def add_comments (log : a64log_context) (calls : List comment_call) : a64log_context :=
  calls.foldl (fun l c => a64log_add_comment l c.base c.format c.msg) log

/-- Every call of the run is accepted: it finds fewer than `A64LOG_MAX_COMMENTS` comments
registered and `comment_pool_next + strlen(format) + 256` below the end of the pool. -/
def all_accepted (log : a64log_context) : List comment_call → Prop
  | [] => True
  | c :: cs =>
    (log.comment_count < A64LOG_MAX_COMMENTS ∧
      log.comment_pool_next + c.format.length + 256 < A64LOG_COMMENT_POOL_SIZE) ∧
    all_accepted (a64log_add_comment log c.base c.format c.msg) cs

/-- The pool holds the text `msg` from offset `off` on, followed by the terminating nul. -/
def text_at (pool : Nat → Char) (off : Nat) (msg : List Char) : Prop :=
  (∀ k, k < msg.length → pool (off + k) = msg.getD k (Char.ofNat 0)) ∧
    pool (off + msg.length) = Char.ofNat 0

/-- The entry `idx` of the comment registry holds the call `c`: it is a live entry with the
address of the call, and its `string` points at the text of the call, stored with its
terminator inside the pool and below the pool cursor. -/
def comment_stored (log : a64log_context) (idx : Nat) (c : comment_call) : Prop :=
  idx < log.comment_count ∧
    ∃ off, (log.comment_list idx).base = c.base ∧ (log.comment_list idx).string = some off ∧
      off + (c.msg.length + 1) ≤ log.comment_pool_next ∧
      off + (c.msg.length + 1) ≤ A64LOG_COMMENT_POOL_SIZE ∧
      text_at log.comment_pool off c.msg

/-- No call of the run is turned away by the pool check of `a64log_add_comment`: each call
made while fewer than `A64LOG_MAX_COMMENTS` comments are registered finds
`comment_pool_next + strlen(format) + 256` below the end of the pool. -/
def pool_checks_pass (log : a64log_context) : List comment_call → Prop
  | [] => True
  | c :: cs =>
    (log.comment_count ≥ A64LOG_MAX_COMMENTS ∨
      log.comment_pool_next + c.format.length + 256 < A64LOG_COMMENT_POOL_SIZE) ∧
    pool_checks_pass (a64log_add_comment log c.base c.format c.msg) cs

/-! ## Concrete buffers, disassemblers and contexts -/

/-- The buffer of the reference scenario: the bytes 78 56 34 12 at 0x1000, the filler at
0x1004 and 0x90 elsewhere. -/
def scenario_mem : Nat → Nat := fun a =>
  if a = 0x1000 then 0x78 else if a = 0x1001 then 0x56 else if a = 0x1002 then 0x34
  else if a = 0x1003 then 0x12 else if a = 0x1004 then 0xCC else 0x90

/-- The stub disassembler of the reference scenario. -/
def scenario_dis : Nat → String × Nat := fun a =>
  if a = 0x1005 then ("NOP", 2) else ("???", 1)

/-- The context of the reference scenario: the range [0x1000,0x1003] of size 4 and the
comment "const" at 0x1000 on a fresh context. -/
def scenario_log : a64log_context :=
  a64log_add_comment
    (a64log_mark_as_data (a64log_create_context "a64.log") 0x1000 0x1003 4)
    0x1000 "const".toList "const".toList

/-- Two ranges registered against the order `a64log_mark_as_data` asserts: [0x2000,0x2003]
first, then [0x1000,0x1003]. -/
def unordered_ranges_log : a64log_context :=
  a64log_mark_as_data
    (a64log_mark_as_data (a64log_create_context "a64.log") 0x2000 0x2003 4)
    0x1000 0x1003 4

/-- A range registered with the size 3, which `a64log_mark_as_data` asserts against. -/
def odd_size_log : a64log_context :=
  a64log_mark_as_data (a64log_create_context "a64.log") 0x1000 0x1002 3

/-- Three comments registered at 0x1000. -/
def stacked_log : a64log_context :=
  a64log_add_comment
    (a64log_add_comment
      (a64log_add_comment (a64log_create_context "a64.log") 0x1000 "one".toList "one".toList)
      0x1000 "two".toList "two".toList)
    0x1000 "three".toList "three".toList

/-- Comments registered against the order `a64log_add_comment` asserts: at 0x1000, at
0x1001, then at 0x1000 again. -/
def unordered_comments_log : a64log_context :=
  a64log_add_comment
    (a64log_add_comment
      (a64log_add_comment (a64log_create_context "a64.log") 0x1000 "one".toList "one".toList)
      0x1001 "two".toList "two".toList)
    0x1000 "three".toList "three".toList

/-- A range registered with the size -2, which `a64log_mark_as_data` asserts against,
and a comment at its address. -/
def backward_log : a64log_context :=
  a64log_add_comment
    (a64log_mark_as_data (a64log_create_context "a64.log") 0x1002 0x1002 (-2))
    0x1002 "inner".toList "inner".toList

/-- A disassembler that finds an instruction of four bytes everywhere. -/
def wide_dis : Nat → String × Nat := fun _ => ("MOV", 4)

/-- A disassembler that consumes no byte. -/
def stalling_dis : Nat → String × Nat := fun _ => ("???", 0)

/-- One comment at 0x1000. -/
def single_comment_log : a64log_context :=
  a64log_add_comment (a64log_create_context "a64.log") 0x1000 "one".toList "one".toList

/-- A buffer of filler bytes only. -/
def filler_mem : Nat → Nat := fun _ => 0xCC

/-- The context a `a64log_disasm_code_range` call leaves, or `log` itself when the call
does not return within `fuel` rounds. -/
def context_after_render (fopen_ok : Nat → Bool) (mem : Nat → Nat)
    (dis : Nat → String × Nat) (fuel : Nat) (log : a64log_context)
    (label : Option String) (start stop : Nat) : a64log_context :=
  match a64log_disasm_code_range fopen_ok mem dis fuel (log, {}) label start stop with
  | some q => q.1
  | none => log

/-- A fresh context after the same render as in `rendered_scenario_log`, with nothing
registered before it. -/
def rendered_fresh_log : a64log_context :=
  context_after_render (fun _ => true) scenario_mem scenario_dis 6
    (a64log_create_context "a64.log") none 0x1000 0x1007

/-- The context the reference scenario leaves behind: `scenario_log` after the render of
[0x1000,0x1007). -/
def rendered_scenario_log : a64log_context :=
  context_after_render (fun _ => true) scenario_mem scenario_dis 3 scenario_log none
    0x1000 0x1007

/-- A comment whose format is `%s` and whose argument has 160000 characters. -/
def huge_call : comment_call :=
  { base := 0x1000, format := "%s".toList, msg := List.replicate 160000 'x' }

/-- A comment of 60 characters with no conversion in its format. -/
def long_call : comment_call :=
  { base := 0x1000, format := List.replicate 60 'x', msg := List.replicate 60 'x' }

/-- A comment of 3 characters with no conversion in its format. -/
def short_call : comment_call :=
  { base := 0x1000, format := "nop".toList, msg := "nop".toList }

/-- A context whose slot just past the count holds a negative size: a first pass registers
[0x1000,0x1003] and then [0x1004,0x1004] with the size -4, a render over an empty span
resets the counts, and a second pass registers [0x1000,0x1003] with size 4 only. -/
def negative_slot_log : a64log_context :=
  a64log_mark_as_data
    (context_after_render (fun _ => true) scenario_mem scenario_dis 0
      (a64log_mark_as_data
        (a64log_mark_as_data (a64log_create_context "a64.log") 0x1000 0x1003 4)
        0x1004 0x1004 (-4))
      none 0x1000 0x1000)
    0x1000 0x1003 4

/-! ## The text of the log -/

/-- What `%-50s` prints: the text, then blanks up to 50 characters. -/
def pad_right_50 (s : String) : String :=
  s ++ String.mk (List.replicate (50 - s.length) ' ')

/-- The text `fprintf` writes for one `a64log_printf` call of `a64log_disasm_code_range`;
`show_ptr` is what `%p` prints for an address. -/
def event_text (show_ptr : Nat → String) : log_event → String
  | log_event.label label => "\n" ++ label ++ "\n"
  | log_event.comment_line cur buffer comment =>
    show_ptr cur ++ ": " ++ pad_right_50 buffer ++ "; " ++ comment ++ "\n"
  | log_event.plain_line cur buffer => show_ptr cur ++ ": " ++ buffer ++ "\n"

/-- The number of newline characters of a text. -/
def newline_count (s : String) : Nat :=
  (s.data.filter (fun c => c = '\n')).length

/-- A run of `a64log_printf` calls. -/
def printf_all (fopen_ok : Nat → Bool) (p : a64log_context × a64log_sink)
    (evs : List log_event) : a64log_context × a64log_sink :=
  evs.foldl (a64log_printf fopen_ok) p

/-- An `fopen` that fails on the first call of the session and succeeds from then on. -/
def second_open_ok : Nat → Bool := fun n => decide (1 ≤ n)

/-- The mnemonic of a data element of the given size. -/
def data_mnemonic (size : Int) : String :=
  if size = 2 then "dw" else if size = 4 then "dd" else if size = 8 then "dq" else "db"

/-- The unsigned little-endian value of the `s` bytes at `cur`. -/
def le_value (mem : Nat → Nat) : Nat → Nat → Nat
  | _, 0 => 0
  | cur, s + 1 => r8 mem cur + 256 * le_value mem (cur + 1) s

/-- The value of a hexadecimal digit, `0`..`9` and `A`..`F`. -/
def hex_char_value (c : Char) : Nat :=
  if c.toNat < 58 then c.toNat - 48 else c.toNat - 55

/-- The number a string of hexadecimal digits denotes, most significant digit first. -/
def hex_value (ds : List Char) : Nat :=
  ds.foldl (fun v c => 16 * v + hex_char_value c) 0

/-! ## Notions for the cursors of the walk -/

/-- The index of the slot of `data_range[]` that the in-range test
`cur >= curdata->base && cur <= curdata->end` of the round at `st` reads: the slot the skip
loop leaves the data cursor at. -/
def in_range_test_slot (log : a64log_context) (st : render_state) : Nat :=
  skip_data_ranges log st.cur st.curdata

/-- The index of the slot of `comment_list[]` that the comment-match test
`curcomment < lastcomment && cur == curcomment->base` of the round at `st` reads when its
first half holds: the slot the skip loop leaves the comment cursor at. -/
def comment_test_slot (log : a64log_context) (st : render_state) : Nat :=
  skip_comments log st.cur st.curcomment

/-- The context the reference scenario leaves behind, with one comment registered at
0x1000 since and no range. -/
def stale_comment_log : a64log_context :=
  a64log_add_comment rendered_scenario_log 0x1000 "pad".toList "pad".toList

/-- A new context with one comment registered at 0x1000 and no range. -/
def fresh_comment_log : a64log_context :=
  a64log_add_comment rendered_fresh_log 0x1000 "pad".toList "pad".toList

/-- The lines of `out` that carry an instruction or data text: the label and the lines of
stacked comments, which are printed with an empty text, are left out. -/
def text_lines (out : List log_event) : List log_event :=
  out.filter (fun e => decide (event_buffer e ≠ ""))

/-- The comments on the lines of `out`, in output order. -/
def out_comments (out : List log_event) : List String := out.filterMap event_comment

/-- The addresses of the lines of `out`, in output order. -/
def out_addrs (out : List log_event) : List Nat := out.filterMap event_addr

/-- The text of the registered comment `j`. -/
def comment_text (log : a64log_context) (j : Nat) : String :=
  comment_string log (log.comment_list j)

/-- The texts of the registered comments, in registration order. -/
def registered_comments (log : a64log_context) : List String :=
  (List.range log.comment_count).map (comment_text log)

/-- The comments printed so far are those of the registered comments `idxs`, which
increase strictly, are not above the comment cursor and have addresses below `cur`. -/
def printed_comments_ok (log : a64log_context) (st : render_state) (idxs : List Nat) : Prop :=
  out_comments st.out = idxs.map (comment_text log) ∧
  idxs.Pairwise (fun a b => a < b) ∧
  ∀ j, j ∈ idxs → j < log.comment_count ∧ j ≤ st.curcomment ∧
    (log.comment_list j).base < st.cur

end A64Log

namespace Eigccarm

/-!
# AArch64 inline math functions (eigccarm.h)

A `uint32_t` or `uint64_t` value is the natural number it denotes; an instruction is a
function on the values of its operand registers.
-/

/-- The instruction `umull Xd, Wn, Wm`: the 64-bit product of the unsigned values of two
32-bit registers. -/
def umull (wn wm : Nat) : Nat := (wn % 2 ^ 32) * (wm % 2 ^ 32)

/-- The instruction `lsr Xd, Xn, #shift`: the 64-bit register shifted right logically. -/
def lsr (xn shift : Nat) : Nat := (xn % 2 ^ 64) / 2 ^ (shift % 64)

/-- The function `_mulu_32x32_hi`: `umull`, then `lsr` by 32; the `uint32_t` result is the
low half of the register. -/
def _mulu_32x32_hi (a b : Nat) : Nat := lsr (umull a b) 32 % 2 ^ 32

/-- The function `_mulu_32x32_shift`: its assembly is the single instruction `umull`; the
operand `shift` is declared but no instruction uses it. The `uint32_t` result is the low
half of the register. -/
def _mulu_32x32_shift (a b : Nat) (_shift : Nat) : Nat := umull a b % 2 ^ 32

/-- What the comment above `_mulu_32x32_shift` describes: the unsigned 64-bit product
shifted right by `shift` bits, then truncated to 32 bits. -/
def mulu_32x32_shift_described (a b shift : Nat) : Nat :=
  ((a % 2 ^ 32) * (b % 2 ^ 32) / 2 ^ shift) % 2 ^ 32

/-- The bits of an `int32_t` value in a 32-bit register. -/
def to_w (a : Int) : Nat := (a % 2 ^ 32).toNat

/-- The `int32_t` value of the low 32 bits of a register. -/
def to_int32 (x : Nat) : Int :=
  if x % 2 ^ 32 < 2 ^ 31 then (x % 2 ^ 32 : Nat) else (x % 2 ^ 32 : Nat) - 2 ^ 32

/-- The instruction `smull Xd, Wn, Wm`: the 64-bit two's complement product of the signed
values of two 32-bit registers. -/
def smull (wn wm : Nat) : Nat := ((to_int32 wn * to_int32 wm) % 2 ^ 64).toNat

/-- The function `_mul_32x32_shift`: `smull`, then `lsr` by `shift`; the `int32_t` result
is the low half of the register. -/
def _mul_32x32_shift (a b : Int) (shift : Nat) : Int :=
  to_int32 (lsr (smull (to_w a) (to_w b)) shift)

/-- What the comment above `_mul_32x32_shift` describes, as the claim writes it:
`(int32)(((int64)a * (int64)b) >> shift)` with a sign-propagating shift. -/
def mul_32x32_shift_described (a b : Int) (shift : Nat) : Int :=
  to_int32 ((((a * b) >>> shift) % 2 ^ 32).toNat)

end Eigccarm

namespace Hfox

/-!
# Harry Fox cartridge (hfox.cpp)

A pointer into the ROM is the address it holds, a natural number, and `nullptr` is 0; the
bytes behind the pointers are a function `mem` from addresses to bytes. The base class
functions `get_rom_base()` and `get_rom_size()` are the parameters `rom_base` and
`rom_size`. A member function is a function from the device before the call to the device
after it.
-/

/-- The two members of `msx_cart_hfox_device` that its member functions use, each an array
of two elements (the constructor initialises them with two values). -/
structure msx_cart_hfox_device where
  m_selected_bank : Nat × Nat
  m_bank_base : Nat × Nat
deriving DecidableEq, Repr

/-- The element `a[i]` of an array of two elements. -/
def elem (a : Nat × Nat) (i : Nat) : Nat := if i = 0 then a.1 else a.2

/-- The constructor: `m_selected_bank{ 0, 0 }`, `m_bank_base{ nullptr, nullptr }`. -/
def constructed : msx_cart_hfox_device :=
  { m_selected_bank := (0, 0), m_bank_base := (0, 0) }

/-- The function `restore_banks`. -/
def restore_banks (rom_base : Nat) (d : msx_cart_hfox_device) : msx_cart_hfox_device :=
  { d with
    m_bank_base :=
      (rom_base + (elem d.m_selected_bank 0 &&& 0x01) * 0x8000,
       rom_base + (elem d.m_selected_bank 1 &&& 0x01) * 0x8000 + 0x4000) }

/-- The function `device_post_load`. -/
def device_post_load (rom_base : Nat) (d : msx_cart_hfox_device) : msx_cart_hfox_device :=
  restore_banks rom_base d

/-- The function `device_reset`. -/
def device_reset (d : msx_cart_hfox_device) : msx_cart_hfox_device :=
  { d with m_selected_bank := (0, 0) }

/-- The function `initialize_cartridge`; `none` is the `fatalerror` exit. -/
def initialize_cartridge (rom_base rom_size : Nat) (d : msx_cart_hfox_device) :
    Option msx_cart_hfox_device :=
  if rom_size < 0x10000 then none else some (restore_banks rom_base d)

/-- The function `read_cart`. -/
def read_cart (mem : Nat → Nat) (d : msx_cart_hfox_device) (offset : Nat) : Nat :=
  if offset ≥ 0x4000 ∧ offset < 0xc000 then
    mem (elem d.m_bank_base (offset >>> 15) + (offset &&& 0x3fff)) % 256
  else 0xff

/-- The function `write_cart`; `data` is a `uint8_t`. The `logerror` call of the default
case leaves the device as it is. -/
def write_cart (rom_base : Nat) (d : msx_cart_hfox_device) (offset data : Nat) :
    msx_cart_hfox_device :=
  if offset = 0x6000 then
    restore_banks rom_base
      { d with m_selected_bank := (data % 256, elem d.m_selected_bank 1) }
  else if offset = 0x7000 then
    restore_banks rom_base
      { d with m_selected_bank := (elem d.m_selected_bank 0, data % 256) }
  else d

/-! ## Statement-level definitions -/

/-- The cached bank pointers agree with the selected banks. -/
def banks_agree (rom_base : Nat) (d : msx_cart_hfox_device) : Prop :=
  elem d.m_bank_base 0 = rom_base + (elem d.m_selected_bank 0 &&& 1) * 0x8000 ∧
  elem d.m_bank_base 1 = rom_base + (elem d.m_selected_bank 1 &&& 1) * 0x8000 + 0x4000

instance (rom_base : Nat) (d : msx_cart_hfox_device) : Decidable (banks_agree rom_base d) := by
  unfold banks_agree
  infer_instance

/-- The byte of the currently selected bank that the cartridge address `offset`, from
0x4000 up to 0xbfff, stands for: the window from 0x4000 to 0x7fff shows the first half of
the bank selected by `m_selected_bank[0]`, the window from 0x8000 to 0xbfff the second half
of the bank selected by `m_selected_bank[1]`. -/
def selected_byte (mem : Nat → Nat) (rom_base : Nat) (d : msx_cart_hfox_device)
    (offset : Nat) : Nat :=
  mem (rom_base + (elem d.m_selected_bank (offset >>> 15) &&& 1) * 0x8000 +
    (offset - 0x4000)) % 256

/-- A ROM of two banks at address 0x100000 whose bytes tell the banks apart: 0x11 in the
first bank of 0x8000 bytes, 0x22 in the second. -/
def two_bank_mem (a : Nat) : Nat := if a < 0x100000 + 0x8000 then 0x11 else 0x22

/-- The device after `initialize_cartridge` with the ROM at 0x100000 of size 0x10000. -/
def initialized_device : Option msx_cart_hfox_device :=
  initialize_cartridge 0x100000 0x10000 constructed

/-- The device after `initialize_cartridge`, then `write_cart(0x6000, 1)`, then
`device_reset`. -/
def reset_after_bank_switch : Option msx_cart_hfox_device :=
  initialized_device.map (fun d => device_reset (write_cart 0x100000 d 0x6000 1))

end Hfox

namespace A64Log

/-! ## The inner loops -/

theorem skip_data_ranges_loop_spec (log : a64log_context) (cur : Nat) :
    ∀ n c, c ≤ skip_data_ranges_loop log cur n c ∧
      skip_data_ranges_loop log cur n c ≤ c + n ∧
      (∀ j, c ≤ j → j < skip_data_ranges_loop log cur n c →
        j < log.data_range_count ∧ (log.data_range j).end_ < cur) ∧
      (skip_data_ranges_loop log cur n c < c + n →
        ¬ (skip_data_ranges_loop log cur n c < log.data_range_count ∧
            cur > (log.data_range (skip_data_ranges_loop log cur n c)).end_)) := by
  intro n
  induction n with
  | zero =>
    intro c
    simp [skip_data_ranges_loop]
    intro j h1 h2
    omega
  | succ n ih =>
    intro c
    unfold skip_data_ranges_loop
    split
    · rename_i h
      obtain ⟨h1, h2, h3, h4⟩ := ih (c + 1)
      refine ⟨by omega, by omega, ?_, ?_⟩
      · intro j hj1 hj2
        rcases Nat.eq_or_lt_of_le hj1 with rfl | hlt
        · exact h
        · exact h3 j hlt hj2
      · intro hlt
        exact h4 (by omega)
    · rename_i h
      refine ⟨le_refl _, by omega, ?_, fun _ => h⟩
      intro j h1 h2
      omega

theorem skip_data_ranges_spec (log : a64log_context) (cur c : Nat) :
    c ≤ skip_data_ranges log cur c ∧
      (c ≤ log.data_range_count → skip_data_ranges log cur c ≤ log.data_range_count) ∧
      (∀ j, c ≤ j → j < skip_data_ranges log cur c →
        j < log.data_range_count ∧ (log.data_range j).end_ < cur) ∧
      (skip_data_ranges log cur c < log.data_range_count →
        cur ≤ (log.data_range (skip_data_ranges log cur c)).end_) := by
  obtain ⟨h1, h2, h3, h4⟩ :=
    skip_data_ranges_loop_spec log cur (log.data_range_count - c) c
  unfold skip_data_ranges
  refine ⟨h1, fun hc => by omega, h3, fun hlt => ?_⟩
  by_contra hcon
  exact h4 (by omega) ⟨hlt, by omega⟩

theorem skip_comments_loop_spec (log : a64log_context) (cur : Nat) :
    ∀ n c, c ≤ skip_comments_loop log cur n c ∧
      skip_comments_loop log cur n c ≤ c + n ∧
      (∀ j, c ≤ j → j < skip_comments_loop log cur n c →
        j < log.comment_count ∧ (log.comment_list j).base < cur) ∧
      (skip_comments_loop log cur n c < c + n →
        ¬ (skip_comments_loop log cur n c < log.comment_count ∧
            cur > (log.comment_list (skip_comments_loop log cur n c)).base)) := by
  intro n
  induction n with
  | zero =>
    intro c
    simp [skip_comments_loop]
    intro j h1 h2
    omega
  | succ n ih =>
    intro c
    unfold skip_comments_loop
    split
    · rename_i h
      obtain ⟨h1, h2, h3, h4⟩ := ih (c + 1)
      refine ⟨by omega, by omega, ?_, ?_⟩
      · intro j hj1 hj2
        rcases Nat.eq_or_lt_of_le hj1 with rfl | hlt
        · exact h
        · exact h3 j hlt hj2
      · intro hlt
        exact h4 (by omega)
    · rename_i h
      refine ⟨le_refl _, by omega, ?_, fun _ => h⟩
      intro j h1 h2
      omega

theorem skip_comments_spec (log : a64log_context) (cur c : Nat) :
    c ≤ skip_comments log cur c ∧
      (c ≤ log.comment_count → skip_comments log cur c ≤ log.comment_count) ∧
      (∀ j, c ≤ j → j < skip_comments log cur c →
        j < log.comment_count ∧ (log.comment_list j).base < cur) ∧
      (skip_comments log cur c < log.comment_count →
        cur ≤ (log.comment_list (skip_comments log cur c)).base) := by
  obtain ⟨h1, h2, h3, h4⟩ :=
    skip_comments_loop_spec log cur (log.comment_count - c) c
  unfold skip_comments
  refine ⟨h1, fun hc => by omega, h3, fun hlt => ?_⟩
  by_contra hcon
  exact h4 (by omega) ⟨hlt, by omega⟩

theorem stacked_comments_loop_spec (log : a64log_context) (cur : Nat) :
    ∀ n c, c ≤ (stacked_comments_loop log cur n c).1 ∧
      (stacked_comments_loop log cur n c).1 ≤ c + n ∧
      (stacked_comments_loop log cur n c).2 =
        (List.range' c ((stacked_comments_loop log cur n c).1 - c)).map
          (fun j => log_event.comment_line cur ""
            (comment_string log (log.comment_list j))) ∧
      (∀ j, c < j → j ≤ (stacked_comments_loop log cur n c).1 →
        j < log.comment_count ∧ (log.comment_list j).base = cur) ∧
      ((stacked_comments_loop log cur n c).1 < c + n →
        ¬ ((stacked_comments_loop log cur n c).1 + 1 < log.comment_count ∧
            cur = (log.comment_list ((stacked_comments_loop log cur n c).1 + 1)).base)) := by
  intro n
  induction n with
  | zero =>
    intro c
    simp [stacked_comments_loop]
    intro j h1 h2
    omega
  | succ n ih =>
    intro c
    unfold stacked_comments_loop
    split
    · rename_i h
      obtain ⟨h1, h2, h3, h4, h5⟩ := ih (c + 1)
      refine ⟨by simp only []; omega, by simp only []; omega, ?_, ?_, ?_⟩
      · simp only []
        rw [h3]
        have hk : (stacked_comments_loop log cur n (c + 1)).1 - c =
            ((stacked_comments_loop log cur n (c + 1)).1 - (c + 1)) + 1 := by omega
        rw [hk, List.range'_succ, List.map_cons]
      · intro j hj1 hj2
        rcases Nat.eq_or_lt_of_le (Nat.succ_le_of_lt hj1) with heq | hlt
        · have : j = c + 1 := by omega
          subst this
          exact ⟨h.1, h.2.symm⟩
        · exact h4 j hlt hj2
      · intro hlt
        exact h5 (by simp only [] at hlt; omega)
    · rename_i h
      refine ⟨le_refl _, by simp, by simp, ?_, fun _ => h⟩
      intro j h1 h2
      simp only [] at h2
      omega

theorem stacked_comments_spec (log : a64log_context) (cur c : Nat)
    (hc : c < log.comment_count) :
    c ≤ (stacked_comments log cur c).1 ∧
      (stacked_comments log cur c).1 < log.comment_count ∧
      (stacked_comments log cur c).2 =
        (List.range' c ((stacked_comments log cur c).1 - c)).map
          (fun j => log_event.comment_line cur ""
            (comment_string log (log.comment_list j))) ∧
      (∀ j, c < j → j ≤ (stacked_comments log cur c).1 →
        (log.comment_list j).base = cur) ∧
      ((stacked_comments log cur c).1 + 1 < log.comment_count →
        cur ≠ (log.comment_list ((stacked_comments log cur c).1 + 1)).base) := by
  obtain ⟨h1, h2, h3, h4, h5⟩ :=
    stacked_comments_loop_spec log cur (log.comment_count - c) c
  unfold stacked_comments
  have hlt : (stacked_comments_loop log cur (log.comment_count - c) c).1 <
      log.comment_count := by
    rcases Nat.eq_or_lt_of_le h1 with heq | hgt
    · omega
    · exact (h4 _ hgt (le_refl _)).1
  refine ⟨h1, hlt, h3, fun j hj1 hj2 => (h4 j hj1 hj2).2, fun hnext hcur => ?_⟩
  exact h5 (by omega) ⟨hnext, hcur⟩

theorem data_ranges_ordered_lt (log : a64log_context) (h : data_ranges_ordered log) :
    ∀ j, j < log.data_range_count → ∀ i, i < j →
      (log.data_range i).end_ < (log.data_range j).base := by
  intro j
  induction j with
  | zero => intro _ i hi; omega
  | succ j ih =>
    intro hj i hi
    have hstep := h.2 (j + 1) hj
    simp at hstep
    rcases Nat.eq_or_lt_of_le (Nat.le_of_lt_succ hi) with rfl | hlt
    · exact hstep
    · have h1 := ih (by omega) i hlt
      have h2 := (h.1 j (by omega)).1
      omega

theorem comments_ordered_le (log : a64log_context) (h : comments_ordered log) :
    ∀ j, j < log.comment_count → ∀ i, i ≤ j →
      (log.comment_list i).base ≤ (log.comment_list j).base := by
  intro j
  induction j with
  | zero => intro _ i hi; have : i = 0 := by omega
            subst this; exact le_refl _
  | succ j ih =>
    intro hj i hi
    have hstep := h (j + 1) hj
    simp at hstep
    rcases Nat.eq_or_lt_of_le hi with rfl | hlt
    · exact le_refl _
    · have h1 := ih (by omega) i (by omega)
      omega

theorem render_loop_reach (mem : Nat → Nat) (dis : Nat → String × Nat)
    (log : a64log_context) (stop : Nat) (st0 : render_state) :
    ∀ fuel st1 st, render_reach mem dis log stop st0 st1 →
      render_loop mem dis log stop fuel st1 = some st →
      render_reach mem dis log stop st0 st ∧ stop ≤ st.cur := by
  intro fuel
  induction fuel with
  | zero =>
    intro st1 st hr hl
    unfold render_loop at hl
    split at hl
    · exact absurd hl (by simp)
    · rename_i hge
      simp at hl
      subst hl
      exact ⟨hr, by omega⟩
  | succ fuel ih =>
    intro st1 st hr hl
    unfold render_loop at hl
    split at hl
    · rename_i hlt
      exact ih _ st (render_reach.step hr hlt) hl
    · rename_i hge
      simp at hl
      subst hl
      exact ⟨hr, by omega⟩

/-! ## The reference scenario -/

theorem scenario_walk (mem : Nat → Nat) (dis : Nat → String × Nat)
    (fuel : Nat) (log : a64log_context)
    (hc : log.data_range_count = 1)
    (hd0 : log.data_range 0 = { base := 0x1000, end_ := 0x1003, size := 4 })
    (hd1 : log.data_range 1 = {})
    (hcc : log.comment_count = 1)
    (hcl : (log.comment_list 0).base = 0x1000)
    (hs : comment_string log (log.comment_list 0) = "const")
    (hfiller : mem 0x1004 = 0xCC) (hinsn : mem 0x1005 % 256 ≠ 0xCC)
    (hdis : dis 0x1005 = ("NOP", 2)) (hfuel : 3 ≤ fuel) :
    render mem dis fuel log none 0x1000 0x1007 =
      some { cur := 0x1007, curdata := 1, curcomment := 1
             out := [log_event.comment_line 0x1000
                      ("dd      " ++ String.mk (hex_digits 8 (r32 mem 0x1000))) "const",
                     log_event.plain_line 0x1005 "NOP"]
             dis_calls := [0x1005] } := by
  obtain ⟨n, rfl⟩ := Nat.exists_eq_add_of_le hfuel
  have h3 : 3 + n = (n + 2) + 1 := by omega
  rw [h3]
  simp [render, render_start, render_loop, render_iter, skip_data_ranges, skip_data_ranges_loop,
      skip_comments, skip_comments_loop, print_and_advance, stacked_comments, stacked_comments_loop,
      data_text, r8, hfiller, hdis, hc, hd0, hd1, hcc, hcl, hs, hinsn]
  cases n <;> simp [render_loop]

theorem scenario_context (filename : String) (log : a64log_context)
    (hlog : log = a64log_add_comment
          (a64log_mark_as_data (a64log_create_context filename) 0x1000 0x1003 4)
          0x1000 "const".toList "const".toList ∨
      log = a64log_mark_as_data
          (a64log_add_comment (a64log_create_context filename) 0x1000
            "const".toList "const".toList) 0x1000 0x1003 4) :
    log.data_range_count = 1 ∧
      log.data_range 0 = { base := 0x1000, end_ := 0x1003, size := 4 } ∧
      log.data_range 1 = {} ∧ log.comment_count = 1 ∧ (log.comment_list 0).base = 0x1000 ∧
      comment_string log (log.comment_list 0) = "const" := by
  rcases hlog with rfl | rfl
  · exact ⟨rfl, rfl, rfl, rfl, rfl, by rfl⟩
  · exact ⟨rfl, rfl, rfl, rfl, rfl, by rfl⟩

/-- Claim C1. On a freshly created context holding the data range [0x1000,0x1003] of size 4
and the comment "const" at 0x1000 (registered in either order), with the filler byte 0xCC at
0x1004, an instruction byte (not the filler) at 0x1005 and a disassembler that returns
("NOP", 2) at 0x1005, `a64log_disasm_code_range` over [0x1000, 0x1007) with no label
returns and prints exactly two lines: at 0x1000 the 4-byte literal `dd` of the little-endian
value of the bytes at 0x1000..0x1003 with the comment "const", then at 0x1005 the text "NOP"
with no comment; nothing is printed for 0x1004, the disassembler is invoked at 0x1005 only,
and with a sink that opens the two lines are what the file holds. -/
theorem scenario_two_lines (filename : String) (mem : Nat → Nat)
    (dis : Nat → String × Nat) (fuel : Nat) (log : a64log_context)
    (hlog : log = a64log_add_comment
          (a64log_mark_as_data (a64log_create_context filename) 0x1000 0x1003 4)
          0x1000 "const".toList "const".toList ∨
      log = a64log_mark_as_data
          (a64log_add_comment (a64log_create_context filename) 0x1000
            "const".toList "const".toList) 0x1000 0x1003 4)
    (hfiller : mem 0x1004 = 0xCC) (hinsn : mem 0x1005 % 256 ≠ 0xCC)
    (hdis : dis 0x1005 = ("NOP", 2)) (hfuel : 3 ≤ fuel) :
    (render mem dis fuel log none 0x1000 0x1007).map
        (fun st => (st.out, st.dis_calls, st.cur)) =
      some ([log_event.comment_line 0x1000
              ("dd      " ++ String.mk (hex_digits 8
                (mem 0x1000 % 256 + 256 * (mem 0x1001 % 256) + 65536 * (mem 0x1002 % 256)
                  + 16777216 * (mem 0x1003 % 256)))) "const",
             log_event.plain_line 0x1005 "NOP"], [0x1005], 0x1007) ∧
    ∀ fopen_ok : Nat → Bool, fopen_ok 0 = true →
      (a64log_disasm_code_range fopen_ok mem dis fuel (log, {}) none 0x1000 0x1007).map
          (fun q => q.2.written) =
        some [log_event.comment_line 0x1000
              ("dd      " ++ String.mk (hex_digits 8
                (mem 0x1000 % 256 + 256 * (mem 0x1001 % 256) + 65536 * (mem 0x1002 % 256)
                  + 16777216 * (mem 0x1003 % 256)))) "const",
             log_event.plain_line 0x1005 "NOP"] := by
  obtain ⟨hc, hd0, hd1, hcc, hcl, hs⟩ := scenario_context filename log hlog
  have hw := scenario_walk mem dis fuel log hc hd0 hd1 hcc hcl hs hfiller hinsn hdis hfuel
  have hv : r32 mem 0x1000 = mem 0x1000 % 256 + 256 * (mem 0x1001 % 256)
      + 65536 * (mem 0x1002 % 256) + 16777216 * (mem 0x1003 % 256) := by
    simp only [r32, r16, r8]
    norm_num
    omega
  have hfile : log.file = none := by
    rcases hlog with rfl | rfl <;> rfl
  rw [hv] at hw
  refine ⟨by rw [hw]; rfl, fun fopen_ok hok => ?_⟩
  simp [a64log_disasm_code_range, hw, a64log_printf, hfile, hok]

theorem scenario_two_lines_witness :
    (render scenario_mem scenario_dis 3
        (a64log_add_comment
          (a64log_mark_as_data (a64log_create_context "a64.log") 0x1000 0x1003 4)
          0x1000 "const".toList "const".toList) none 0x1000 0x1007).map
        (fun st => (st.out, st.dis_calls, st.cur)) =
      some ([log_event.comment_line 0x1000 "dd      12345678" "const",
             log_event.plain_line 0x1005 "NOP"], [0x1005], 0x1007) :=
  (scenario_two_lines "a64.log" scenario_mem scenario_dis 3 _ (Or.inl rfl) rfl
    (by decide) rfl (le_refl 3)).1

/-! ## The walk: what one round prints and how the cursor moves -/

theorem print_and_advance_fields (log : a64log_context) (st : render_state)
    (buffer : String) (bytes : Int) :
    (print_and_advance log st buffer bytes).cur = Int.toNat (st.cur + bytes) ∧
      (print_and_advance log st buffer bytes).curdata = st.curdata ∧
      (print_and_advance log st buffer bytes).dis_calls = st.dis_calls := by
  unfold print_and_advance
  split <;> exact ⟨rfl, rfl, rfl⟩

theorem print_and_advance_out (log : a64log_context) (st : render_state)
    (buffer : String) (bytes : Int) :
    ∃ stacked last, (print_and_advance log st buffer bytes).out = st.out ++ stacked ++ [last] ∧
      event_addr last = some st.cur ∧ event_buffer last = buffer ∧
      ∀ e, e ∈ stacked → event_addr e = some st.cur ∧ event_buffer e = "" ∧
        event_comment e ≠ none := by
  unfold print_and_advance
  split
  · rename_i h
    refine ⟨(stacked_comments log st.cur st.curcomment).2,
      log_event.comment_line st.cur buffer (comment_string log
        (log.comment_list (stacked_comments log st.cur st.curcomment).1)), rfl, rfl, rfl, ?_⟩
    intro e he
    rw [(stacked_comments_spec log st.cur st.curcomment h.1).2.2.1] at he
    simp only [List.mem_map] at he
    obtain ⟨j, _, rfl⟩ := he
    exact ⟨rfl, rfl, by simp [event_comment]⟩
  · exact ⟨[], log_event.plain_line st.cur buffer, by simp, rfl, rfl, by simp⟩

theorem skip_data_ranges_eq_of_in_range (log : a64log_context) (st : render_state) (i : Nat)
    (hord : data_ranges_ordered log) (hinv : data_cursor_ok log st)
    (hi : i < log.data_range_count) (hin : in_data_range log i st.cur) :
    skip_data_ranges log st.cur st.curdata = i := by
  obtain ⟨h1, h2, h3, h4⟩ := skip_data_ranges_spec log st.cur st.curdata
  have hle := h2 hinv.1
  unfold in_data_range at hin
  rcases Nat.lt_trichotomy (skip_data_ranges log st.cur st.curdata) i with hlt | heq | hgt
  · have ha := h4 (by omega)
    have hb := data_ranges_ordered_lt log hord i hi _ hlt
    omega
  · exact heq
  · by_cases hc : i < st.curdata
    · have := hinv.2 i hc
      omega
    · have := (h3 i (by omega) hgt).2
      omega

theorem render_iter_cur_ge (mem : Nat → Nat) (dis : Nat → String × Nat)
    (log : a64log_context) (st : render_state)
    (hord : data_ranges_ordered log)
    (hslot : 0 ≤ (log.data_range log.data_range_count).size)
    (hinv : data_cursor_ok log st) :
    st.cur ≤ (render_iter mem dis log st).cur := by
  obtain ⟨h1, h2, h3, h4⟩ := skip_data_ranges_spec log st.cur st.curdata
  have hle := h2 hinv.1
  have hsz : 0 ≤ (log.data_range (skip_data_ranges log st.cur st.curdata)).size := by
    rcases Nat.eq_or_lt_of_le hle with heq | hlt
    · rw [heq]; exact hslot
    · rcases (hord.1 _ hlt).2 with h | h | h | h <;> omega
  unfold render_iter
  simp only []
  split
  · rw [(print_and_advance_fields log _ _ _).1]
    simp only []
    omega
  · split
    · simp only []
      omega
    · rw [(print_and_advance_fields log _ _ _).1]
      simp only []
      omega

theorem render_iter_curdata (mem : Nat → Nat) (dis : Nat → String × Nat)
    (log : a64log_context) (st : render_state) :
    (render_iter mem dis log st).curdata = skip_data_ranges log st.cur st.curdata := by
  unfold render_iter
  simp only []
  split
  · rw [(print_and_advance_fields log _ _ _).2.1]
  · split
    · rfl
    · rw [(print_and_advance_fields log _ _ _).2.1]

theorem render_iter_data_cursor_ok (mem : Nat → Nat) (dis : Nat → String × Nat)
    (log : a64log_context) (st : render_state)
    (hord : data_ranges_ordered log)
    (hslot : 0 ≤ (log.data_range log.data_range_count).size)
    (hinv : data_cursor_ok log st) :
    data_cursor_ok log (render_iter mem dis log st) := by
  obtain ⟨h1, h2, h3, h4⟩ := skip_data_ranges_spec log st.cur st.curdata
  have hge := render_iter_cur_ge mem dis log st hord hslot hinv
  unfold data_cursor_ok
  rw [render_iter_curdata]
  refine ⟨h2 hinv.1, fun j hj => ?_⟩
  by_cases hc : j < st.curdata
  · have := hinv.2 j hc
    omega
  · have := (h3 j (by omega) hj).2
    omega

theorem render_reach_data_cursor_ok (mem : Nat → Nat) (dis : Nat → String × Nat)
    (log : a64log_context) (stop : Nat) (st0 st : render_state)
    (hord : data_ranges_ordered log)
    (hslot : 0 ≤ (log.data_range log.data_range_count).size)
    (h0 : data_cursor_ok log st0)
    (hreach : render_reach mem dis log stop st0 st) :
    data_cursor_ok log st := by
  induction hreach with
  | start => exact h0
  | step _ _ ih => exact render_iter_data_cursor_ok mem dis log _ hord hslot ih

theorem render_start_data_cursor_ok (log : a64log_context) (label : Option String)
    (start : Nat) : data_cursor_ok log (render_start label start) := by
  unfold data_cursor_ok render_start
  simp

theorem render_iter_in_range (mem : Nat → Nat) (dis : Nat → String × Nat)
    (log : a64log_context) (st : render_state) (i : Nat)
    (hord : data_ranges_ordered log) (hinv : data_cursor_ok log st)
    (hi : i < log.data_range_count) (hin : in_data_range log i st.cur) :
    render_iter mem dis log st =
      print_and_advance log
        { st with curdata := i, curcomment := skip_comments log st.cur st.curcomment }
        (data_text mem st.cur (log.data_range i).size) (log.data_range i).size := by
  have hskip := skip_data_ranges_eq_of_in_range log st i hord hinv hi hin
  unfold in_data_range at hin
  unfold render_iter
  simp only [hskip]
  rw [if_pos ⟨hin.1, hin.2⟩]

theorem render_iter_dis_calls (mem : Nat → Nat) (dis : Nat → String × Nat)
    (log : a64log_context) (st : render_state)
    (hord : data_ranges_ordered log) (hinv : data_cursor_ok log st) :
    (render_iter mem dis log st).dis_calls = st.dis_calls ∨
      ((render_iter mem dis log st).dis_calls = st.dis_calls ++ [st.cur] ∧
        ∀ i, i < log.data_range_count → ¬ in_data_range log i st.cur) := by
  by_cases hex : ∃ i, i < log.data_range_count ∧ in_data_range log i st.cur
  · obtain ⟨i, hi, hin⟩ := hex
    left
    rw [render_iter_in_range mem dis log st i hord hinv hi hin,
      (print_and_advance_fields log _ _ _).2.2]
  · unfold render_iter
    simp only []
    split
    · left
      rw [(print_and_advance_fields log _ _ _).2.2]
    · split
      · left; rfl
      · right
        rw [(print_and_advance_fields log _ _ _).2.2]
        exact ⟨rfl, fun i hi hin => hex ⟨i, hi, hin⟩⟩

theorem render_reach_dis_calls (mem : Nat → Nat) (dis : Nat → String × Nat)
    (log : a64log_context) (stop : Nat) (st0 st : render_state)
    (hord : data_ranges_ordered log)
    (hslot : 0 ≤ (log.data_range log.data_range_count).size)
    (h0 : data_cursor_ok log st0) (hd0 : st0.dis_calls = [])
    (hreach : render_reach mem dis log stop st0 st) :
    ∀ a, a ∈ st.dis_calls → ∀ i, i < log.data_range_count → ¬ in_data_range log i a := by
  induction hreach with
  | start => intro a ha; rw [hd0] at ha; simp at ha
  | @step st1 hr _ ih =>
    have hinv := render_reach_data_cursor_ok mem dis log stop st0 st1 hord hslot h0 hr
    intro a ha
    rcases render_iter_dis_calls mem dis log st1 hord hinv with heq | ⟨heq, hno⟩
    · rw [heq] at ha
      exact ih a ha
    · rw [heq, List.mem_append] at ha
      rcases ha with ha | ha
      · exact ih a ha
      · simp at ha
        subst ha
        exact hno

/-- Claim C2, amended to registries that hold what `a64log_mark_as_data` asserts
(every registered range has `end >= base` and a size of 1, 2, 4 or 8, each `base` lies above
the previous `end`) and whose slot just past the count has no negative size. At every
address `A = st.cur` at which the cursor of the render loop lands inside a registered range
`i` of size `s`, the round does not invoke the disassembler, prints as its last line for `A`
the `s`-byte literal `data_text mem A s` (for `s = 4`: `dd` and 8 hex digits of the 32-bit
value at `A`), any lines before it in that round being stacked comments at `A` with empty
text, and advances the cursor by `s`; and in no state of the loop, so in no finished render,
has the disassembler been invoked at an address inside a registered range. -/
theorem data_range_takes_precedence (mem : Nat → Nat) (dis : Nat → String × Nat)
    (log : a64log_context) (label : Option String) (start stop : Nat) (st : render_state)
    (hord : data_ranges_ordered log)
    (hslot : 0 ≤ (log.data_range log.data_range_count).size)
    (hreach : render_reach mem dis log stop (render_start label start) st) :
    (∀ i, i < log.data_range_count → st.cur < stop → in_data_range log i st.cur →
      (render_iter mem dis log st).dis_calls = st.dis_calls ∧
      ((render_iter mem dis log st).cur : Int) = st.cur + (log.data_range i).size ∧
      (∃ stacked last,
        (render_iter mem dis log st).out = st.out ++ stacked ++ [last] ∧
        event_addr last = some st.cur ∧
        event_buffer last = data_text mem st.cur (log.data_range i).size ∧
        ((log.data_range i).size = 4 →
          event_buffer last = "dd      " ++ String.mk (hex_digits 8 (r32 mem st.cur))) ∧
        ∀ e, e ∈ stacked → event_addr e = some st.cur ∧ event_buffer e = "")) ∧
    (∀ a, a ∈ st.dis_calls → ∀ i, i < log.data_range_count → ¬ in_data_range log i a) ∧
    (∀ fuel st1, render mem dis fuel log label start stop = some st1 →
      ∀ a, a ∈ st1.dis_calls → ∀ i, i < log.data_range_count → ¬ in_data_range log i a) := by
  have h0 := render_start_data_cursor_ok log label start
  have hd0 : (render_start label start).dis_calls = [] := rfl
  refine ⟨fun i hi _ hin => ?_, ?_, ?_⟩
  · have hinv := render_reach_data_cursor_ok mem dis log stop _ st hord hslot h0 hreach
    rw [render_iter_in_range mem dis log st i hord hinv hi hin]
    obtain ⟨hcur, _, hdc⟩ := print_and_advance_fields log
      { st with curdata := i, curcomment := skip_comments log st.cur st.curcomment }
      (data_text mem st.cur (log.data_range i).size) (log.data_range i).size
    obtain ⟨stacked, last, hout, hla, hlb, hst⟩ := print_and_advance_out log
      { st with curdata := i, curcomment := skip_comments log st.cur st.curcomment }
      (data_text mem st.cur (log.data_range i).size) (log.data_range i).size
    refine ⟨hdc, ?_, stacked, last, hout, hla, hlb, ?_, fun e he => ⟨(hst e he).1, (hst e he).2.1⟩⟩
    · rw [hcur]
      have hsz := (hord.1 i hi).2
      simp only []
      rcases hsz with h | h | h | h <;> omega
    · intro h4
      rw [hlb, h4]
      simp [data_text]
  · exact render_reach_dis_calls mem dis log stop _ st hord hslot h0 hd0 hreach
  · intro fuel st1 hrun
    have hr := (render_loop_reach mem dis log stop (render_start label start) fuel _ st1
      render_reach.start hrun).1
    exact render_reach_dis_calls mem dis log stop _ st1 hord hslot h0 hd0 hr

theorem data_range_takes_precedence_witness :
    data_ranges_ordered scenario_log ∧ in_data_range scenario_log 0 0x1000 ∧
      (render_iter scenario_mem scenario_dis scenario_log (render_start none 0x1000)).dis_calls
        = [] :=
  ⟨by decide, by decide,
    ((data_range_takes_precedence scenario_mem scenario_dis scenario_log none 0x1000 0x1007
      (render_start none 0x1000) (by decide) (by decide) render_reach.start).1
      0 (by decide) (by decide) (by decide)).1⟩

/-- Claim C2 as stated fails when the ranges were registered out of order or with a size
other than 1, 2, 4, 8 (assertions off). With [0x2000,0x2003] registered before
[0x1000,0x1003], the walk over [0x1000,0x1004) invokes the disassembler at 0x1000..0x1003,
all inside the second registered range, and prints no data literal. With [0x1000,0x1002]
registered with size 3, the line at 0x1000 is the one-byte literal `db 78`. With the size
-4 left in the slot past the count by an earlier pass, the walk from 0x1000 prints the
range [0x1000,0x1003], takes the stale slot at 0x1004, steps back to 0x1000 and there
invokes the disassembler inside the registered range. -/
theorem data_range_precedence_counterexample :
    (unordered_ranges_log.data_range_count = 2 ∧
      in_data_range unordered_ranges_log 1 0x1000 ∧
      (render scenario_mem scenario_dis 4 unordered_ranges_log none 0x1000 0x1004).map
          (fun st => (st.out, st.dis_calls)) =
        some ([log_event.plain_line 0x1000 "???", log_event.plain_line 0x1001 "???",
               log_event.plain_line 0x1002 "???", log_event.plain_line 0x1003 "???"],
              [0x1000, 0x1001, 0x1002, 0x1003])) ∧
    (odd_size_log.data_range_count = 1 ∧ in_data_range odd_size_log 0 0x1000 ∧
      (odd_size_log.data_range 0).size = 3 ∧
      (render scenario_mem scenario_dis 1 odd_size_log none 0x1000 0x1003).map
          (fun st => (st.out, st.cur)) =
        some ([log_event.plain_line 0x1000 "db      78"], 0x1003)) ∧
    (negative_slot_log.data_range_count = 1 ∧ in_data_range negative_slot_log 0 0x1000 ∧
      (negative_slot_log.data_range 1).size = -4 ∧
      (render_iter scenario_mem scenario_dis negative_slot_log
        (render_iter scenario_mem scenario_dis negative_slot_log
          (render_iter scenario_mem scenario_dis negative_slot_log
            (render_start none 0x1000)))).dis_calls = [0x1000]) := by
  decide

/-! ## The walk as a chain of states -/

theorem render_reach_trans (mem : Nat → Nat) (dis : Nat → String × Nat)
    (log : a64log_context) (stop : Nat) (a b c : render_state)
    (hab : render_reach mem dis log stop a b) (hbc : render_reach mem dis log stop b c) :
    render_reach mem dis log stop a c := by
  induction hbc with
  | start => exact hab
  | step _ hlt ih => exact render_reach.step ih hlt

theorem render_reach_eq_or_step (mem : Nat → Nat) (dis : Nat → String × Nat)
    (log : a64log_context) (stop : Nat) (s a : render_state)
    (h : render_reach mem dis log stop s a) :
    a = s ∨ (s.cur < stop ∧ render_reach mem dis log stop (render_iter mem dis log s) a) := by
  induction h with
  | start => exact Or.inl rfl
  | @step a1 _ hlt ih =>
    rcases ih with heq | ⟨hs, hr⟩
    · subst heq
      exact Or.inr ⟨hlt, render_reach.start⟩
    · exact Or.inr ⟨hs, render_reach.step hr hlt⟩

theorem render_reach_linear (mem : Nat → Nat) (dis : Nat → String × Nat)
    (log : a64log_context) (stop : Nat) (s a b : render_state)
    (ha : render_reach mem dis log stop s a) (hb : render_reach mem dis log stop s b) :
    render_reach mem dis log stop a b ∨ render_reach mem dis log stop b a := by
  induction hb with
  | start => exact Or.inr ha
  | @step b1 _ hlt ih =>
    rcases ih with h | h
    · exact Or.inl (render_reach.step h hlt)
    · rcases render_reach_eq_or_step mem dis log stop b1 a h with heq | ⟨_, hr⟩
      · subst heq
        exact Or.inl (render_reach.step render_reach.start hlt)
      · exact Or.inr hr

/-- A state of the loop with `cur < stop` lies before every state with `cur >= stop`. -/
theorem render_reach_before_exit (mem : Nat → Nat) (dis : Nat → String × Nat)
    (log : a64log_context) (stop : Nat) (s a b : render_state)
    (ha : render_reach mem dis log stop s a) (hb : render_reach mem dis log stop s b)
    (halt : a.cur < stop) (hbge : stop ≤ b.cur) :
    render_reach mem dis log stop (render_iter mem dis log a) b := by
  rcases render_reach_linear mem dis log stop s a b ha hb with h | h
  · rcases render_reach_eq_or_step mem dis log stop a b h with heq | ⟨_, hr⟩
    · subst heq; omega
    · exact hr
  · rcases render_reach_eq_or_step mem dis log stop b a h with heq | ⟨hlt, _⟩
    · subst heq; omega
    · omega

theorem render_iter_eq (mem : Nat → Nat) (dis : Nat → String × Nat)
    (log : a64log_context) (st : render_state) :
    render_iter mem dis log st =
      if takes_filler mem log st then
        { st with cur := st.cur + 1
                  curdata := skip_data_ranges log st.cur st.curdata
                  curcomment := skip_comments log st.cur st.curcomment }
      else
        print_and_advance log
          { st with curdata := skip_data_ranges log st.cur st.curdata
                    curcomment := skip_comments log st.cur st.curcomment
                    dis_calls := if takes_data log st then st.dis_calls
                      else st.dis_calls ++ [st.cur] }
          (element_buffer mem dis log st) (element_bytes dis log st) := by
  unfold render_iter takes_filler element_buffer element_bytes takes_data in_data_range
  simp only []
  by_cases h1 : (log.data_range (skip_data_ranges log st.cur st.curdata)).base ≤ st.cur ∧
      st.cur ≤ (log.data_range (skip_data_ranges log st.cur st.curdata)).end_
  · simp [h1]
  · by_cases h2 : r8 mem st.cur = 0xcc
    · simp [h1, h2]
    · simp [h1, h2]

theorem element_bytes_pos (dis : Nat → String × Nat) (log : a64log_context) (start : Nat)
    (st : render_state) (hadv : elements_advance dis log start) (hok : walk_ok log start st) :
    1 ≤ element_bytes dis log st := by
  unfold element_bytes
  split
  · rename_i hd
    unfold takes_data in_data_range at hd
    have hle := (skip_data_ranges_spec log st.cur st.curdata).2.1 hok.2.1
    exact hadv.2 _ hle (by have := hok.1; omega)
  · have := hadv.1 st.cur
    omega

/-- The lines one round prints, all for the address `st.cur`. -/
theorem render_iter_out (mem : Nat → Nat) (dis : Nat → String × Nat)
    (log : a64log_context) (st : render_state) :
    ∃ lines, (render_iter mem dis log st).out = st.out ++ lines ∧
      ∀ e, e ∈ lines → event_addr e = some st.cur := by
  rw [render_iter_eq]
  split
  · exact ⟨[], by simp, by simp⟩
  · obtain ⟨stacked, last, hout, hla, _, hst⟩ := print_and_advance_out log
      { st with curdata := skip_data_ranges log st.cur st.curdata
                curcomment := skip_comments log st.cur st.curcomment
                dis_calls := if takes_data log st then st.dis_calls
                  else st.dis_calls ++ [st.cur] }
      (element_buffer mem dis log st) (element_bytes dis log st)
    refine ⟨stacked ++ [last], by rw [hout]; simp, fun e he => ?_⟩
    rw [List.mem_append] at he
    rcases he with he | he
    · exact (hst e he).1
    · simp at he
      subst he
      exact hla

theorem render_iter_cur (mem : Nat → Nat) (dis : Nat → String × Nat)
    (log : a64log_context) (st : render_state) :
    (render_iter mem dis log st).cur =
      if takes_filler mem log st then st.cur + 1
      else Int.toNat (st.cur + element_bytes dis log st) := by
  rw [render_iter_eq]
  split
  · rfl
  · rw [(print_and_advance_fields log _ _ _).1]

theorem render_iter_cur_gt (mem : Nat → Nat) (dis : Nat → String × Nat)
    (log : a64log_context) (start : Nat) (st : render_state)
    (hadv : elements_advance dis log start) (hok : walk_ok log start st) :
    st.cur < (render_iter mem dis log st).cur := by
  rw [render_iter_cur]
  have := element_bytes_pos dis log start st hadv hok
  split <;> omega

theorem print_and_advance_curcomment (log : a64log_context) (st : render_state)
    (buffer : String) (bytes : Int)
    (hc : ∀ j, j < st.curcomment → j < log.comment_count ∧ (log.comment_list j).base < st.cur) :
    ∀ j, j < (print_and_advance log st buffer bytes).curcomment →
      j < log.comment_count ∧ (log.comment_list j).base ≤ st.cur := by
  unfold print_and_advance
  split
  · rename_i h
    obtain ⟨h1, h2, _, h4, _⟩ := stacked_comments_spec log st.cur st.curcomment h.1
    intro j hj
    simp only [] at hj
    refine ⟨by omega, ?_⟩
    rcases Nat.lt_trichotomy j st.curcomment with hlt | heq | hgt
    · exact le_of_lt (hc j hlt).2
    · subst heq; exact le_of_eq h.2.symm
    · exact le_of_eq (h4 j hgt (by omega))
  · intro j hj
    exact ⟨(hc j hj).1, le_of_lt (hc j hj).2⟩

theorem skip_comments_passed (log : a64log_context) (st : render_state)
    (hc : ∀ j, j < st.curcomment → j < log.comment_count ∧ (log.comment_list j).base < st.cur) :
    ∀ j, j < skip_comments log st.cur st.curcomment →
      j < log.comment_count ∧ (log.comment_list j).base < st.cur := by
  intro j hj
  by_cases h : j < st.curcomment
  · exact hc j h
  · exact (skip_comments_spec log st.cur st.curcomment).2.2.1 j (by omega) hj

theorem render_iter_walk_ok (mem : Nat → Nat) (dis : Nat → String × Nat)
    (log : a64log_context) (start : Nat) (st : render_state)
    (hadv : elements_advance dis log start) (hok : walk_ok log start st) :
    walk_ok log start (render_iter mem dis log st) := by
  have hgt := render_iter_cur_gt mem dis log start st hadv hok
  obtain ⟨lines, hout, hlines⟩ := render_iter_out mem dis log st
  refine ⟨by have := hok.1; omega, ?_, ?_, ?_⟩
  · rw [render_iter_curdata]
    exact (skip_data_ranges_spec log st.cur st.curdata).2.1 hok.2.1
  · have hsk := skip_comments_passed log st hok.2.2.1
    intro j hj
    rw [render_iter_eq] at hj
    split at hj
    · have := hsk j hj
      exact ⟨this.1, by omega⟩
    · have := print_and_advance_curcomment log _ _ _ hsk j hj
      simp only [] at this
      exact ⟨this.1, by omega⟩
  · intro e he a ha
    rw [hout, List.mem_append] at he
    rcases he with he | he
    · have := hok.2.2.2 e he a ha
      omega
    · rw [hlines e he] at ha
      simp at ha
      omega

theorem render_start_walk_ok (log : a64log_context) (label : Option String) (start : Nat) :
    walk_ok log start (render_start label start) := by
  refine ⟨le_refl _, Nat.zero_le _, fun j hj => absurd hj (Nat.not_lt_zero j), ?_⟩
  intro e he a ha
  unfold render_start at he
  cases label with
  | none => simp at he
  | some l =>
    simp at he
    subst he
    simp [event_addr] at ha

theorem render_reach_walk_ok (mem : Nat → Nat) (dis : Nat → String × Nat)
    (log : a64log_context) (start stop : Nat) (s st : render_state)
    (hadv : elements_advance dis log start) (hs : walk_ok log start s)
    (hreach : render_reach mem dis log stop s st) : walk_ok log start st := by
  induction hreach with
  | start => exact hs
  | step _ _ ih => exact render_iter_walk_ok mem dis log start _ hadv ih

/-- What the loop prints after a state is for addresses at or above that state's cursor. -/
theorem render_reach_out (mem : Nat → Nat) (dis : Nat → String × Nat)
    (log : a64log_context) (start stop : Nat) (s st : render_state)
    (hadv : elements_advance dis log start) (hs : walk_ok log start s)
    (hreach : render_reach mem dis log stop s st) :
    s.cur ≤ st.cur ∧ ∃ more, st.out = s.out ++ more ∧
      ∀ e, e ∈ more → ∀ a, event_addr e = some a → s.cur ≤ a := by
  induction hreach with
  | start => exact ⟨le_refl _, [], by simp, by simp⟩
  | @step st1 hr _ ih =>
    obtain ⟨hle, more, hmore, haddr⟩ := ih
    have hok1 := render_reach_walk_ok mem dis log start stop s st1 hadv hs hr
    have hgt := render_iter_cur_gt mem dis log start st1 hadv hok1
    obtain ⟨lines, hout, hlines⟩ := render_iter_out mem dis log st1
    refine ⟨by omega, more ++ lines, by rw [hout, hmore]; simp, fun e he a ha => ?_⟩
    rw [List.mem_append] at he
    rcases he with he | he
    · exact haddr e he a ha
    · rw [hlines e he] at ha
      simp at ha
      omega

/-! ## Comments stacked at one address -/

theorem filter_range_interval (p : Nat → Bool) :
    ∀ n lo hi, hi ≤ n → lo ≤ hi → (∀ j, j < n → (p j = true ↔ lo ≤ j ∧ j < hi)) →
      (List.range n).filter p = List.range' lo (hi - lo) := by
  intro n
  induction n with
  | zero =>
    intro lo hi h1 h2 _
    have : hi - lo = 0 := by omega
    simp [this]
  | succ n ih =>
    intro lo hi h1 h2 h
    rw [List.range_succ, List.filter_append]
    by_cases hp : p n = true
    · have hn := (h n (Nat.lt_succ_self n)).1 hp
      have hhi : hi = n + 1 := by omega
      subst hhi
      rw [ih lo n (le_refl n) (by omega) (fun j hj => by
        rw [h j (by omega)]
        constructor
        · intro hx; exact ⟨hx.1, hj⟩
        · intro hx; exact ⟨hx.1, by omega⟩)]
      have hk : n + 1 - lo = (n - lo) + 1 := by omega
      rw [hk, List.range'_concat]
      simp [hp]
      omega
    · have hn : ¬ (lo ≤ n ∧ n < hi) := fun hx => hp ((h n (Nat.lt_succ_self n)).2 hx)
      have hfil : List.filter p [n] = [] := by simp [hp]
      rw [hfil, List.append_nil]
      by_cases hc : hi ≤ n
      · exact ih lo hi hc h2 (fun j hj => h j (by omega))
      · have hlo : lo = n + 1 := by omega
        have hhi : hi = n + 1 := by omega
        subst hlo hhi
        rw [ih n n (le_refl n) (le_refl n) (fun j hj => by
          rw [h j (by omega)]
          constructor
          · intro hx; omega
          · intro hx; omega)]
        simp

theorem print_and_advance_matching (log : a64log_context) (st : render_state)
    (buffer : String) (bytes : Int)
    (h : st.curcomment < log.comment_count ∧ st.cur = (log.comment_list st.curcomment).base) :
    (print_and_advance log st buffer bytes).out =
      st.out ++
        (List.range' st.curcomment
          ((stacked_comments log st.cur st.curcomment).1 - st.curcomment)).map
          (fun j => log_event.comment_line st.cur ""
            (comment_string log (log.comment_list j))) ++
        [log_event.comment_line st.cur buffer (comment_string log
          (log.comment_list (stacked_comments log st.cur st.curcomment).1))] := by
  unfold print_and_advance
  rw [if_pos h]
  simp only []
  rw [(stacked_comments_spec log st.cur st.curcomment h.1).2.2.1]

theorem mem_comments_at (log : a64log_context) (a j : Nat) :
    j ∈ comments_at log a ↔ j < log.comment_count ∧ (log.comment_list j).base = a := by
  unfold comments_at
  simp

/-- With ordered comments and a comment cursor that has only passed comments below `cur`,
the comments registered at `cur` are the run of indices from where the skip loop stops to
where the stacking loop stops. -/
theorem comments_at_cur (log : a64log_context) (st : render_state)
    (hcom : comments_ordered log)
    (hc : ∀ j, j < st.curcomment → j < log.comment_count ∧ (log.comment_list j).base < st.cur)
    (hk : comments_at log st.cur ≠ []) :
    (skip_comments log st.cur st.curcomment < log.comment_count ∧
      st.cur = (log.comment_list (skip_comments log st.cur st.curcomment)).base) ∧
    comments_at log st.cur =
      List.range' (skip_comments log st.cur st.curcomment)
        ((stacked_comments log st.cur (skip_comments log st.cur st.curcomment)).1 -
          skip_comments log st.cur st.curcomment + 1) := by
  obtain ⟨j0, hj0⟩ := List.exists_mem_of_ne_nil _ hk
  rw [mem_comments_at] at hj0
  have hpassed := skip_comments_passed log st hc
  have hstop := (skip_comments_spec log st.cur st.curcomment).2.2.2
  have hcj0 : skip_comments log st.cur st.curcomment ≤ j0 := by
    by_contra hcon
    have := (hpassed j0 (by omega)).2
    omega
  have hclt : skip_comments log st.cur st.curcomment < log.comment_count := by omega
  have hbase : st.cur = (log.comment_list (skip_comments log st.cur st.curcomment)).base := by
    have h1 := hstop hclt
    have h2 := comments_ordered_le log hcom j0 hj0.1 _ hcj0
    omega
  refine ⟨⟨hclt, hbase⟩, ?_⟩
  obtain ⟨h1, h2, _, h4, h5⟩ :=
    stacked_comments_spec log st.cur (skip_comments log st.cur st.curcomment) hclt
  unfold comments_at
  have hiv := filter_range_interval
    (fun j => decide ((log.comment_list j).base = st.cur)) log.comment_count
    (skip_comments log st.cur st.curcomment)
    ((stacked_comments log st.cur (skip_comments log st.cur st.curcomment)).1 + 1)
    (by omega) (by omega) (fun j hj => by
      simp only [decide_eq_true_eq]
      constructor
      · intro hb
        constructor
        · by_contra hcon
          have := (hpassed j (by omega)).2
          omega
        · by_contra hcon
          have hnext : (stacked_comments log st.cur
              (skip_comments log st.cur st.curcomment)).1 + 1 < log.comment_count := by omega
          have hne := h5 hnext
          have hle1 := comments_ordered_le log hcom j hj
            ((stacked_comments log st.cur (skip_comments log st.cur st.curcomment)).1 + 1)
            (by omega)
          have hle2 := comments_ordered_le log hcom _ hnext
            (skip_comments log st.cur st.curcomment) (by omega)
          omega
      · intro hx
        rcases Nat.eq_or_lt_of_le hx.1 with heq | hgt
        · rw [← heq]; exact hbase.symm
        · exact h4 j hgt (by omega))
  rw [hiv]
  congr 1
  omega

theorem render_iter_out_commented (mem : Nat → Nat) (dis : Nat → String × Nat)
    (log : a64log_context) (st : render_state)
    (hcom : comments_ordered log)
    (hc : ∀ j, j < st.curcomment → j < log.comment_count ∧ (log.comment_list j).base < st.cur)
    (hnf : ¬ takes_filler mem log st)
    (hk : comments_at log st.cur ≠ []) :
    (render_iter mem dis log st).out =
      st.out ++
        ((comments_at log st.cur).dropLast.map
          (fun j => log_event.comment_line st.cur ""
            (comment_string log (log.comment_list j))) ++
        [log_event.comment_line st.cur (element_buffer mem dis log st)
          (comment_string log (log.comment_list ((comments_at log st.cur).getLast hk)))]) := by
  obtain ⟨hmatch, hat⟩ := comments_at_cur log st hcom hc hk
  have hge := (stacked_comments_spec log st.cur _ hmatch.1).1
  have hdrop : (comments_at log st.cur).dropLast =
      List.range' (skip_comments log st.cur st.curcomment)
        ((stacked_comments log st.cur (skip_comments log st.cur st.curcomment)).1 -
          skip_comments log st.cur st.curcomment) := by
    rw [hat, List.range'_concat, List.dropLast_concat]
  have hlast : (comments_at log st.cur).getLast hk =
      (stacked_comments log st.cur (skip_comments log st.cur st.curcomment)).1 := by
    have : (comments_at log st.cur).getLast? =
        some (stacked_comments log st.cur (skip_comments log st.cur st.curcomment)).1 := by
      rw [hat, List.range'_concat, List.getLast?_concat]
      congr 1
      omega
    rw [List.getLast?_eq_getLast _ hk] at this
    exact Option.some.inj this
  rw [render_iter_eq, if_neg hnf, print_and_advance_matching log _ _ _ hmatch, hdrop, hlast,
    List.append_assoc]

/-- Claim C3, amended to comments registered with non-decreasing addresses and elements
that advance (the disassembler consumes at least one byte everywhere and every slot of the
data-range array up to the count that ends at or after `start` has a positive size). For
every address `A = st.cur < stop` at which the cursor of the loop lands on a non-filler
element and at which `k >= 1` comments are registered, a render that returns has printed
exactly `k` lines with address `A`: first, for each comment at `A` but the last, in
registration order, a line with empty text and that comment, then a line with the text of
the element and the last comment. -/
theorem stacked_comment_lines (mem : Nat → Nat) (dis : Nat → String × Nat)
    (log : a64log_context) (label : Option String) (start stop : Nat) (st : render_state)
    (fuel : Nat) (st1 : render_state)
    (hcom : comments_ordered log) (hadv : elements_advance dis log start)
    (hreach : render_reach mem dis log stop (render_start label start) st)
    (hlt : st.cur < stop) (hnf : ¬ takes_filler mem log st)
    (hk : comments_at log st.cur ≠ [])
    (hrun : render mem dis fuel log label start stop = some st1) :
    st1.out.filter (fun e => decide (event_addr e = some st.cur)) =
        (comments_at log st.cur).dropLast.map
          (fun j => log_event.comment_line st.cur ""
            (comment_string log (log.comment_list j))) ++
        [log_event.comment_line st.cur (element_buffer mem dis log st)
          (comment_string log (log.comment_list ((comments_at log st.cur).getLast hk)))] ∧
    (st1.out.filter (fun e => decide (event_addr e = some st.cur))).length =
      (comments_at log st.cur).length := by
  have h0 := render_start_walk_ok log label start
  have hok := render_reach_walk_ok mem dis log start stop _ st hadv h0 hreach
  obtain ⟨hr1, hge1⟩ := render_loop_reach mem dis log stop (render_start label start) fuel _ st1
    render_reach.start hrun
  have hafter := render_reach_before_exit mem dis log stop _ st st1 hreach hr1 hlt hge1
  have hok2 := render_iter_walk_ok mem dis log start st hadv hok
  obtain ⟨_, more, hmore, haddr⟩ :=
    render_reach_out mem dis log start stop _ st1 hadv hok2 hafter
  have hgt := render_iter_cur_gt mem dis log start st hadv hok
  have hiter := render_iter_out_commented mem dis log st hcom hok.2.2.1 hnf hk
  have hfirst : st.out.filter (fun e => decide (event_addr e = some st.cur)) = [] := by
    rw [List.filter_eq_nil_iff]
    intro e he
    simp only [decide_eq_true_eq]
    intro ha
    have := hok.2.2.2 e he st.cur ha
    omega
  have hlater : more.filter (fun e => decide (event_addr e = some st.cur)) = [] := by
    rw [List.filter_eq_nil_iff]
    intro e he
    simp only [decide_eq_true_eq]
    intro ha
    have := haddr e he st.cur ha
    omega
  have hmid : ∀ l : List log_event, (∀ e, e ∈ l → event_addr e = some st.cur) →
      l.filter (fun e => decide (event_addr e = some st.cur)) = l := by
    intro l hl
    rw [List.filter_eq_self]
    intro e he
    simp only [decide_eq_true_eq]
    exact hl e he
  have hlines : st1.out.filter (fun e => decide (event_addr e = some st.cur)) =
        (comments_at log st.cur).dropLast.map
          (fun j => log_event.comment_line st.cur ""
            (comment_string log (log.comment_list j))) ++
        [log_event.comment_line st.cur (element_buffer mem dis log st)
          (comment_string log (log.comment_list ((comments_at log st.cur).getLast hk)))] := by
    rw [hmore, hiter, List.filter_append, List.filter_append, hfirst, hlater, hmid]
    · simp
    · intro e he
      rw [List.mem_append] at he
      rcases he with he | he
      · rw [List.mem_map] at he
        obtain ⟨j, _, rfl⟩ := he
        rfl
      · simp at he
        subst he
        rfl
  refine ⟨hlines, ?_⟩
  rw [hlines]
  simp
  have : (comments_at log st.cur).length ≠ 0 := by
    intro h
    exact hk (List.length_eq_zero.mp h)
  omega

theorem stacked_comment_lines_witness :
    (render scenario_mem scenario_dis 1 stacked_log none 0x1000 0x1001).map
        (fun st => st.out) =
      some [log_event.comment_line 0x1000 "" "one", log_event.comment_line 0x1000 "" "two",
            log_event.comment_line 0x1000 "???" "three"] ∧
    comments_at stacked_log 0x1000 = [0, 1, 2] ∧
    ([log_event.comment_line 0x1000 "" "one", log_event.comment_line 0x1000 "" "two",
        log_event.comment_line 0x1000 "???" "three"].filter
        (fun e => decide (event_addr e = some 0x1000))).length =
      (comments_at stacked_log 0x1000).length :=
  ⟨by decide, by decide,
    (stacked_comment_lines scenario_mem scenario_dis stacked_log none 0x1000 0x1001
      (render_start none 0x1000) 1
      { cur := 0x1001, curdata := 0, curcomment := 2
        out := [log_event.comment_line 0x1000 "" "one",
          log_event.comment_line 0x1000 "" "two",
          log_event.comment_line 0x1000 "???" "three"]
        dis_calls := [0x1000] }
      (by decide)
      ⟨fun a => by unfold scenario_dis; split <;> simp, fun i hi hs => by
        have h0 : i = 0 := Nat.le_zero.mp hi
        subst h0
        exact absurd hs (by decide)⟩
      render_reach.start (by decide) (by decide) (by decide) (by rfl)).2⟩

/-- Claim C3 as stated fails when comments were registered out of order, and when an
element has no byte (assertions off). With comments at 0x1000, 0x1001, 0x1000 in that
order, two comments are registered at 0x1000 but the walk over [0x1000,0x1001) prints one
line for 0x1000. With one comment at 0x1000 and a disassembler that consumes no byte, the
loop prints a line for 0x1000 in every round: two lines after two rounds. -/
theorem stacked_comment_lines_counterexample :
    (comments_at unordered_comments_log 0x1000 = [0, 2] ∧
      (render scenario_mem scenario_dis 1 unordered_comments_log none 0x1000 0x1001).map
          (fun st => st.out) =
        some [log_event.comment_line 0x1000 "???" "one"]) ∧
    (comments_at single_comment_log 0x1000 = [0] ∧
      (render_iter scenario_mem stalling_dis single_comment_log
        (render_iter scenario_mem stalling_dis single_comment_log
          (render_start none 0x1000))).out =
        [log_event.comment_line 0x1000 "???" "one",
         log_event.comment_line 0x1000 "???" "one"]) := by
  decide

/-! ## Claims C4, C5 and C6: the reset at the end of a render -/

/-- Claim C4 at a failing input. After the render of the reference scenario (which opened
the file) both registries are empty, so no registered range or comment overlaps
[0x1000,0x1004); yet a render of [0x1000,0x1004) over four filler bytes prints the line
`dd CCCCCCCC` for 0x1000 instead of nothing: the in-range test of the loop reads slot 0 of `data_range[]`, which still holds the
range [0x1000,0x1003] of the previous pass. -/
theorem filler_run_meets_stale_range :
    rendered_scenario_log.file = some 0 ∧
    rendered_scenario_log.data_range_count = 0 ∧
    rendered_scenario_log.comment_count = 0 ∧
    (∀ a, a < 4 → filler_mem (0x1000 + a) = 0xCC) ∧
    (render filler_mem scenario_dis 1 rendered_scenario_log none 0x1000 0x1004).map
        (fun st => (st.out, st.dis_calls, st.cur)) =
      some ([log_event.plain_line 0x1000 "dd      CCCCCCCC"], [], 0x1004) := by
  decide

/-- Claim C5. Whenever `a64log_disasm_code_range` returns, for every context, sink, buffer,
disassembler, label, `start` and `stop`, the context it leaves has `data_range_count = 0`,
`comment_count = 0` and `comment_pool_next` at the start of the pool, so that the whole
capacity of 160000 bytes is available; and with `start >= stop` it returns whatever the
bound on the rounds. -/
theorem render_resets_context (fopen_ok : Nat → Bool) (mem : Nat → Nat)
    (dis : Nat → String × Nat) (fuel : Nat) (p : a64log_context × a64log_sink)
    (label : Option String) (start stop : Nat) :
    (∀ q, a64log_disasm_code_range fopen_ok mem dis fuel p label start stop = some q →
      q.1.data_range_count = 0 ∧ q.1.comment_count = 0 ∧ q.1.comment_pool_next = 0 ∧
      A64LOG_COMMENT_POOL_SIZE - q.1.comment_pool_next = 160000) ∧
    (stop ≤ start →
      ∃ q, a64log_disasm_code_range fopen_ok mem dis fuel p label start stop = some q) := by
  constructor
  · intro q hq
    unfold a64log_disasm_code_range at hq
    cases hr : render mem dis fuel p.1 label start stop with
    | none => rw [hr] at hq; simp at hq
    | some st =>
      rw [hr] at hq
      simp only [Option.map_some'] at hq
      have := Option.some.inj hq
      subst this
      exact ⟨rfl, rfl, rfl, rfl⟩
  · intro hle
    have hcur : ¬ (render_start label start).cur < stop := by
      unfold render_start
      simp only []
      omega
    have hr : render mem dis fuel p.1 label start stop = some (render_start label start) := by
      unfold render
      cases fuel with
      | zero => unfold render_loop; rw [if_neg hcur]
      | succ n => unfold render_loop; rw [if_neg hcur]
    unfold a64log_disasm_code_range
    rw [hr]
    exact ⟨_, rfl⟩

/-- Claim C6 at a failing input. Two contexts have each been through a render (which opened
the file) and have had nothing registered since: before that render the first had the range [0x1000,0x1003]
registered, the second nothing. The same render of [0x1000,0x1004) prints the data literal
`dd 12345678` for 0x1000 on the first and disassembles 0x1000..0x1003 on the second: the
lines depend on a range registered before the previous render. -/
theorem stale_range_outlives_render :
    rendered_scenario_log.file = some 0 ∧
    rendered_scenario_log.data_range_count = 0 ∧
    rendered_scenario_log.comment_count = 0 ∧
    rendered_fresh_log.file = some 0 ∧
    rendered_fresh_log.data_range_count = 0 ∧
    rendered_fresh_log.comment_count = 0 ∧
    (render scenario_mem scenario_dis 4 rendered_scenario_log none 0x1000 0x1004).map
        (fun st => (st.out, st.dis_calls)) =
      some ([log_event.plain_line 0x1000 "dd      12345678"], []) ∧
    (render scenario_mem scenario_dis 4 rendered_fresh_log none 0x1000 0x1004).map
        (fun st => (st.out, st.dis_calls)) =
      some ([log_event.plain_line 0x1000 "???", log_event.plain_line 0x1001 "???",
             log_event.plain_line 0x1002 "???", log_event.plain_line 0x1003 "???"],
            [0x1000, 0x1001, 0x1002, 0x1003]) := by
  decide

/-! ## Claims C8 and C9: a64log_mark_as_data -/

theorem mark_as_data_appends (log : a64log_context) (base end_ : Nat) (size : Int)
    (hlt : log.data_range_count < 1000) :
    (a64log_mark_as_data log base end_ size).data_range_count = log.data_range_count + 1 ∧
    (a64log_mark_as_data log base end_ size).data_range log.data_range_count =
      { base := base, end_ := end_, size := size } ∧
    ∀ i, i ≠ log.data_range_count →
      (a64log_mark_as_data log base end_ size).data_range i = log.data_range i := by
  unfold a64log_mark_as_data MAX_DATA_RANGES
  rw [if_neg (by omega)]
  exact ⟨rfl, by simp, fun i hi => by simp [hi]⟩

theorem mark_as_data_frame_fields (log : a64log_context) (base end_ : Nat) (size : Int) :
    (a64log_mark_as_data log base end_ size).filename = log.filename ∧
    (a64log_mark_as_data log base end_ size).file = log.file := by
  unfold a64log_mark_as_data
  split <;> exact ⟨rfl, rfl⟩

/-- Claim C8. With assertions off, `a64log_mark_as_data log base end size` on any context:
when `data_range_count < 1000` the count grows by one, the new last entry is
(base, end, size) and every other slot is unchanged; when `data_range_count = 1000` the
count and every slot are unchanged. In both cases the comment registry, the string pool and
its cursor, the filename and the file handle are unchanged. -/
theorem mark_as_data_frame (log : a64log_context) (base end_ : Nat) (size : Int) :
    (log.data_range_count < 1000 →
      (a64log_mark_as_data log base end_ size).data_range_count = log.data_range_count + 1 ∧
      (a64log_mark_as_data log base end_ size).data_range log.data_range_count =
        { base := base, end_ := end_, size := size } ∧
      ∀ i, i ≠ log.data_range_count →
        (a64log_mark_as_data log base end_ size).data_range i = log.data_range i) ∧
    (log.data_range_count = 1000 →
      (a64log_mark_as_data log base end_ size).data_range_count = log.data_range_count ∧
      (a64log_mark_as_data log base end_ size).data_range = log.data_range) ∧
    (a64log_mark_as_data log base end_ size).comment_list = log.comment_list ∧
    (a64log_mark_as_data log base end_ size).comment_count = log.comment_count ∧
    (a64log_mark_as_data log base end_ size).comment_pool = log.comment_pool ∧
    (a64log_mark_as_data log base end_ size).comment_pool_next = log.comment_pool_next ∧
    (a64log_mark_as_data log base end_ size).filename = log.filename ∧
    (a64log_mark_as_data log base end_ size).file = log.file := by
  refine ⟨fun hlt => mark_as_data_appends log base end_ size hlt, fun heq => ?_, ?_⟩
  · unfold a64log_mark_as_data MAX_DATA_RANGES
    rw [if_pos (by omega)]
    exact ⟨rfl, rfl⟩
  · unfold a64log_mark_as_data
    split <;> exact ⟨rfl, rfl, rfl, rfl, rfl, rfl⟩

theorem mark_as_data_frame_witness :
    (a64log_mark_as_data (a64log_create_context "a64.log") 0x1000 0x1003 4).data_range_count
      = 1 ∧
    (a64log_mark_as_data (a64log_create_context "a64.log") 0x1000 0x1003 4).data_range 0 =
      { base := 0x1000, end_ := 0x1003, size := 4 } :=
  ⟨((mark_as_data_frame (a64log_create_context "a64.log") 0x1000 0x1003 4).1
      (by decide)).1,
    ((mark_as_data_frame (a64log_create_context "a64.log") 0x1000 0x1003 4).1
      (by decide)).2.1⟩

theorem mark_ranges_spec (calls : List a64log_data_range_t) :
    ∀ log : a64log_context, log.data_range_count + calls.length ≤ 1000 →
      (mark_ranges log calls).data_range_count = log.data_range_count + calls.length ∧
      (∀ i, i < log.data_range_count →
        (mark_ranges log calls).data_range i = log.data_range i) ∧
      (∀ i, i < calls.length →
        (mark_ranges log calls).data_range (log.data_range_count + i) = calls.getD i {}) := by
  induction calls with
  | nil =>
    intro log _
    exact ⟨rfl, fun i _ => rfl, fun i hi => absurd hi (Nat.not_lt_zero i)⟩
  | cons c cs ih =>
    intro log hlen
    simp only [List.length_cons] at hlen
    obtain ⟨hcount, hnew, hold⟩ := mark_as_data_appends log c.base c.end_ c.size (by omega)
    obtain ⟨h1, h2, h3⟩ := ih (a64log_mark_as_data log c.base c.end_ c.size)
      (by rw [hcount]; omega)
    have hstep : mark_ranges log (c :: cs) =
        mark_ranges (a64log_mark_as_data log c.base c.end_ c.size) cs := rfl
    rw [hstep]
    refine ⟨by rw [h1, hcount, List.length_cons]; omega, fun i hi => ?_, fun i hi => ?_⟩
    · rw [h2 i (by rw [hcount]; omega)]
      exact hold i (by omega)
    · cases i with
      | zero =>
        rw [Nat.add_zero, h2 _ (by rw [hcount]; omega), hnew]
        rfl
      | succ k =>
        simp only [List.length_cons] at hi
        have := h3 k (by omega)
        rw [hcount] at this
        rw [show log.data_range_count + (k + 1) = log.data_range_count + 1 + k by omega, this]
        rfl

theorem ranges_lt_of_chain (f : Nat → a64log_data_range_t) (n : Nat)
    (hwf : ∀ i, i < n → (f i).base ≤ (f i).end_)
    (hch : ∀ i, i < n → i = 0 ∨ (f i).base > (f (i - 1)).end_) :
    ∀ j, j < n → ∀ i, i < j → (f i).end_ < (f j).base := by
  intro j
  induction j with
  | zero => intro _ i hi; omega
  | succ j ih =>
    intro hj i hi
    have hstep := hch (j + 1) hj
    simp at hstep
    rcases Nat.eq_or_lt_of_le (Nat.le_of_lt_succ hi) with rfl | hlt
    · exact hstep
    · have h1 := ih (by omega) i hlt
      have h2 := hwf j (by omega)
      omega

/-- Claim C9. For every run of at most 1000 `a64log_mark_as_data` calls (assertions off) on
a context with an empty data-range registry, in which each call has `end >= base` and each
call but the first has its `base` above the `end` of the call before it: the count is the
number of calls, the stored entries are the arguments of the calls in call order, their
bases strictly increase, and no address lies in two different stored ranges. -/
theorem mark_as_data_in_order (log : a64log_context) (calls : List a64log_data_range_t)
    (hempty : log.data_range_count = 0) (hlen : calls.length ≤ 1000)
    (hwf : ∀ i, i < calls.length → (calls.getD i {}).base ≤ (calls.getD i {}).end_)
    (hch : ∀ i, i < calls.length →
      i = 0 ∨ (calls.getD i {}).base > (calls.getD (i - 1) {}).end_) :
    (mark_ranges log calls).data_range_count = calls.length ∧
    (∀ i, i < calls.length → (mark_ranges log calls).data_range i = calls.getD i {}) ∧
    (∀ i j, i < j → j < calls.length →
      ((mark_ranges log calls).data_range i).base <
        ((mark_ranges log calls).data_range j).base) ∧
    (∀ i j a, i < calls.length → j < calls.length → i ≠ j →
      ¬ (in_data_range (mark_ranges log calls) i a ∧
          in_data_range (mark_ranges log calls) j a)) := by
  obtain ⟨h1, _, h3⟩ := mark_ranges_spec calls log (by omega)
  have hget : ∀ i, i < calls.length →
      (mark_ranges log calls).data_range i = calls.getD i {} := by
    intro i hi
    have := h3 i hi
    rw [hempty, Nat.zero_add] at this
    exact this
  have hlt := ranges_lt_of_chain (fun i => calls.getD i {}) calls.length hwf hch
  refine ⟨by rw [h1, hempty, Nat.zero_add], hget, fun i j hij hj => ?_,
    fun i j a hi hj hne hboth => ?_⟩
  · rw [hget i (by omega), hget j hj]
    have := hlt j hj i hij
    have := hwf i (by omega)
    simp only [] at *
    omega
  · unfold in_data_range at hboth
    rw [hget i hi, hget j hj] at hboth
    rcases Nat.lt_or_gt_of_ne hne with h | h
    · have := hlt j hj i h
      simp only [] at this
      omega
    · have := hlt i hi j h
      simp only [] at this
      omega

theorem mark_as_data_in_order_witness :
    (mark_ranges (a64log_create_context "a64.log")
      [{ base := 0x1000, end_ := 0x1003, size := 4 },
       { base := 0x1004, end_ := 0x1004, size := 1 },
       { base := 0x1010, end_ := 0x101F, size := 8 }]).data_range_count = 3 :=
  (mark_as_data_in_order (a64log_create_context "a64.log")
    [{ base := 0x1000, end_ := 0x1003, size := 4 },
     { base := 0x1004, end_ := 0x1004, size := 1 },
     { base := 0x1010, end_ := 0x101F, size := 8 }]
    rfl (by decide) (by decide) (by decide)).1

/-! ## Claims C7 and C10: a64log_add_comment and its bounds -/

theorem add_comment_accepted (log : a64log_context) (base : Nat) (format msg : List Char)
    (hcount : log.comment_count < 4000)
    (hpool : log.comment_pool_next + format.length + 256 < 160000) :
    (a64log_add_comment log base format msg).comment_count = log.comment_count + 1 ∧
    (a64log_add_comment log base format msg).comment_pool_next =
      log.comment_pool_next + (msg.length + 1) := by
  unfold a64log_add_comment A64LOG_COMMENT_POOL_SIZE A64LOG_MAX_COMMENTS
  rw [if_neg (by omega), if_neg (by omega)]
  exact ⟨rfl, rfl⟩

theorem add_comment_rejected (log : a64log_context) (base : Nat) (format msg : List Char)
    (h : 4000 ≤ log.comment_count ∨ 160000 ≤ log.comment_pool_next + format.length + 256) :
    a64log_add_comment log base format msg = log := by
  unfold a64log_add_comment A64LOG_COMMENT_POOL_SIZE A64LOG_MAX_COMMENTS
  by_cases hc : 4000 ≤ log.comment_count
  · rw [if_pos hc]
  · rw [if_neg hc, if_pos (by omega)]

theorem add_comments_cons (log : a64log_context) (c : comment_call) (cs : List comment_call) :
    add_comments log (c :: cs) =
      add_comments (a64log_add_comment log c.base c.format c.msg) cs := rfl

theorem add_comments_count_le (calls : List comment_call) :
    ∀ log : a64log_context, log.comment_count ≤ 4000 →
      (add_comments log calls).comment_count ≤ 4000 := by
  induction calls with
  | nil => intro log h; exact h
  | cons c cs ih =>
    intro log h
    rw [add_comments_cons]
    apply ih
    by_cases hacc : log.comment_count < 4000 ∧
        log.comment_pool_next + c.format.length + 256 < 160000
    · rw [(add_comment_accepted log c.base c.format c.msg hacc.1 hacc.2).1]
      omega
    · rw [add_comment_rejected log c.base c.format c.msg (by omega)]
      exact h

theorem add_comments_count_of_pass (calls : List comment_call) :
    ∀ log : a64log_context, log.comment_count ≤ 4000 → pool_checks_pass log calls →
      (add_comments log calls).comment_count = min (log.comment_count + calls.length) 4000 := by
  induction calls with
  | nil =>
    intro log h _
    show log.comment_count = _
    simp
    exact h
  | cons c cs ih =>
    intro log h hpass
    rw [add_comments_cons]
    obtain ⟨hchk, hrest⟩ := hpass
    unfold A64LOG_MAX_COMMENTS A64LOG_COMMENT_POOL_SIZE at hchk
    by_cases hfull : 4000 ≤ log.comment_count
    · have hrej := add_comment_rejected log c.base c.format c.msg (Or.inl hfull)
      rw [hrej] at hrest ⊢
      rw [ih log h hrest]
      simp only [List.length_cons]
      omega
    · have hpool : log.comment_pool_next + c.format.length + 256 < 160000 := by
        rcases hchk with h1 | h1
        · omega
        · exact h1
      have hacc := add_comment_accepted log c.base c.format c.msg (by omega) hpool
      rw [ih _ (by rw [hacc.1]; omega) hrest, hacc.1]
      simp only [List.length_cons]
      omega

/-- Claim C7, amended. For every run of `a64log_add_comment` calls (assertions off, any
addresses) on a context with an empty comment registry: the registry size after the run is
at most 4000 and at most the number of calls; it is exactly 4000 after a run of more than
4000 calls of which none is turned away by the pool check; and every call made once the
size is 4000 leaves the whole context unchanged. -/
theorem add_comment_capacity (log : a64log_context) (calls : List comment_call)
    (hempty : log.comment_count = 0) :
    (add_comments log calls).comment_count ≤ 4000 ∧
    (pool_checks_pass log calls → 4000 < calls.length →
      (add_comments log calls).comment_count = 4000) ∧
    (∀ (full : a64log_context) (base : Nat) (format msg : List Char),
      full.comment_count = 4000 → a64log_add_comment full base format msg = full) := by
  refine ⟨add_comments_count_le calls log (by omega), fun hpass hlen => ?_,
    fun full base format msg hfull =>
      add_comment_rejected full base format msg (Or.inl (by omega))⟩
  rw [add_comments_count_of_pass calls log (by omega) hpass, hempty]
  omega

theorem short_calls_pass (n : Nat) :
    ∀ log : a64log_context, log.comment_pool_next + 259 + 4 * n < 160000 →
      pool_checks_pass log (List.replicate n short_call) := by
  induction n with
  | zero => intro log _; exact trivial
  | succ n ih =>
    intro log h
    have hlen : short_call.format.length = 3 := rfl
    have hmsg : short_call.msg.length = 3 := rfl
    rw [List.replicate_succ]
    refine ⟨Or.inr (by unfold A64LOG_COMMENT_POOL_SIZE A64LOG_MAX_COMMENTS; omega), ?_⟩
    apply ih
    by_cases hacc : log.comment_count < 4000
    · rw [(add_comment_accepted log _ _ _ hacc (by omega)).2]
      omega
    · rw [add_comment_rejected log _ _ _ (by omega)]
      omega

theorem add_comment_capacity_witness :
    (add_comments (a64log_create_context "a64.log")
        (List.replicate 4001 short_call)).comment_count = 4000 :=
  (add_comment_capacity (a64log_create_context "a64.log") (List.replicate 4001 short_call)
    rfl).2.1 (short_calls_pass 4001 _ (by decide))
    (by rw [List.length_replicate]; decide)

theorem long_calls_accepted (n : Nat) :
    ∀ log : a64log_context, log.comment_count + n ≤ 2618 →
      log.comment_pool_next = 61 * log.comment_count →
      (add_comments log (List.replicate n long_call)).comment_count = log.comment_count + n ∧
      (add_comments log (List.replicate n long_call)).comment_pool_next =
        61 * (log.comment_count + n) := by
  induction n with
  | zero => intro log _ h; exact ⟨rfl, h⟩
  | succ n ih =>
    intro log hle hnext
    have hlen : long_call.format.length = 60 := by simp [long_call]
    have hmsg : long_call.msg.length = 60 := by simp [long_call]
    rw [List.replicate_succ, add_comments_cons]
    have hacc := add_comment_accepted log long_call.base long_call.format long_call.msg
      (by omega) (by omega)
    obtain ⟨h1, h2⟩ := ih (a64log_add_comment log long_call.base long_call.format
      long_call.msg) (by rw [hacc.1]; omega) (by rw [hacc.1, hacc.2]; omega)
    rw [h1, h2, hacc.1]
    constructor <;> omega

theorem long_calls_rejected (n : Nat) (log : a64log_context)
    (hnext : 159698 ≤ log.comment_pool_next) :
    add_comments log (List.replicate n long_call) = log := by
  induction n with
  | zero => rfl
  | succ n ih =>
    have hlen : long_call.format.length = 60 := by simp [long_call]
    rw [List.replicate_succ, add_comments_cons,
      add_comment_rejected log _ _ _ (Or.inr (by omega))]
    exact ih

/-- Claim C7 as stated fails: of 4001 comments of 60 characters each, registered on a fresh
context with one address, only 2618 are stored. The 2619th call finds
`comment_pool_next + strlen(format) + 256` at 159698 + 316, past the end of the pool, and it
and every later call return without storing, so the size stays at 2618, not 4000. -/
theorem add_comment_capacity_counterexample :
    (List.replicate 4001 long_call).length = 4001 ∧
    (add_comments (a64log_create_context "a64.log")
        (List.replicate 4001 long_call)).comment_count = 2618 := by
  refine ⟨List.length_replicate 4001 long_call, ?_⟩
  have hsplit : List.replicate 4001 long_call =
      List.replicate 2618 long_call ++ List.replicate 1383 long_call := by
    rw [← List.replicate_add]
  obtain ⟨h1, h2⟩ := long_calls_accepted 2618 (a64log_create_context "a64.log")
    (by decide) (by decide)
  have hfold : add_comments (a64log_create_context "a64.log")
      (List.replicate 4001 long_call) =
      add_comments (add_comments (a64log_create_context "a64.log")
        (List.replicate 2618 long_call)) (List.replicate 1383 long_call) := by
    rw [hsplit]
    unfold add_comments
    rw [List.foldl_append]
  rw [hfold, long_calls_rejected 1383 _ (by rw [h2]; decide), h1]
  rfl

theorem add_comment_pool_next_le (log : a64log_context) (c : comment_call)
    (h0 : log.comment_pool_next ≤ 160000) (hlen : c.msg.length ≤ c.format.length + 256) :
    (a64log_add_comment log c.base c.format c.msg).comment_pool_next ≤ 160000 := by
  by_cases hacc : log.comment_count < 4000 ∧
      log.comment_pool_next + c.format.length + 256 < 160000
  · rw [(add_comment_accepted log c.base c.format c.msg hacc.1 hacc.2).2]
    omega
  · rw [add_comment_rejected log c.base c.format c.msg (by omega)]
    exact h0

theorem add_comments_pool_next_le (calls : List comment_call) :
    ∀ log : a64log_context, log.comment_pool_next ≤ 160000 →
      (∀ c, c ∈ calls → c.msg.length ≤ c.format.length + 256) →
      (add_comments log calls).comment_pool_next ≤ 160000 := by
  induction calls with
  | nil => intro log h _; exact h
  | cons c cs ih =>
    intro log h hlen
    rw [add_comments_cons]
    exact ih _ (add_comment_pool_next_le log c h (hlen c (List.mem_cons_self c cs)))
      (fun d hd => hlen d (List.mem_cons_of_mem c hd))

/-- Claim C10, amended. For every run of `a64log_add_comment` calls in each of which the
formatted text is at most `strlen(format) + 256` characters long, started on a context
whose pool cursor is within the pool (as after `a64log_create_context` or `reset_log`, where
it is at the start): after the run, so after every call, `comment_pool_next` is at most
`comment_pool + 160000`; a call whose text with its terminator would not fit in the rest of
the pool returns without storing anything; and a call that stores a comment places the text
and its terminator at offsets below 160000, starting at the old cursor. -/
theorem pool_cursor_bounded (log : a64log_context) (calls : List comment_call)
    (h0 : log.comment_pool_next ≤ A64LOG_COMMENT_POOL_SIZE)
    (hlen : ∀ c, c ∈ calls → c.msg.length ≤ c.format.length + 256) :
    (add_comments log calls).comment_pool_next ≤ A64LOG_COMMENT_POOL_SIZE ∧
    (∀ (l : a64log_context) (c : comment_call), c.msg.length ≤ c.format.length + 256 →
      A64LOG_COMMENT_POOL_SIZE < l.comment_pool_next + (c.msg.length + 1) →
      a64log_add_comment l c.base c.format c.msg = l) ∧
    (∀ (l : a64log_context) (c : comment_call), c.msg.length ≤ c.format.length + 256 →
      a64log_add_comment l c.base c.format c.msg ≠ l →
      l.comment_pool_next + (c.msg.length + 1) ≤ A64LOG_COMMENT_POOL_SIZE ∧
      (a64log_add_comment l c.base c.format c.msg).comment_list l.comment_count =
        { base := c.base, string := some l.comment_pool_next } ∧
      (a64log_add_comment l c.base c.format c.msg).comment_pool_next =
        l.comment_pool_next + (c.msg.length + 1)) := by
  have hsize : A64LOG_COMMENT_POOL_SIZE = 160000 := rfl
  rw [hsize] at h0 ⊢
  refine ⟨add_comments_pool_next_le calls log h0 hlen, fun l c hc hfit => ?_,
    fun l c hc hne => ?_⟩
  · exact add_comment_rejected l c.base c.format c.msg (by omega)
  · by_cases hacc : l.comment_count < 4000 ∧
        l.comment_pool_next + c.format.length + 256 < 160000
    · refine ⟨by omega, ?_, (add_comment_accepted l c.base c.format c.msg hacc.1 hacc.2).2⟩
      unfold a64log_add_comment A64LOG_COMMENT_POOL_SIZE A64LOG_MAX_COMMENTS
      rw [if_neg (by omega), if_neg (by omega)]
      simp
    · exact absurd (add_comment_rejected l c.base c.format c.msg (by omega)) hne

theorem pool_cursor_bounded_witness :
    (add_comments (a64log_create_context "a64.log")
        [short_call, long_call]).comment_pool_next ≤ A64LOG_COMMENT_POOL_SIZE :=
  (pool_cursor_bounded (a64log_create_context "a64.log") [short_call, long_call]
    (by decide) (by decide)).1

/-- Claim C10 as stated fails: on a fresh context the call with the format `%s` and an
argument of 160000 characters passes the check (0 + 2 + 256 is below 160000), `sprintf`
writes 160001 bytes from the start of the 160000-byte pool, and `comment_pool_next` ends at
offset 160001, beyond the end of the pool. -/
theorem pool_cursor_counterexample :
    (a64log_add_comment (a64log_create_context "a64.log") 0x1000 "%s".toList
        (List.replicate 160000 'x')).comment_pool_next = 160001 ∧
    (a64log_add_comment (a64log_create_context "a64.log") 0x1000 "%s".toList
        (List.replicate 160000 'x')).comment_count = 1 ∧
    A64LOG_COMMENT_POOL_SIZE = 160000 := by
  have h := add_comment_accepted (a64log_create_context "a64.log") 0x1000 "%s".toList
    (List.replicate 160000 'x') (by decide) (by decide)
  rw [List.length_replicate] at h
  exact ⟨h.2, h.1, rfl⟩

/-! ## Claims C15, C16 and C19: the sink, creation and the assertions -/

theorem mark_as_data_asserts_iff (log : a64log_context) (base end_ : Nat) (size : Int) :
    a64log_mark_as_data_asserts log base end_ size = true ↔
      log.data_range_count < 1000 ∧ end_ ≥ base ∧
        (size = 1 ∨ size = 2 ∨ size = 4 ∨ size = 8) ∧
        (log.data_range_count = 0 ∨
          base > (log.data_range (log.data_range_count - 1)).end_) := by
  unfold a64log_mark_as_data_asserts MAX_DATA_RANGES
  simp only [Bool.and_eq_true, decide_eq_true_eq, and_assoc]

/-- Claim C19. With assertions enabled, `a64log_mark_as_data` fails an assertion if and
only if `data_range_count >= 1000`, or `end < base`, or `size` is not one of 1, 2, 4, 8, or
the registry is not empty and `base <=` the `end` of the previous entry; when it fails no
context results, so no entry is added, and when it does not the count grows by one, the new
last entry is (base, end, size) and the other slots are unchanged. -/
theorem mark_as_data_checked_iff (log : a64log_context) (base end_ : Nat) (size : Int) :
    (a64log_mark_as_data_checked log base end_ size = none ↔
      (log.data_range_count ≥ 1000 ∨ end_ < base ∨
        ¬ (size = 1 ∨ size = 2 ∨ size = 4 ∨ size = 8) ∨
        (log.data_range_count ≠ 0 ∧
          base ≤ (log.data_range (log.data_range_count - 1)).end_))) ∧
    (∀ log1, a64log_mark_as_data_checked log base end_ size = some log1 →
      log1.data_range_count = log.data_range_count + 1 ∧
      log1.data_range log.data_range_count = { base := base, end_ := end_, size := size } ∧
      ∀ i, i ≠ log.data_range_count → log1.data_range i = log.data_range i) := by
  have hiff := mark_as_data_asserts_iff log base end_ size
  unfold a64log_mark_as_data_checked
  constructor
  · constructor
    · intro h
      split at h
      · exact absurd h (by simp)
      · rename_i hn
        by_contra hcon
        apply hn
        rw [hiff]
        refine ⟨?_, ?_, ?_, ?_⟩
        · by_contra hx
          exact hcon (Or.inl (by omega))
        · by_contra hx
          exact hcon (Or.inr (Or.inl (by omega)))
        · by_contra hx
          exact hcon (Or.inr (Or.inr (Or.inl hx)))
        · by_cases h0 : log.data_range_count = 0
          · exact Or.inl h0
          · right
            by_contra hx
            exact hcon (Or.inr (Or.inr (Or.inr ⟨h0, by omega⟩)))
    · intro h
      rw [if_neg]
      rw [hiff]
      intro hy
      obtain ⟨h1, h2, h3, h4⟩ := hy
      rcases h with h | h | h | h
      · omega
      · omega
      · exact h h3
      · rcases h4 with h4 | h4
        · exact h.1 h4
        · omega
  · intro log1 h
    split at h
    · rename_i hy
      rw [hiff] at hy
      have := Option.some.inj h
      subst this
      exact mark_as_data_appends log base end_ size hy.1
    · exact absurd h (by simp)

theorem mark_as_data_checked_iff_witness :
    (a64log_mark_as_data_checked (a64log_create_context "a64.log") 0x1000 0x1003 4).map
        (fun l => l.data_range_count) = some 1 ∧
    (a64log_mark_as_data_checked (a64log_create_context "a64.log") 0x1000 0x0FFF 4).map
        (fun l => l.data_range_count) = none ∧
    (a64log_mark_as_data_checked (a64log_create_context "a64.log") 0x1000 0x0FFF 4 = none ↔
      ((a64log_create_context "a64.log").data_range_count ≥ 1000 ∨ 0x0FFF < 0x1000 ∨
        ¬ ((4 : Int) = 1 ∨ (4 : Int) = 2 ∨ (4 : Int) = 4 ∨ (4 : Int) = 8) ∨
        ((a64log_create_context "a64.log").data_range_count ≠ 0 ∧
          0x1000 ≤ ((a64log_create_context "a64.log").data_range
            ((a64log_create_context "a64.log").data_range_count - 1)).end_))) :=
  ⟨by decide, by decide,
    (mark_as_data_checked_iff (a64log_create_context "a64.log") 0x1000 0x0FFF 4).1⟩

theorem mark_ranges_file (calls : List a64log_data_range_t) :
    ∀ log : a64log_context, (mark_ranges log calls).file = log.file := by
  induction calls with
  | nil => intro log; rfl
  | cons c cs ih =>
    intro log
    have hstep : mark_ranges log (c :: cs) =
        mark_ranges (a64log_mark_as_data log c.base c.end_ c.size) cs := rfl
    rw [hstep, ih]
    unfold a64log_mark_as_data
    split <;> rfl

theorem add_comment_file (log : a64log_context) (base : Nat) (format msg : List Char) :
    (a64log_add_comment log base format msg).file = log.file ∧
    (a64log_add_comment log base format msg).filename = log.filename := by
  unfold a64log_add_comment
  split
  · exact ⟨rfl, rfl⟩
  · split <;> exact ⟨rfl, rfl⟩

theorem add_comments_file (calls : List comment_call) :
    ∀ log : a64log_context, (add_comments log calls).file = log.file := by
  induction calls with
  | nil => intro log; rfl
  | cons c cs ih =>
    intro log
    rw [add_comments_cons, ih, (add_comment_file log c.base c.format c.msg).1]

theorem printf_unopened (fopen_ok : Nat → Bool) (p : a64log_context × a64log_sink)
    (ev : log_event) (hnone : p.1.file = none) :
    a64log_printf fopen_ok p ev =
      if fopen_ok p.2.fopen_calls then
        ({ p.1 with file := some p.2.fopen_calls },
          { fopen_calls := p.2.fopen_calls + 1, written := [ev] })
      else (p.1, { fopen_calls := p.2.fopen_calls + 1, written := p.2.written }) := by
  unfold a64log_printf
  rw [hnone]

/-- Claim C16. For every path, `a64log_create_context path` has the filename `path`, no
file handle, both counts 0 and the pool cursor at the start of the pool. Neither
`a64log_mark_as_data` nor `a64log_add_comment` touches the file handle or the filename, and
neither has access to the sink; so after any registrations on a new context the handle is
still unset, and the first `a64log_printf` call makes the first `fopen` call of the
session. -/
theorem create_context_defers_open (path : String) (log : a64log_context)
    (base end_ : Nat) (size : Int) (format msg : List Char)
    (ranges : List a64log_data_range_t) (comments : List comment_call)
    (fopen_ok : Nat → Bool) (ev : log_event) :
    (a64log_create_context path).filename = path ∧
    (a64log_create_context path).file = none ∧
    (a64log_create_context path).data_range_count = 0 ∧
    (a64log_create_context path).comment_count = 0 ∧
    (a64log_create_context path).comment_pool_next = 0 ∧
    (a64log_mark_as_data log base end_ size).file = log.file ∧
    (a64log_mark_as_data log base end_ size).filename = log.filename ∧
    (a64log_add_comment log base format msg).file = log.file ∧
    (a64log_add_comment log base format msg).filename = log.filename ∧
    (add_comments (mark_ranges (a64log_create_context path) ranges) comments).file = none ∧
    (a64log_printf fopen_ok
      (add_comments (mark_ranges (a64log_create_context path) ranges) comments, {})
      ev).2.fopen_calls = 1 := by
  have hfile : (add_comments (mark_ranges (a64log_create_context path) ranges)
      comments).file = none := by
    rw [add_comments_file, mark_ranges_file]
    rfl
  refine ⟨rfl, rfl, rfl, rfl, rfl, (mark_as_data_frame_fields log base end_ size).2,
    (mark_as_data_frame_fields log base end_ size).1,
    (add_comment_file log base format msg).1, (add_comment_file log base format msg).2,
    hfile, ?_⟩
  rw [printf_unopened fopen_ok _ ev hfile]
  split <;> rfl

theorem printf_failed_open (fopen_ok : Nat → Bool) (p : a64log_context × a64log_sink)
    (ev : log_event) (hnone : p.1.file = none) (hfail : fopen_ok p.2.fopen_calls = false) :
    a64log_printf fopen_ok p ev =
      (p.1, { fopen_calls := p.2.fopen_calls + 1, written := p.2.written }) := by
  rw [printf_unopened fopen_ok p ev hnone, hfail]
  rfl

theorem printf_all_failed (fopen_ok : Nat → Bool) (evs : List log_event) :
    ∀ p : a64log_context × a64log_sink, p.1.file = none →
      (∀ n, p.2.fopen_calls ≤ n → fopen_ok n = false) →
      printf_all fopen_ok p evs =
        (p.1, { fopen_calls := p.2.fopen_calls + evs.length, written := p.2.written }) := by
  induction evs with
  | nil => intro p _ _; rfl
  | cons e es ih =>
    intro p hnone hfail
    have hstep : printf_all fopen_ok p (e :: es) =
        printf_all fopen_ok (a64log_printf fopen_ok p e) es := rfl
    rw [hstep, printf_failed_open fopen_ok p e hnone (hfail _ (le_refl _)),
      ih (p.1, { fopen_calls := p.2.fopen_calls + 1, written := p.2.written }) hnone
        (fun n hn => hfail n (by simp only [] at hn; omega))]
    simp only [List.length_cons]
    congr 2
    omega

/-- Claim C15, amended. A failed open attempt leaves the file handle unset, so
`a64log_printf` has no memory of it: the call that fails writes nothing, changes nothing in
the context and counts one `fopen` call; every later call on that context makes a further
open attempt, writes nothing while the attempts fail, and writes its text once an attempt
succeeds. No call has a result through which an error could reach the caller. -/
theorem printf_retries_open (fopen_ok : Nat → Bool) (p : a64log_context × a64log_sink)
    (ev ev2 : log_event) (evs : List log_event)
    (hnone : p.1.file = none) (hfail : fopen_ok p.2.fopen_calls = false) :
    (a64log_printf fopen_ok p ev).1 = p.1 ∧
    (a64log_printf fopen_ok p ev).2.written = p.2.written ∧
    (a64log_printf fopen_ok p ev).2.fopen_calls = p.2.fopen_calls + 1 ∧
    (a64log_printf fopen_ok (a64log_printf fopen_ok p ev) ev2).2.fopen_calls =
      p.2.fopen_calls + 2 ∧
    (fopen_ok (p.2.fopen_calls + 1) = true →
      (a64log_printf fopen_ok (a64log_printf fopen_ok p ev) ev2).1.file =
        some (p.2.fopen_calls + 1) ∧
      (a64log_printf fopen_ok (a64log_printf fopen_ok p ev) ev2).2.written = [ev2]) ∧
    ((∀ n, p.2.fopen_calls ≤ n → fopen_ok n = false) →
      printf_all fopen_ok p evs =
        (p.1, { fopen_calls := p.2.fopen_calls + evs.length, written := p.2.written })) := by
  have h1 := printf_failed_open fopen_ok p ev hnone hfail
  rw [h1]
  refine ⟨rfl, rfl, rfl, ?_, ?_, printf_all_failed fopen_ok evs p hnone⟩
  · rw [printf_unopened fopen_ok
      (p.1, { fopen_calls := p.2.fopen_calls + 1, written := p.2.written }) ev2 hnone]
    split <;> rfl
  · intro hok
    rw [printf_unopened fopen_ok
      (p.1, { fopen_calls := p.2.fopen_calls + 1, written := p.2.written }) ev2 hnone]
    simp only []
    rw [if_pos hok]
    exact ⟨rfl, rfl⟩

theorem printf_retries_open_witness :
    (a64log_printf second_open_ok
      (a64log_printf second_open_ok (a64log_create_context "a64.log", {})
        (log_event.label "one"))
      (log_event.label "two")).2.fopen_calls = 0 + 2 :=
  (printf_retries_open second_open_ok (a64log_create_context "a64.log", {})
    (log_event.label "one") (log_event.label "two") [] rfl rfl).2.2.2.1

/-- Claim C15 as stated fails: with an `fopen` that fails on the first call and succeeds
on the second, the first `a64log_printf` call on a new context fails to open and writes
nothing, and the second call makes a second open attempt, gets the file and writes its
text. -/
theorem printf_open_retry_counterexample :
    (a64log_printf second_open_ok (a64log_create_context "a64.log", {})
        (log_event.label "one")).2 = { fopen_calls := 1, written := [] } ∧
    (a64log_printf second_open_ok (a64log_create_context "a64.log", {})
        (log_event.label "one")).1.file = none ∧
    (a64log_printf second_open_ok
      (a64log_printf second_open_ok (a64log_create_context "a64.log", {})
        (log_event.label "one"))
      (log_event.label "two")).2 =
      { fopen_calls := 2, written := [log_event.label "two"] } ∧
    (a64log_printf second_open_ok
      (a64log_printf second_open_ok (a64log_create_context "a64.log", {})
        (log_event.label "one"))
      (log_event.label "two")).1.file = some 1 := by
  decide

/-! ## Claims C17 and C18: the text of data elements and of the label -/

theorem render_reach_out_addr (mem : Nat → Nat) (dis : Nat → String × Nat)
    (log : a64log_context) (stop : Nat) (s st : render_state)
    (hreach : render_reach mem dis log stop s st) :
    ∃ more, st.out = s.out ++ more ∧ ∀ e, e ∈ more → ∃ a, event_addr e = some a := by
  induction hreach with
  | start => exact ⟨[], by simp, by simp⟩
  | @step st1 _ _ ih =>
    obtain ⟨more, hmore, haddr⟩ := ih
    obtain ⟨lines, hout, hlines⟩ := render_iter_out mem dis log st1
    refine ⟨more ++ lines, by rw [hout, hmore]; simp, fun e he => ?_⟩
    rw [List.mem_append] at he
    rcases he with he | he
    · exact haddr e he
    · exact ⟨st1.cur, hlines e he⟩

/-- Claim C18, amended. For every label text L, the text `a64log_disasm_code_range`
writes for the label is a newline, L verbatim and a newline, that is an empty line and then
L on its own line, with no blank line after it; the label is the first `a64log_printf`
call of the render and every later call prints an element line. When the label is absent
every call of the render prints an element line. -/
theorem label_line_written (show_ptr : Nat → String) (mem : Nat → Nat)
    (dis : Nat → String × Nat) (fuel : Nat) (log : a64log_context) (label : Option String)
    (start stop : Nat) (st : render_state)
    (hrun : render mem dis fuel log label start stop = some st) :
    (∀ l, label = some l →
      event_text show_ptr (log_event.label l) = "\n" ++ l ++ "\n" ∧
      ∃ more, st.out = log_event.label l :: more ∧
        ∀ e, e ∈ more → ∃ a, event_addr e = some a) ∧
    (label = none → ∀ e, e ∈ st.out → ∃ a, event_addr e = some a) := by
  obtain ⟨hreach, _⟩ := render_loop_reach mem dis log stop (render_start label start) fuel _ st
    render_reach.start hrun
  obtain ⟨more, hmore, haddr⟩ := render_reach_out_addr mem dis log stop _ st hreach
  constructor
  · intro l hl
    subst hl
    exact ⟨rfl, more, hmore, haddr⟩
  · intro hl
    subst hl
    intro e he
    rw [hmore] at he
    exact haddr e (by simpa [render_start] using he)

theorem label_line_written_witness :
    (render scenario_mem scenario_dis 3 scenario_log (some "entry") 0x1000 0x1007).map
        (fun st => st.out.map (event_text (fun _ => "0x"))) =
      some ["\nentry\n",
        "0x: dd      12345678                                  ; const\n",
        "0x: NOP\n"] ∧
    event_text (fun _ => "0x") (log_event.label "entry") = "\n" ++ "entry" ++ "\n" :=
  ⟨by decide,
    ((label_line_written (fun _ => "0x") scenario_mem scenario_dis 3 scenario_log
      (some "entry") 0x1000 0x1007
      { cur := 0x1007, curdata := 1, curcomment := 1
        out := [log_event.label "entry",
          log_event.comment_line 0x1000 "dd      12345678" "const",
          log_event.plain_line 0x1005 "NOP"]
        dis_calls := [0x1005] }
      (by rfl)).1 "entry" rfl).1⟩

/-- Claim C18 as stated fails: for the label `entry` the text written is `\nentry\n`, with
two newline characters; a blank line after the label line would take a third, as in
`\nentry\n\n`. The line of the first element follows the label line directly. -/
theorem label_line_counterexample :
    event_text (fun _ => "0x") (log_event.label "entry") = "\nentry\n" ∧
    newline_count (event_text (fun _ => "0x") (log_event.label "entry")) = 2 ∧
    newline_count "\nentry\n\n" = 3 ∧
    (render scenario_mem scenario_dis 3 scenario_log (some "entry") 0x1000 0x1007).map
        (fun st => String.join (st.out.map (event_text (fun _ => "0x")))) =
      some ("\nentry\n" ++
        "0x: dd      12345678                                  ; const\n" ++
        "0x: NOP\n") := by
  decide

theorem hex_digits_succ (w v : Nat) :
    hex_digits (w + 1) v = hex_digits w (v / 16) ++ [hex_digit (v % 16)] := rfl

theorem hex_digits_length : ∀ w v, (hex_digits w v).length = w := by
  intro w
  induction w with
  | zero => intro v; rfl
  | succ w ih =>
    intro v
    unfold hex_digits
    rw [List.length_append, ih]
    rfl

theorem hex_digit_upper : ∀ d, d < 16 → hex_digit d ∈ "0123456789ABCDEF".toList := by
  decide

theorem hex_char_value_digit : ∀ d, d < 16 → hex_char_value (hex_digit d) = d := by
  decide

theorem hex_digits_upper : ∀ w v c, c ∈ hex_digits w v → c ∈ "0123456789ABCDEF".toList := by
  intro w
  induction w with
  | zero => intro v c hc; simp [hex_digits] at hc
  | succ w ih =>
    intro v c hc
    unfold hex_digits at hc
    rw [List.mem_append] at hc
    rcases hc with hc | hc
    · exact ih _ c hc
    · rw [List.mem_singleton] at hc
      subst hc
      exact hex_digit_upper _ (Nat.mod_lt _ (by norm_num))

theorem hex_value_concat (ds : List Char) (c : Char) :
    hex_value (ds ++ [c]) = 16 * hex_value ds + hex_char_value c := by
  unfold hex_value
  rw [List.foldl_append]
  rfl

theorem hex_value_digits : ∀ w v, hex_value (hex_digits w v) = v % 16 ^ w := by
  intro w
  induction w with
  | zero => intro v; simp [hex_digits, hex_value, Nat.mod_one]
  | succ w ih =>
    intro v
    unfold hex_digits
    rw [hex_value_concat, ih, hex_char_value_digit _ (Nat.mod_lt _ (by norm_num)),
      pow_succ, Nat.mul_comm (16 ^ w) 16, Nat.mod_mul]
    omega

theorem hex_digits_mod : ∀ w v, hex_digits w (v % 16 ^ w) = hex_digits w v := by
  intro w
  induction w with
  | zero => intro v; rfl
  | succ w ih =>
    intro v
    unfold hex_digits
    have h1 : v % 16 ^ (w + 1) / 16 = v / 16 % 16 ^ w := by
      rw [pow_succ, Nat.mul_comm (16 ^ w) 16, Nat.mod_mul_right_div_self]
    have h2 : v % 16 ^ (w + 1) % 16 = v % 16 := by
      apply Nat.mod_mod_of_dvd
      exact Dvd.intro_left (16 ^ w) rfl
    rw [h1, h2, ih]

theorem hex_digits_add (a : Nat) : ∀ b v,
    hex_digits (a + b) v = hex_digits a (v / 16 ^ b) ++ hex_digits b v := by
  intro b
  induction b with
  | zero => intro v; simp [hex_digits]
  | succ b ih =>
    intro v
    have hab : a + (b + 1) = (a + b) + 1 := by omega
    rw [hab, hex_digits_succ, hex_digits_succ, ih, List.append_assoc,
      Nat.div_div_eq_div_mul, pow_succ, Nat.mul_comm (16 ^ b) 16]

/-- The two 32-bit halves printed by `%08X%08X`, high word first, are the 16 digits of the
64-bit value. -/
theorem hex_digits_halves (lo hi : Nat) (hlo : lo < 2 ^ 32) :
    hex_digits 8 hi ++ hex_digits 8 lo = hex_digits 16 (lo + 2 ^ 32 * hi) := by
  have h16 : (16 : Nat) ^ 8 = 2 ^ 32 := by norm_num
  rw [show (16 : Nat) = 8 + 8 from rfl, hex_digits_add 8 8, h16]
  have hdiv : (lo + 2 ^ 32 * hi) / 2 ^ 32 = hi := by
    rw [Nat.add_mul_div_left _ _ (by norm_num), Nat.div_eq_of_lt hlo, Nat.zero_add]
  have hmod : hex_digits 8 (lo + 2 ^ 32 * hi) = hex_digits 8 lo := by
    rw [← hex_digits_mod 8 (lo + 2 ^ 32 * hi), h16, Nat.add_mul_mod_self_left,
      Nat.mod_eq_of_lt hlo]
  rw [hdiv, hmod]

theorem r8_lt (mem : Nat → Nat) (pc : Nat) : r8 mem pc < 256 :=
  Nat.mod_lt _ (by norm_num)

theorem r32_lt (mem : Nat → Nat) (pc : Nat) : r32 mem pc < 2 ^ 32 := by
  unfold r32 r16
  have h0 := r8_lt mem pc
  have h1 := r8_lt mem (pc + 1)
  have h2 := r8_lt mem (pc + 2)
  have h3 := r8_lt mem (pc + 2 + 1)
  norm_num
  omega

theorem le_value_one (mem : Nat → Nat) (cur : Nat) : le_value mem cur 1 = r8 mem cur := by
  simp [le_value]

theorem le_value_two (mem : Nat → Nat) (cur : Nat) : le_value mem cur 2 = r16 mem cur := by
  simp [le_value, r16]

theorem le_value_four (mem : Nat → Nat) (cur : Nat) : le_value mem cur 4 = r32 mem cur := by
  simp only [le_value, r32, r16]
  have e1 : cur + 1 + 1 = cur + 2 := by omega
  have e2 : cur + 1 + 1 + 1 = cur + 2 + 1 := by omega
  rw [e1, e2]
  omega

theorem le_value_eight (mem : Nat → Nat) (cur : Nat) :
    le_value mem cur 8 = r32 mem cur + 2 ^ 32 * r32 mem (cur + 4) := by
  have h := le_value_four mem cur
  have h4 := le_value_four mem (cur + 4)
  simp only [le_value] at h h4 ⊢
  have e1 : cur + 1 + 1 + 1 + 1 = cur + 4 := by omega
  rw [e1]
  rw [← h, ← h4]
  omega

theorem le_value_lt (mem : Nat → Nat) : ∀ s cur, le_value mem cur s < 256 ^ s := by
  intro s
  induction s with
  | zero => intro cur; simp [le_value]
  | succ s ih =>
    intro cur
    have h1 := ih (cur + 1)
    have h2 := r8_lt mem cur
    simp only [le_value, pow_succ]
    omega

theorem data_text_le_value (mem : Nat → Nat) (cur s : Nat)
    (hs : s = 1 ∨ s = 2 ∨ s = 4 ∨ s = 8) :
    data_text mem cur (s : Int) =
      data_mnemonic (s : Int) ++ "      " ++
        String.mk (hex_digits (2 * s) (le_value mem cur s)) := by
  rcases hs with rfl | rfl | rfl | rfl
  · rw [le_value_one]
    simp [data_text, data_mnemonic]
  · rw [le_value_two]
    simp [data_text, data_mnemonic]
  · rw [le_value_four]
    simp [data_text, data_mnemonic]
  · rw [le_value_eight, ← hex_digits_halves _ _ (r32_lt mem cur)]
    simp [data_text, data_mnemonic]
    rfl

theorem render_iter_data (mem : Nat → Nat) (dis : Nat → String × Nat)
    (log : a64log_context) (st : render_state) (hdata : takes_data log st) :
    render_iter mem dis log st =
      print_and_advance log
        { st with curdata := skip_data_ranges log st.cur st.curdata
                  curcomment := skip_comments log st.cur st.curcomment }
        (data_text mem st.cur (log.data_range (skip_data_ranges log st.cur st.curdata)).size)
        (log.data_range (skip_data_ranges log st.cur st.curdata)).size := by
  rw [render_iter_eq, if_neg (fun h => h.1 hdata)]
  unfold element_buffer element_bytes
  rw [if_pos hdata, if_pos hdata]
  simp [hdata]

/-- Claim C17. For every data element the loop renders at the cursor `cur` from a slot of
element size `s` in {1, 2, 4, 8}: the text is the mnemonic (`db`, `dw`, `dd`, `dq`), six
blanks, and exactly `2 * s` upper-case hexadecimal digits that denote the unsigned
little-endian value of the `s` bytes at `cur..cur+s-1`, zero-padded; it is the text of the
last line the round prints, for the address `cur`; and the cursor advances by exactly `s`.
For `s = 8` the digits of the two 32-bit halves, high word first, are the 16 digits of the
64-bit value. -/
theorem data_element_text (mem : Nat → Nat) (dis : Nat → String × Nat)
    (log : a64log_context) (st : render_state) (s : Nat)
    (hs : s = 1 ∨ s = 2 ∨ s = 4 ∨ s = 8)
    (hdata : takes_data log st)
    (hsize : (log.data_range (skip_data_ranges log st.cur st.curdata)).size = (s : Int)) :
    data_text mem st.cur (s : Int) =
      data_mnemonic (s : Int) ++ "      " ++
        String.mk (hex_digits (2 * s) (le_value mem st.cur s)) ∧
    (data_mnemonic (s : Int) =
      if s = 1 then "db" else if s = 2 then "dw" else if s = 4 then "dd" else "dq") ∧
    (hex_digits (2 * s) (le_value mem st.cur s)).length = 2 * s ∧
    (∀ c, c ∈ hex_digits (2 * s) (le_value mem st.cur s) →
      c ∈ "0123456789ABCDEF".toList) ∧
    hex_value (hex_digits (2 * s) (le_value mem st.cur s)) = le_value mem st.cur s ∧
    (render_iter mem dis log st).cur = st.cur + s ∧
    (∃ stacked last, (render_iter mem dis log st).out = st.out ++ stacked ++ [last] ∧
      event_addr last = some st.cur ∧ event_buffer last = data_text mem st.cur (s : Int)) ∧
    (s = 8 →
      hex_digits 8 (r32 mem (st.cur + 4)) ++ hex_digits 8 (r32 mem st.cur) =
        hex_digits 16 (le_value mem st.cur 8)) := by
  have hiter := render_iter_data mem dis log st hdata
  rw [hsize] at hiter
  refine ⟨data_text_le_value mem st.cur s hs, ?_, hex_digits_length _ _,
    hex_digits_upper _ _, ?_, ?_, ?_, ?_⟩
  · rcases hs with rfl | rfl | rfl | rfl <;> simp [data_mnemonic]
  · rw [hex_value_digits]
    apply Nat.mod_eq_of_lt
    have := le_value_lt mem s st.cur
    have hpow : (16 : Nat) ^ (2 * s) = 256 ^ s := by
      rw [pow_mul]
      norm_num
    rw [hpow]
    exact this
  · rw [hiter, (print_and_advance_fields log _ _ _).1]
    simp only []
    omega
  · rw [hiter]
    obtain ⟨stacked, last, hout, hla, hlb, _⟩ := print_and_advance_out log
      { st with curdata := skip_data_ranges log st.cur st.curdata
                curcomment := skip_comments log st.cur st.curcomment }
      (data_text mem st.cur (s : Int)) (s : Int)
    exact ⟨stacked, last, hout, hla, hlb⟩
  · intro _
    rw [le_value_eight, hex_digits_halves _ _ (r32_lt mem st.cur)]

theorem data_element_text_witness :
    data_text scenario_mem 0x1000 4 = "dd      12345678" ∧
    (render_iter scenario_mem scenario_dis scenario_log (render_start none 0x1000)).cur =
      0x1000 + 4 ∧
    data_text scenario_mem 0x1000 8 = "dq      909090CC12345678" ∧
    data_text scenario_mem 0x1000 2 = "dw      5678" ∧
    data_text scenario_mem 0x1000 1 = "db      78" :=
  ⟨by decide,
    (data_element_text scenario_mem scenario_dis scenario_log (render_start none 0x1000) 4
      (by decide) (by decide) (by decide)).2.2.2.2.2.1,
    by decide, by decide, by decide⟩

/-! ## Claims C13 and C14: elements of no byte, and termination -/

theorem skip_data_ranges_idem (log : a64log_context) (cur c : Nat) :
    skip_data_ranges log cur (skip_data_ranges log cur c) = skip_data_ranges log cur c := by
  have hstop := (skip_data_ranges_spec log cur c).2.2.2
  generalize skip_data_ranges log cur c = r at hstop
  unfold skip_data_ranges
  cases hn : log.data_range_count - r with
  | zero => rfl
  | succ n =>
    unfold skip_data_ranges_loop
    rw [if_neg]
    intro hg
    have := hstop hg.1
    omega

/-- One round at an instruction of no byte: the cursor stays, the data branch stays
untaken, and the disassembler has been invoked once more. -/
theorem render_iter_stalled (mem : Nat → Nat) (dis : Nat → String × Nat)
    (log : a64log_context) (st : render_state)
    (hnd : ¬ takes_data log st) (hnf : r8 mem st.cur ≠ 0xcc) (hzero : (dis st.cur).2 = 0) :
    (render_iter mem dis log st).cur = st.cur ∧
    ¬ takes_data log (render_iter mem dis log st) ∧
    (render_iter mem dis log st).dis_calls = st.dis_calls ++ [st.cur] := by
  have hcd := render_iter_curdata mem dis log st
  have hnfil : ¬ takes_filler mem log st := fun h => hnf h.2
  have hcur : (render_iter mem dis log st).cur = st.cur := by
    rw [render_iter_cur, if_neg hnfil]
    unfold element_bytes
    rw [if_neg hnd, hzero]
    simp
  refine ⟨hcur, ?_, ?_⟩
  · unfold takes_data at hnd ⊢
    rw [hcur, hcd, skip_data_ranges_idem]
    exact hnd
  · rw [render_iter_eq, if_neg hnfil, (print_and_advance_fields log _ _ _).2.2]
    simp only []
    rw [if_neg hnd]

theorem render_reach_stalled (mem : Nat → Nat) (dis : Nat → String × Nat)
    (log : a64log_context) (stop : Nat) (st st2 : render_state)
    (hnd : ¬ takes_data log st) (hnf : r8 mem st.cur ≠ 0xcc) (hzero : (dis st.cur).2 = 0)
    (hreach : render_reach mem dis log stop st st2) :
    st2.cur = st.cur ∧ ¬ takes_data log st2 := by
  induction hreach with
  | start => exact ⟨rfl, hnd⟩
  | @step st1 _ _ ih =>
    obtain ⟨hc, hd⟩ := ih
    have h := render_iter_stalled mem dis log st1 hd (by rw [hc]; exact hnf)
      (by rw [hc]; exact hzero)
    exact ⟨by rw [h.1, hc], h.2.1⟩

theorem render_loop_none_of_stalled (mem : Nat → Nat) (dis : Nat → String × Nat)
    (log : a64log_context) (stop : Nat) (st0 st : render_state)
    (hreach : render_reach mem dis log stop st0 st) (hlt : st.cur < stop)
    (hnd : ¬ takes_data log st) (hnf : r8 mem st.cur ≠ 0xcc) (hzero : (dis st.cur).2 = 0) :
    ∀ fuel, render_loop mem dis log stop fuel st0 = none := by
  intro fuel
  cases hrun : render_loop mem dis log stop fuel st0 with
  | none => rfl
  | some st1 =>
    obtain ⟨hr1, hge⟩ := render_loop_reach mem dis log stop st0 fuel st0 st1
      render_reach.start hrun
    have hafter := render_reach_before_exit mem dis log stop st0 st st1 hreach hr1 hlt hge
    have hfrom := render_reach_trans mem dis log stop st _ st1
      (render_reach.step render_reach.start hlt) hafter
    have := (render_reach_stalled mem dis log stop st st1 hnd hnf hzero hfrom).1
    omega

/-- Claim C13, amended. When the loop reaches an address that is not in the data slot and
does not hold the filler byte, and the disassembler returns the length 0 there,
`a64log_disasm_code_range` does not detect it: the round invokes the disassembler, prints
its line and leaves the cursor where it was, every later state of the loop has the same
cursor, and the call returns for no bound on the number of rounds. There is no outcome
that stands for a fatal error. -/
theorem zero_length_never_returns (mem : Nat → Nat) (dis : Nat → String × Nat)
    (log : a64log_context) (label : Option String) (start stop : Nat) (st : render_state)
    (hreach : render_reach mem dis log stop (render_start label start) st)
    (hlt : st.cur < stop) (hnd : ¬ takes_data log st) (hnf : r8 mem st.cur ≠ 0xcc)
    (hzero : (dis st.cur).2 = 0) :
    (render_iter mem dis log st).cur = st.cur ∧
    (render_iter mem dis log st).dis_calls = st.dis_calls ++ [st.cur] ∧
    (∃ lines, lines ≠ [] ∧ (render_iter mem dis log st).out = st.out ++ lines ∧
      ∀ e, e ∈ lines → event_addr e = some st.cur) ∧
    (∀ st2, render_reach mem dis log stop st st2 → st2.cur = st.cur) ∧
    (∀ fuel, render mem dis fuel log label start stop = none) := by
  have h := render_iter_stalled mem dis log st hnd hnf hzero
  refine ⟨h.1, h.2.2, ?_, fun st2 hr =>
    (render_reach_stalled mem dis log stop st st2 hnd hnf hzero hr).1,
    render_loop_none_of_stalled mem dis log stop _ st hreach hlt hnd hnf hzero⟩
  rw [render_iter_eq, if_neg (fun hf => hnf hf.2)]
  obtain ⟨stacked, last, hout, hla, _, hst⟩ := print_and_advance_out log
    { st with curdata := skip_data_ranges log st.cur st.curdata
              curcomment := skip_comments log st.cur st.curcomment
              dis_calls := if takes_data log st then st.dis_calls
                else st.dis_calls ++ [st.cur] }
    (element_buffer mem dis log st) (element_bytes dis log st)
  refine ⟨stacked ++ [last], by simp, by rw [hout, List.append_assoc], fun e he => ?_⟩
  rw [List.mem_append] at he
  rcases he with he | he
  · exact (hst e he).1
  · rw [List.mem_singleton] at he
    subst he
    exact hla

theorem zero_length_never_returns_witness :
    render scenario_mem stalling_dis 1000 (a64log_create_context "a64.log") none
      0x1000 0x1001 = none :=
  (zero_length_never_returns scenario_mem stalling_dis (a64log_create_context "a64.log")
    none 0x1000 0x1001 (render_start none 0x1000) render_reach.start
    (by decide) (by decide) (by decide) rfl).2.2.2.2 1000

/-- Claim C13 as stated fails: on a new context, with the byte 0x78 at 0x1000 and a
disassembler that returns the length 0, the render of [0x1000,0x1001) returns for no bound
on the rounds, with a fatal error or otherwise; after three rounds the cursor is still at
0x1000, the disassembler has been invoked there three times and three lines have been
printed for it. -/
theorem zero_length_counterexample :
    (¬ ∃ fuel st, render scenario_mem stalling_dis fuel (a64log_create_context "a64.log")
        none 0x1000 0x1001 = some st) ∧
    (fun st : render_state => (st.cur, st.dis_calls, st.out))
      (render_iter scenario_mem stalling_dis (a64log_create_context "a64.log")
        (render_iter scenario_mem stalling_dis (a64log_create_context "a64.log")
          (render_iter scenario_mem stalling_dis (a64log_create_context "a64.log")
            (render_start none 0x1000)))) =
      (0x1000, [0x1000, 0x1000, 0x1000],
        [log_event.plain_line 0x1000 "???", log_event.plain_line 0x1000 "???",
         log_event.plain_line 0x1000 "???"]) := by
  constructor
  · rintro ⟨fuel, st, h⟩
    have hnone := render_loop_none_of_stalled scenario_mem stalling_dis
      (a64log_create_context "a64.log") 0x1001 (render_start none 0x1000)
      (render_start none 0x1000) render_reach.start (by decide) (by decide) (by decide) rfl
      fuel
    unfold render at h
    rw [hnone] at h
    exact absurd h (by simp)
  · decide

theorem printf_data_range (fopen_ok : Nat → Bool) (p : a64log_context × a64log_sink)
    (ev : log_event) : (a64log_printf fopen_ok p ev).1.data_range = p.1.data_range := by
  unfold a64log_printf
  split
  · split <;> rfl
  · rfl

theorem printf_foldl_data_range (fopen_ok : Nat → Bool) (evs : List log_event) :
    ∀ p : a64log_context × a64log_sink,
      (evs.foldl (a64log_printf fopen_ok) p).1.data_range = p.1.data_range := by
  induction evs with
  | nil => intro p; rfl
  | cons e es ih =>
    intro p
    rw [List.foldl_cons, ih, printf_data_range]

theorem api_reachable_slots_valid (log : a64log_context) (h : api_reachable log) :
    slots_valid log := by
  induction h with
  | create filename => intro i; exact Or.inl rfl
  | @mark_as_data log0 base end_ size _ hassert ih =>
    rw [mark_as_data_asserts_iff] at hassert
    obtain ⟨_, hnew, hold⟩ := mark_as_data_appends log0 base end_ size hassert.1
    intro i
    by_cases hi : i = log0.data_range_count
    · subst hi
      rw [hnew]
      exact Or.inr hassert.2.2.1
    · rw [hold i hi]
      exact ih i
  | @add_comment log0 base format msg _ _ ih =>
    intro i
    have : (a64log_add_comment log0 base format msg).data_range = log0.data_range := by
      unfold a64log_add_comment
      split
      · rfl
      · split <;> rfl
    rw [this]
    exact ih i
  | @disasm_code_range log0 fopen_ok mem dis fuel sink label start stop q _ hrun ih =>
    unfold a64log_disasm_code_range at hrun
    cases hr : render mem dis fuel log0 label start stop with
    | none =>
      simp only [hr, Option.map_none'] at hrun
      exact absurd hrun (by simp)
    | some st =>
      simp only [hr, Option.map_some'] at hrun
      have hq := Option.some.inj hrun
      subst hq
      intro i
      have : (reset_log (st.out.foldl (a64log_printf fopen_ok) (log0, sink)).1).data_range =
          log0.data_range := by
        show (st.out.foldl (a64log_printf fopen_ok) (log0, sink)).1.data_range = _
        rw [printf_foldl_data_range]
      simp only []
      rw [this]
      exact ih i

theorem elements_advance_of_slots_valid (dis : Nat → String × Nat) (log : a64log_context)
    (start : Nat) (hvalid : slots_valid log) (hstart : 0 < start)
    (hdis : ∀ a, 1 ≤ (dis a).2) : elements_advance dis log start := by
  refine ⟨hdis, fun i _ hend => ?_⟩
  rcases hvalid i with h | h
  · rw [h] at hend
    simp only [] at hend
    omega
  · rcases h with h | h | h | h <;> omega

theorem render_loop_terminates (mem : Nat → Nat) (dis : Nat → String × Nat)
    (log : a64log_context) (start stop : Nat) (hadv : elements_advance dis log start) :
    ∀ fuel st, walk_ok log start st → stop - st.cur ≤ fuel →
      ∃ st1, render_loop mem dis log stop fuel st = some st1 := by
  intro fuel
  induction fuel with
  | zero =>
    intro st _ hfuel
    unfold render_loop
    rw [if_neg (by omega)]
    exact ⟨st, rfl⟩
  | succ fuel ih =>
    intro st hok hfuel
    unfold render_loop
    split
    · have hgt := render_iter_cur_gt mem dis log start st hadv hok
      exact ih _ (render_iter_walk_ok mem dis log start st hadv hok) (by omega)
    · exact ⟨st, rfl⟩

/-- Claim C14. For every context reachable through `a64log_create_context`,
`a64log_mark_as_data`, `a64log_add_comment` and `a64log_disasm_code_range` with the
assertions of the registrations holding, every `start` other than the null pointer, every
`stop`, every label, and every disassembler that returns a length of at least 1 at every
address: the cursor strictly increases in every round of the render loop, and the loop
exits within `stop - start` rounds, so that `a64log_disasm_code_range` returns. -/
theorem render_terminates (mem : Nat → Nat) (dis : Nat → String × Nat)
    (log : a64log_context) (label : Option String) (start stop : Nat)
    (hlog : api_reachable log) (hstart : 0 < start) (hdis : ∀ a, 1 ≤ (dis a).2) :
    (∀ st, render_reach mem dis log stop (render_start label start) st → st.cur < stop →
      st.cur < (render_iter mem dis log st).cur) ∧
    (∀ fuel, stop - start ≤ fuel →
      ∃ st, render mem dis fuel log label start stop = some st ∧ stop ≤ st.cur) ∧
    (∀ (fopen_ok : Nat → Bool) (sink : a64log_sink) (fuel : Nat), stop - start ≤ fuel →
      ∃ q, a64log_disasm_code_range fopen_ok mem dis fuel (log, sink) label start stop =
        some q) := by
  have hadv := elements_advance_of_slots_valid dis log start
    (api_reachable_slots_valid log hlog) hstart hdis
  have h0 := render_start_walk_ok log label start
  have hterm : ∀ fuel, stop - start ≤ fuel →
      ∃ st, render mem dis fuel log label start stop = some st := fun fuel hfuel =>
    render_loop_terminates mem dis log start stop hadv fuel _ h0 hfuel
  refine ⟨fun st hreach _ => ?_, fun fuel hfuel => ?_, fun fopen_ok sink fuel hfuel => ?_⟩
  · exact render_iter_cur_gt mem dis log start st hadv
      (render_reach_walk_ok mem dis log start stop _ st hadv h0 hreach)
  · obtain ⟨st, hst⟩ := hterm fuel hfuel
    exact ⟨st, hst, (render_loop_reach mem dis log stop _ fuel _ st render_reach.start hst).2⟩
  · obtain ⟨st, hst⟩ := hterm fuel hfuel
    unfold a64log_disasm_code_range
    simp only []
    rw [hst]
    exact ⟨_, rfl⟩

theorem render_terminates_witness :
    ∃ st, render scenario_mem scenario_dis (0x1007 - 0x1000) scenario_log none
      0x1000 0x1007 = some st ∧ 0x1007 ≤ st.cur :=
  (render_terminates scenario_mem scenario_dis scenario_log none 0x1000 0x1007
    (api_reachable.add_comment _ _ _
      (api_reachable.mark_as_data _ _ _ (api_reachable.create "a64.log") (by decide))
      (by decide))
    (by decide) (fun a => by unfold scenario_dis; split <;> simp)).2.1
    (0x1007 - 0x1000) (le_refl _)

/-! ## Claim C12: where comments are attached -/

theorem print_and_advance_lines (log : a64log_context) (st : render_state)
    (buffer : String) (bytes : Int) :
    ∃ lines, (print_and_advance log st buffer bytes).out = st.out ++ lines ∧
      ∀ e, e ∈ lines → event_addr e = some st.cur ∧
        (event_buffer e = buffer ∨ event_buffer e = "") ∧
        ∀ c, event_comment e = some c →
          ∃ j, j < log.comment_count ∧ (log.comment_list j).base = st.cur ∧
            c = comment_string log (log.comment_list j) := by
  by_cases h : st.curcomment < log.comment_count ∧
      st.cur = (log.comment_list st.curcomment).base
  · obtain ⟨h1, h2, _, h4, _⟩ := stacked_comments_spec log st.cur st.curcomment h.1
    have hbase : ∀ j, st.curcomment ≤ j → j ≤ (stacked_comments log st.cur st.curcomment).1 →
        j < log.comment_count ∧ (log.comment_list j).base = st.cur := by
      intro j hj1 hj2
      refine ⟨by omega, ?_⟩
      rcases Nat.eq_or_lt_of_le hj1 with heq | hgt
      · rw [← heq]; exact h.2.symm
      · exact h4 j hgt hj2
    refine ⟨_, by rw [print_and_advance_matching log st buffer bytes h, List.append_assoc],
      fun e he => ?_⟩
    rw [List.mem_append] at he
    rcases he with he | he
    · rw [List.mem_map] at he
      obtain ⟨j, hj, rfl⟩ := he
      rw [List.mem_range'_1] at hj
      refine ⟨rfl, Or.inr rfl, fun c hc => ⟨j, (hbase j hj.1 (by omega)).1,
        (hbase j hj.1 (by omega)).2, ?_⟩⟩
      simp only [event_comment, Option.some.injEq] at hc
      exact hc.symm
    · rw [List.mem_singleton] at he
      subst he
      refine ⟨rfl, Or.inl rfl, fun c hc => ⟨_, (hbase _ h1 (le_refl _)).1,
        (hbase _ h1 (le_refl _)).2, ?_⟩⟩
      simp only [event_comment, Option.some.injEq] at hc
      exact hc.symm
  · refine ⟨[log_event.plain_line st.cur buffer], ?_, fun e he => ?_⟩
    · unfold print_and_advance
      rw [if_neg h]
    · rw [List.mem_singleton] at he
      subst he
      exact ⟨rfl, Or.inl rfl, fun c hc => by simp [event_comment] at hc⟩

theorem render_iter_lines (mem : Nat → Nat) (dis : Nat → String × Nat)
    (log : a64log_context) (st : render_state) :
    ∃ lines, (render_iter mem dis log st).out = st.out ++ lines ∧
      ∀ e, e ∈ lines → line_of_element mem dis log st e := by
  by_cases hf : takes_filler mem log st
  · refine ⟨[], ?_, by simp⟩
    rw [render_iter_eq, if_pos hf]
    simp
  · rw [render_iter_eq, if_neg hf]
    obtain ⟨lines, hout, hl⟩ := print_and_advance_lines log
      { st with curdata := skip_data_ranges log st.cur st.curdata
                curcomment := skip_comments log st.cur st.curcomment
                dis_calls := if takes_data log st then st.dis_calls
                  else st.dis_calls ++ [st.cur] }
      (element_buffer mem dis log st) (element_bytes dis log st)
    exact ⟨lines, hout, fun e he => ⟨hf, (hl e he).1, (hl e he).2.1, (hl e he).2.2⟩⟩

theorem render_reach_lines (mem : Nat → Nat) (dis : Nat → String × Nat)
    (log : a64log_context) (stop : Nat) (s st : render_state)
    (hreach : render_reach mem dis log stop s st) :
    ∀ e, e ∈ st.out → e ∈ s.out ∨
      ∃ st1, render_reach mem dis log stop s st1 ∧ st1.cur < stop ∧
        line_of_element mem dis log st1 e := by
  induction hreach with
  | start => intro e he; exact Or.inl he
  | @step st1 hr hlt ih =>
    intro e he
    obtain ⟨lines, hout, hl⟩ := render_iter_lines mem dis log st1
    rw [hout, List.mem_append] at he
    rcases he with he | he
    · exact ih e he
    · exact Or.inr ⟨st1, hr, hlt, hl e he⟩

theorem element_bytes_nonneg (dis : Nat → String × Nat) (log : a64log_context)
    (st : render_state) (hnn : sizes_nonneg log) (hcd : st.curdata ≤ log.data_range_count) :
    0 ≤ element_bytes dis log st := by
  unfold element_bytes
  split
  · exact hnn _ ((skip_data_ranges_spec log st.cur st.curdata).2.1 hcd)
  · omega

theorem render_iter_cur_ge_weak (mem : Nat → Nat) (dis : Nat → String × Nat)
    (log : a64log_context) (st : render_state) (hnn : sizes_nonneg log)
    (hcd : st.curdata ≤ log.data_range_count) :
    st.cur ≤ (render_iter mem dis log st).cur := by
  rw [render_iter_cur]
  have := element_bytes_nonneg dis log st hnn hcd
  split <;> omega

theorem render_iter_walk_weak_ok (mem : Nat → Nat) (dis : Nat → String × Nat)
    (log : a64log_context) (st : render_state) (hnn : sizes_nonneg log)
    (hok : walk_weak_ok log st) : walk_weak_ok log (render_iter mem dis log st) := by
  have hge := render_iter_cur_ge_weak mem dis log st hnn hok.1
  obtain ⟨lines, hout, hlines⟩ := render_iter_out mem dis log st
  refine ⟨?_, fun e he a ha => ?_⟩
  · rw [render_iter_curdata]
    exact (skip_data_ranges_spec log st.cur st.curdata).2.1 hok.1
  · rw [hout, List.mem_append] at he
    rcases he with he | he
    · have := hok.2 e he a ha
      omega
    · rw [hlines e he] at ha
      simp at ha
      omega

theorem render_reach_walk_weak_ok (mem : Nat → Nat) (dis : Nat → String × Nat)
    (log : a64log_context) (stop : Nat) (s st : render_state) (hnn : sizes_nonneg log)
    (hs : walk_weak_ok log s) (hreach : render_reach mem dis log stop s st) :
    walk_weak_ok log st := by
  induction hreach with
  | start => exact hs
  | step _ _ ih => exact render_iter_walk_weak_ok mem dis log _ hnn ih

theorem render_reach_out_weak (mem : Nat → Nat) (dis : Nat → String × Nat)
    (log : a64log_context) (stop : Nat) (s st : render_state) (hnn : sizes_nonneg log)
    (hs : walk_weak_ok log s) (hreach : render_reach mem dis log stop s st) :
    s.cur ≤ st.cur ∧ ∃ more, st.out = s.out ++ more ∧
      ∀ e, e ∈ more → ∀ a, event_addr e = some a → s.cur ≤ a := by
  induction hreach with
  | start => exact ⟨le_refl _, [], by simp, by simp⟩
  | @step st1 hr _ ih =>
    obtain ⟨hle, more, hmore, haddr⟩ := ih
    have hok1 := render_reach_walk_weak_ok mem dis log stop s st1 hnn hs hr
    have hge := render_iter_cur_ge_weak mem dis log st1 hnn hok1.1
    obtain ⟨lines, hout, hlines⟩ := render_iter_out mem dis log st1
    refine ⟨by omega, more ++ lines, by rw [hout, hmore]; simp, fun e he a ha => ?_⟩
    rw [List.mem_append] at he
    rcases he with he | he
    · exact haddr e he a ha
    · rw [hlines e he] at ha
      simp at ha
      omega

theorem render_start_walk_weak_ok (log : a64log_context) (label : Option String)
    (start : Nat) : walk_weak_ok log (render_start label start) := by
  refine ⟨Nat.zero_le _, fun e he a ha => ?_⟩
  unfold render_start at he
  cases label with
  | none => simp at he
  | some l =>
    simp at he
    subst he
    simp [event_addr] at ha

/-- Claim C12, amended to walks whose data slots hold no negative size. In every state of
the render loop, so in every finished render: every line printed so far that carries a
comment is a line of an element that began at a cursor position `st1.cur < stop` of the
loop, its address is `st1.cur`, the first byte of that element, its text is the text of the
element or empty (a stacked comment), and its comment is a comment registered at exactly
that address; and when an element that begins at `st1.cur` has more than one byte, no line
at all is printed for an address `b` strictly inside it, so a comment registered at `b`
appears on no line. -/
theorem comments_attach_to_element_start (mem : Nat → Nat) (dis : Nat → String × Nat)
    (log : a64log_context) (label : Option String) (start stop : Nat) (st : render_state)
    (hnn : sizes_nonneg log)
    (hreach : render_reach mem dis log stop (render_start label start) st) :
    (∀ e c, e ∈ st.out → event_comment e = some c →
      ∃ st1, render_reach mem dis log stop (render_start label start) st1 ∧
        st1.cur < stop ∧ line_of_element mem dis log st1 e) ∧
    (∀ st1 b, render_reach mem dis log stop (render_start label start) st1 →
      st1.cur < stop → ¬ takes_filler mem log st1 →
      st1.cur < b → (b : Int) < st1.cur + element_bytes dis log st1 →
      ∀ e, e ∈ st.out → event_addr e ≠ some b) := by
  have h0 := render_start_walk_weak_ok log label start
  constructor
  · intro e c he hc
    rcases render_reach_lines mem dis log stop _ st hreach e he with hs | hs
    · unfold render_start at hs
      cases label with
      | none => simp at hs
      | some l =>
        simp at hs
        subst hs
        simp [event_comment] at hc
    · exact hs
  · intro st1 b hr1 hlt hnf hb1 hb2 e he ha
    have hok1 := render_reach_walk_weak_ok mem dis log stop _ st1 hnn h0 hr1
    have hbefore : ∀ e1, e1 ∈ st1.out → event_addr e1 ≠ some b := by
      intro e1 he1 ha1
      have := hok1.2 e1 he1 b ha1
      omega
    rcases render_reach_linear mem dis log stop _ st1 st hr1 hreach with h | h
    · rcases render_reach_eq_or_step mem dis log stop st1 st h with heq | ⟨_, hafter⟩
      · subst heq
        exact hbefore e he ha
      · have hok2 := render_iter_walk_weak_ok mem dis log st1 hnn hok1
        obtain ⟨_, more, hmore, haddr⟩ :=
          render_reach_out_weak mem dis log stop _ st hnn hok2 hafter
        obtain ⟨lines, hout, hlines⟩ := render_iter_out mem dis log st1
        have hcur := render_iter_cur mem dis log st1
        rw [if_neg hnf] at hcur
        rw [hmore, hout, List.mem_append, List.mem_append] at he
        rcases he with (he | he) | he
        · exact hbefore e he ha
        · rw [hlines e he] at ha
          simp at ha
          omega
        · have := haddr e he b ha
          omega
    · obtain ⟨more, hmore, _⟩ := render_reach_out_addr mem dis log stop st st1 h
      exact hbefore e (by rw [hmore]; exact List.mem_append_left _ he) ha

theorem comments_attach_to_element_start_witness :
    sizes_nonneg scenario_log ∧
    (render_iter scenario_mem scenario_dis scenario_log (render_start none 0x1000)).out =
      [log_event.comment_line 0x1000 "dd      12345678" "const"] ∧
    ∀ e, e ∈ (render_iter scenario_mem scenario_dis scenario_log
        (render_start none 0x1000)).out → event_addr e ≠ some 0x1002 :=
  ⟨fun i hi => by
      have h : i = 0 ∨ i = 1 := by
        have : scenario_log.data_range_count = 1 := rfl
        omega
      rcases h with rfl | rfl <;> decide,
    by decide,
    (comments_attach_to_element_start scenario_mem scenario_dis scenario_log none 0x1000
      0x1007 (render_iter scenario_mem scenario_dis scenario_log (render_start none 0x1000))
      (fun i hi => by
        have h : i = 0 ∨ i = 1 := by
          have : scenario_log.data_range_count = 1 := rfl
          omega
        rcases h with rfl | rfl <;> decide)
      (render_reach.step render_reach.start (by decide))).2
      (render_start none 0x1000) 0x1002 render_reach.start (by decide) (by decide)
      (by decide) (by decide)⟩

/-- Claim C12 as stated fails when a data slot holds a negative size (assertions off). With
the range [0x1002,0x1002] registered with the size -2 and a comment at 0x1002, the walk from
0x1002 prints the comment on the line of the data element at 0x1002, steps back to 0x1000
and prints there an instruction of four bytes, 0x1000..0x1003: the comment lies strictly
inside an element that began at a lower address, and is on a line. The registered comment
addresses are in order. -/
theorem comments_attach_counterexample :
    comments_ordered backward_log ∧
    (backward_log.comment_list 0).base = 0x1002 ∧
    (render scenario_mem wide_dis 2 backward_log none 0x1002 0x1004).map
        (fun st => (st.out, st.cur)) =
      some ([log_event.comment_line 0x1002 "db      34" "inner",
             log_event.plain_line 0x1000 "MOV"], 0x1004) := by
  decide

/-! ## Claim C11: stored comment text -/

theorem sprintf_pool_text (pool : Nat → Char) (next : Nat) (msg : List Char) :
    text_at (sprintf_pool pool next msg) next msg := by
  unfold text_at sprintf_pool
  constructor
  · intro k hk
    rw [if_pos ⟨by omega, by omega⟩]
    congr 1
    omega
  · rw [if_neg (by omega)]
    simp

theorem sprintf_pool_below (pool : Nat → Char) (next : Nat) (msg : List Char) (i : Nat)
    (hi : i < next) : sprintf_pool pool next msg i = pool i := by
  unfold sprintf_pool
  rw [if_neg (by omega), if_neg (by omega)]

theorem text_at_sprintf_pool (pool : Nat → Char) (next off : Nat) (msg later : List Char)
    (h : text_at pool off msg) (hlt : off + (msg.length + 1) ≤ next) :
    text_at (sprintf_pool pool next later) off msg := by
  unfold text_at at h ⊢
  constructor
  · intro k hk
    rw [sprintf_pool_below pool next later _ (by omega)]
    exact h.1 k hk
  · rw [sprintf_pool_below pool next later _ (by omega)]
    exact h.2

theorem pool_string_text (pool : Nat → Char) : ∀ (msg : List Char) (off fuel : Nat),
    text_at pool off msg → Char.ofNat 0 ∉ msg → msg.length < fuel →
    pool_string pool fuel off = msg := by
  intro msg
  induction msg with
  | nil =>
    intro off fuel h _ hfuel
    obtain ⟨n, rfl⟩ : ∃ n, fuel = n + 1 := ⟨fuel - 1, by simp at hfuel; omega⟩
    unfold pool_string
    have := h.2
    simp only [List.length_nil, Nat.add_zero] at this
    rw [if_pos this]
  | cons c cs ih =>
    intro off fuel h hnul hfuel
    simp only [List.length_cons] at hfuel
    obtain ⟨n, rfl⟩ : ∃ n, fuel = n + 1 := ⟨fuel - 1, by omega⟩
    have hc : pool off = c := by
      have := h.1 0 (by simp)
      simpa using this
    have hne : c ≠ Char.ofNat 0 := by
      intro heq
      exact hnul (by rw [← heq]; exact List.mem_cons_self c cs)
    unfold pool_string
    rw [hc, if_neg hne]
    congr 1
    apply ih (off + 1) n
    · constructor
      · intro k hk
        have := h.1 (k + 1) (by simp only [List.length_cons]; omega)
        rw [show off + 1 + k = off + (k + 1) by omega, this]
        rfl
      · have := h.2
        simp only [List.length_cons] at this
        rw [show off + 1 + cs.length = off + (cs.length + 1) by omega]
        exact this
    · exact fun hmem => hnul (List.mem_cons_of_mem c hmem)
    · omega

theorem pool_string_length_le (pool : Nat → Char) :
    ∀ fuel off, (pool_string pool fuel off).length ≤ fuel := by
  intro fuel
  induction fuel with
  | zero => intro off; simp [pool_string]
  | succ n ih =>
    intro off
    unfold pool_string
    split
    · simp
    · simp only [List.length_cons]
      have := ih (off + 1)
      omega

theorem add_comment_accepted_eq (log : a64log_context) (base : Nat) (format msg : List Char)
    (hcount : log.comment_count < 4000)
    (hpool : log.comment_pool_next + format.length + 256 < 160000) :
    a64log_add_comment log base format msg =
      { log with
        comment_pool := sprintf_pool log.comment_pool log.comment_pool_next msg
        comment_pool_next := log.comment_pool_next + (msg.length + 1)
        comment_list := fun i =>
          if i = log.comment_count then
            { base := base, string := some log.comment_pool_next }
          else log.comment_list i
        comment_count := log.comment_count + 1 } := by
  unfold a64log_add_comment A64LOG_COMMENT_POOL_SIZE A64LOG_MAX_COMMENTS
  rw [if_neg (by omega), if_neg (by omega)]

theorem comment_string_of_stored (log : a64log_context) (idx : Nat) (c : comment_call)
    (h : comment_stored log idx c) (hnul : Char.ofNat 0 ∉ c.msg) :
    comment_string log (log.comment_list idx) = String.mk c.msg := by
  obtain ⟨_, off, _, hstr, _, hfit, htext⟩ := h
  unfold comment_string
  rw [hstr]
  simp only []
  rw [pool_string_text log.comment_pool c.msg off _ htext hnul (by omega)]

theorem comment_stored_new (log : a64log_context) (c : comment_call)
    (hcount : log.comment_count < 4000)
    (hpool : log.comment_pool_next + c.format.length + 256 < 160000)
    (hfit : c.msg.length ≤ c.format.length + 256) :
    comment_stored (a64log_add_comment log c.base c.format c.msg) log.comment_count c := by
  rw [add_comment_accepted_eq log c.base c.format c.msg hcount hpool]
  refine ⟨by simp, log.comment_pool_next, by simp, by simp, le_refl _, ?_,
    sprintf_pool_text _ _ _⟩
  unfold A64LOG_COMMENT_POOL_SIZE A64LOG_MAX_COMMENTS
  omega

theorem comment_stored_later (log : a64log_context) (idx : Nat) (c : comment_call)
    (base : Nat) (format msg : List Char) (h : comment_stored log idx c) :
    comment_stored (a64log_add_comment log base format msg) idx c ∧
    (a64log_add_comment log base format msg).comment_list idx = log.comment_list idx := by
  by_cases hacc : log.comment_count < 4000 ∧
      log.comment_pool_next + format.length + 256 < 160000
  · rw [add_comment_accepted_eq log base format msg hacc.1 hacc.2]
    obtain ⟨hidx, off, hb, hstr, hnext, hfit, htext⟩ := h
    have hne : idx ≠ log.comment_count := by omega
    refine ⟨⟨by simp only []; omega, off, by simp [hne, hb], by simp [hne, hstr],
      by simp only []; omega, hfit, ?_⟩, by simp [hne]⟩
    exact text_at_sprintf_pool _ _ _ _ _ htext hnext
  · rw [add_comment_rejected log base format msg (by omega)]
    exact ⟨h, rfl⟩

theorem comment_stored_run (calls : List comment_call) :
    ∀ (log : a64log_context) (idx : Nat) (c : comment_call), comment_stored log idx c →
      comment_stored (add_comments log calls) idx c := by
  induction calls with
  | nil => intro log idx c h; exact h
  | cons d ds ih =>
    intro log idx c h
    rw [add_comments_cons]
    exact ih _ idx c (comment_stored_later log idx c d.base d.format d.msg h).1

theorem comment_stored_of_accepted (calls : List comment_call) :
    ∀ log : a64log_context, all_accepted log calls →
      (∀ c, c ∈ calls → c.msg.length ≤ c.format.length + 256) →
      ∀ i c, calls[i]? = some c →
        comment_stored (add_comments log calls) (log.comment_count + i) c := by
  induction calls with
  | nil => intro log _ _ i c hc; simp at hc
  | cons d ds ih =>
    intro log hacc hfit i c hc
    obtain ⟨⟨h1, h2⟩, hrest⟩ := hacc
    have h1n : log.comment_count < 4000 := h1
    have h2n : log.comment_pool_next + d.format.length + 256 < 160000 := h2
    rw [add_comments_cons]
    cases i with
    | zero =>
      simp only [List.getElem?_cons_zero, Option.some.injEq] at hc
      subst hc
      exact comment_stored_run ds _ _ _
        (comment_stored_new log d h1n h2n (hfit d (List.mem_cons_self d ds)))
    | succ k =>
      simp only [List.getElem?_cons_succ] at hc
      have := ih (a64log_add_comment log d.base d.format d.msg) hrest
        (fun x hx => hfit x (List.mem_cons_of_mem d hx)) k c hc
      rw [(add_comment_accepted log d.base d.format d.msg h1n h2n).1] at this
      rw [show log.comment_count + (k + 1) = log.comment_count + 1 + k by omega]
      exact this

/-- Claim C11, amended to comments whose formatted text is at most `strlen(format) + 256`
characters long (and has no nul character inside). After any run of accepted
`a64log_add_comment` calls with no render in between, for every `i` the entry that the
`i`-th call stored has the address of that call, and its `string` points at a slice of the
pool, inside the pool, that holds the formatted text of the call followed by a nul; the
text read through the entry is that text. No later `a64log_add_comment` call, accepted or
not, changes the entry or the text read through it. -/
theorem comment_text_reads_back (log : a64log_context) (calls : List comment_call)
    (hacc : all_accepted log calls)
    (hfit : ∀ c, c ∈ calls → c.msg.length ≤ c.format.length + 256)
    (hnul : ∀ c, c ∈ calls → Char.ofNat 0 ∉ c.msg) :
    (∀ i c, calls[i]? = some c →
      comment_stored (add_comments log calls) (log.comment_count + i) c ∧
      ((add_comments log calls).comment_list (log.comment_count + i)).base = c.base ∧
      comment_string (add_comments log calls)
        ((add_comments log calls).comment_list (log.comment_count + i)) = String.mk c.msg) ∧
    (∀ (l : a64log_context) (idx : Nat) (c : comment_call) (base : Nat)
        (format msg : List Char),
      comment_stored l idx c → Char.ofNat 0 ∉ c.msg →
      (a64log_add_comment l base format msg).comment_list idx = l.comment_list idx ∧
      comment_string (a64log_add_comment l base format msg)
        ((a64log_add_comment l base format msg).comment_list idx) =
        comment_string l (l.comment_list idx)) := by
  constructor
  · intro i c hc
    have hst := comment_stored_of_accepted calls log hacc hfit i c hc
    have hmem : c ∈ calls := List.getElem?_mem hc
    obtain ⟨_, off, hb, _⟩ := hst
    exact ⟨comment_stored_of_accepted calls log hacc hfit i c hc, hb,
      comment_string_of_stored _ _ c (comment_stored_of_accepted calls log hacc hfit i c hc)
        (hnul c hmem)⟩
  · intro l idx c base format msg hst hn
    obtain ⟨hlater, hentry⟩ := comment_stored_later l idx c base format msg hst
    refine ⟨hentry, ?_⟩
    rw [comment_string_of_stored _ idx c hlater hn, comment_string_of_stored l idx c hst hn]

theorem comment_text_reads_back_witness :
    comment_string (add_comments (a64log_create_context "a64.log") [short_call, long_call])
      ((add_comments (a64log_create_context "a64.log") [short_call, long_call]).comment_list
        ((a64log_create_context "a64.log").comment_count + 1)) = String.mk long_call.msg :=
  ((comment_text_reads_back (a64log_create_context "a64.log") [short_call, long_call]
    ⟨⟨by decide, by decide⟩, ⟨by decide, by decide⟩, trivial⟩
    (by decide) (by decide)).1 1 long_call rfl).2.2

/-- Claim C11 as stated fails: both calls of the run are accepted, but the text of the
second, 160000 characters from the format `%s`, is stored from offset 4 of the pool on,
so that text and terminator run past the end of the 160000-byte pool; what can be read
through the entry inside the pool has fewer characters than the formatted text. -/
theorem comment_text_counterexample :
    all_accepted (a64log_create_context "a64.log") [short_call, huge_call] ∧
    ((add_comments (a64log_create_context "a64.log") [short_call, huge_call]).comment_list
      1).string = some 4 ∧
    A64LOG_COMMENT_POOL_SIZE < 4 + (huge_call.msg.length + 1) ∧
    comment_string (add_comments (a64log_create_context "a64.log") [short_call, huge_call])
      ((add_comments (a64log_create_context "a64.log") [short_call, huge_call]).comment_list
        1) ≠ String.mk huge_call.msg := by
  have hlen : huge_call.msg.length = 160000 := List.length_replicate _ _
  have hstr : ((add_comments (a64log_create_context "a64.log")
      [short_call, huge_call]).comment_list 1).string = some 4 := rfl
  refine ⟨⟨⟨by decide, by decide⟩, ⟨by decide, by decide⟩, trivial⟩, hstr, ?_, ?_⟩
  · rw [hlen]
    decide
  · intro heq
    have hl := congrArg String.length heq
    unfold comment_string at hl
    rw [hstr] at hl
    simp only [String.length] at hl
    have hle := pool_string_length_le
      (add_comments (a64log_create_context "a64.log") [short_call, huge_call]).comment_pool
      (A64LOG_COMMENT_POOL_SIZE - 4) 4
    rw [hl, hlen] at hle
    exact absurd hle (by decide)

/-! ## Claim C22: the registry cursors -/

/-- The cursors of one round: neither decreases, and each stays within its count. -/
theorem render_iter_cursors (mem : Nat → Nat) (dis : Nat → String × Nat)
    (log : a64log_context) (st : render_state) :
    st.curdata ≤ (render_iter mem dis log st).curdata ∧
    st.curcomment ≤ (render_iter mem dis log st).curcomment ∧
    (st.curdata ≤ log.data_range_count →
      (render_iter mem dis log st).curdata ≤ log.data_range_count) ∧
    (st.curcomment ≤ log.comment_count →
      (render_iter mem dis log st).curcomment ≤ log.comment_count) := by
  have hd := skip_data_ranges_spec log st.cur st.curdata
  have hc := skip_comments_spec log st.cur st.curcomment
  have hpa : ∀ (s : render_state) (buffer : String) (bytes : Int),
      s.curcomment ≤ (print_and_advance log s buffer bytes).curcomment ∧
      (s.curcomment ≤ log.comment_count →
        (print_and_advance log s buffer bytes).curcomment ≤ log.comment_count) := by
    intro s buffer bytes
    unfold print_and_advance
    split
    · rename_i h
      have hs := stacked_comments_spec log s.cur s.curcomment h.1
      exact ⟨hs.1, fun _ => le_of_lt hs.2.1⟩
    · exact ⟨le_refl _, fun h => h⟩
  rw [render_iter_curdata]
  refine ⟨hd.1, ?_, hd.2.1, ?_⟩
  · unfold render_iter
    simp only
    split
    · exact le_trans hc.1 (hpa ⟨_, _, _, _, _⟩ _ _).1
    · split
      · exact hc.1
      · exact le_trans hc.1 (hpa ⟨_, _, _, _, _⟩ _ _).1
  · intro hle
    unfold render_iter
    simp only
    split
    · exact (hpa ⟨_, _, _, _, _⟩ _ _).2 (hc.2.1 hle)
    · split
      · exact hc.2.1 hle
      · exact (hpa ⟨_, _, _, _, _⟩ _ _).2 (hc.2.1 hle)

/-- Both cursors start at 0, and in every state the loop passes through they are within
their counts and at or above where they were in any earlier state. -/
theorem render_reach_cursors (mem : Nat → Nat) (dis : Nat → String × Nat)
    (log : a64log_context) (stop : Nat) (label : Option String) (start : Nat)
    (st1 st2 : render_state)
    (h1 : render_reach mem dis log stop (render_start label start) st1)
    (h2 : render_reach mem dis log stop st1 st2) :
    (render_start label start).curdata = 0 ∧ (render_start label start).curcomment = 0 ∧
    st1.curdata ≤ st2.curdata ∧ st1.curcomment ≤ st2.curcomment ∧
    st2.curdata ≤ log.data_range_count ∧ st2.curcomment ≤ log.comment_count := by
  have hb : ∀ s t, render_reach mem dis log stop s t →
      s.curdata ≤ log.data_range_count → s.curcomment ≤ log.comment_count →
      s.curdata ≤ t.curdata ∧ s.curcomment ≤ t.curcomment ∧
      t.curdata ≤ log.data_range_count ∧ t.curcomment ≤ log.comment_count := by
    intro s t hr hsd hsc
    induction hr with
    | start => exact ⟨le_refl _, le_refl _, hsd, hsc⟩
    | @step st hr _ ih =>
      have hi := render_iter_cursors mem dis log st
      exact ⟨le_trans ih.1 hi.1, le_trans ih.2.1 hi.2.1, hi.2.2.1 ih.2.2.1,
        hi.2.2.2 ih.2.2.2⟩
  have hs1 := hb _ _ h1 (Nat.zero_le _) (Nat.zero_le _)
  have hs2 := hb _ _ h2 hs1.2.2.1 hs1.2.2.2
  exact ⟨rfl, rfl, hs2.1, hs2.2.1, hs2.2.2.1, hs2.2.2.2⟩

/-- The slot the in-range test reads is at an index below the count exactly when some
registered range from the data cursor on ends at or after `cur`; otherwise it is the slot
at the index `data_range_count`. -/
theorem in_range_test_slot_eq_count (log : a64log_context) (st : render_state)
    (hcd : st.curdata ≤ log.data_range_count)
    (hpast : ∀ j, st.curdata ≤ j → j < log.data_range_count →
      (log.data_range j).end_ < st.cur) :
    in_range_test_slot log st = log.data_range_count := by
  unfold in_range_test_slot
  have hd := skip_data_ranges_spec log st.cur st.curdata
  have hle := hd.2.1 hcd
  by_contra hne
  have hlt : skip_data_ranges log st.cur st.curdata < log.data_range_count := by omega
  have h1 := hd.2.2.2 hlt
  have h2 := hpast _ hd.1 hlt
  omega

/-- Claim C22 at a failing input. In the reference scenario (one range [0x1000,0x1003] and
one comment registered) the skip loops of the round at 0x1004 leave both cursors at 1, the
counts, and the in-range test of that round reads slot 1 of `data_range[]`, an index that
is not below `data_range_count`: the test is made without the `curdata < lastdata` that the
skip loop and the comment test have. On a context with nothing registered the first round reads
slot 0, and what that slot holds decides the round: after the render of the reference
scenario it still holds [0x1000,0x1003] and the round prints a data literal, on a new
context it prints nothing for the filler byte. -/
theorem in_range_test_reads_past_count :
    scenario_log.data_range_count = 1 ∧ scenario_log.comment_count = 1 ∧
    (render_iter scenario_mem scenario_dis scenario_log (render_start none 0x1000)).cur
      = 0x1004 ∧
    (render_iter scenario_mem scenario_dis scenario_log (render_start none 0x1000)).curdata
      = 0 ∧
    in_range_test_slot scenario_log
      (render_iter scenario_mem scenario_dis scenario_log (render_start none 0x1000)) = 1 ∧
    comment_test_slot scenario_log
      (render_iter scenario_mem scenario_dis scenario_log (render_start none 0x1000)) = 1 ∧
    (a64log_create_context "a64.log").data_range_count = 0 ∧
    in_range_test_slot (a64log_create_context "a64.log") (render_start none 0x1000) = 0 ∧
    rendered_scenario_log.data_range_count = 0 ∧
    in_range_test_slot rendered_scenario_log (render_start none 0x1000) = 0 ∧
    rendered_scenario_log.data_range 0 = { base := 0x1000, end_ := 0x1003, size := 4 } ∧
    (render_iter filler_mem scenario_dis rendered_scenario_log (render_start none 0x1000)).out
      = [log_event.plain_line 0x1000 "dd      CCCCCCCC"] ∧
    (render_iter filler_mem scenario_dis (a64log_create_context "a64.log")
      (render_start none 0x1000)).out = [] := by
  decide

/-! ## Claim C24: a comment on a filler byte -/

/-- When no slot of `data_range[]` up to the count holds the address `a` and the byte at
`a` is the filler, the walk prints no line for `a`, whatever is registered there; and the
comment of any line it prints is a registered comment at the address of that line. -/
theorem filler_address_has_no_line (mem : Nat → Nat) (dis : Nat → String × Nat)
    (log : a64log_context) (label : Option String) (start stop a : Nat) (st : render_state)
    (hno : ∀ i, i ≤ log.data_range_count → ¬ in_data_range log i a)
    (hbyte : r8 mem a = 0xcc)
    (hreach : render_reach mem dis log stop (render_start label start) st) :
    ∀ e, e ∈ st.out → event_addr e ≠ some a ∧
      ∀ c, event_comment e = some c → ∃ j b, j < log.comment_count ∧
        (log.comment_list j).base = b ∧ b ≠ a ∧ event_addr e = some b ∧
        c = comment_string log (log.comment_list j) := by
  intro e he
  rcases render_reach_lines mem dis log stop _ st hreach e he with h0 | ⟨st1, hr1, _, hl⟩
  · have he0 : e ∈ (render_start label start).out := h0
    unfold render_start at he0
    cases label with
    | none => simp at he0
    | some l =>
      simp only [List.mem_singleton] at he0
      subst he0
      exact ⟨by simp [event_addr], by simp [event_comment]⟩
  · obtain ⟨hnf, haddr, _, hcom⟩ := hl
    have hne : st1.cur ≠ a := by
      intro heq
      have hcd := (render_reach_cursors mem dis log stop label start _ st1
        render_reach.start hr1).2.2.2.2.1
      have hskip := (skip_data_ranges_spec log st1.cur st1.curdata).2.1 hcd
      apply hnf
      refine ⟨?_, by rw [heq]; exact hbyte⟩
      intro htd
      unfold takes_data at htd
      rw [heq] at htd
      rw [heq] at hskip
      exact hno _ hskip htd
    refine ⟨by rw [haddr]; intro h; exact hne (Option.some.inj h), ?_⟩
    intro c hc
    obtain ⟨j, hj, hb, hcs⟩ := hcom c hc
    exact ⟨j, st1.cur, hj, hb, hne, haddr, hcs⟩

/-- Claim C24 at a failing input. After the render of the reference scenario nothing but
one comment at 0x1000 is registered, so 0x1000 is inside no registered data range, and the
byte there is the filler 0xCC; yet the render of [0x1000,0x1004) prints the line
`dd CCCCCCCC` with the comment: the in-range test reads slot 0 of `data_range[]`, which
still holds the range of the previous pass, and the data branch prints the comments. On a
context whose slot 0 was never written the same calls print no line. -/
theorem filler_comment_meets_stale_range :
    stale_comment_log.data_range_count = 0 ∧ stale_comment_log.comment_count = 1 ∧
    (stale_comment_log.comment_list 0).base = 0x1000 ∧
    comment_string stale_comment_log (stale_comment_log.comment_list 0) = "pad" ∧
    r8 filler_mem 0x1000 = 0xCC ∧
    (render filler_mem scenario_dis 1 stale_comment_log none 0x1000 0x1004).map
        (fun st => (st.out, st.cur)) =
      some ([log_event.comment_line 0x1000 "dd      CCCCCCCC" "pad"], 0x1004) ∧
    fresh_comment_log.data_range_count = 0 ∧ fresh_comment_log.comment_count = 1 ∧
    (fresh_comment_log.comment_list 0).base = 0x1000 ∧
    (render filler_mem scenario_dis 4 fresh_comment_log none 0x1000 0x1004).map
        (fun st => (st.out, st.cur)) = some ([], 0x1004) := by
  decide

/-! ## Claim C23: data before filler -/

/-- Claim C23, amended to registries that hold what `a64log_mark_as_data` asserts (every
registered range has `end >= base` and a size of 1, 2, 4 or 8, each `base` lies above the
previous `end`) and whose slot just past the count has no negative size. At every address
`A = st.cur` at which the loop runs a round: if `A` lies inside a registered range `i` and
the byte at `A` is 0xCC, the round does not take the filler branch, prints as its last line
for `A` the data literal of the size of the range, any lines before it in that round being
stacked comments at `A` with empty text, and advances the cursor by that size; and if the
round takes the filler branch (one byte forward, nothing printed), then `A` lies inside no
registered range. -/
theorem data_precedes_filler (mem : Nat → Nat) (dis : Nat → String × Nat)
    (log : a64log_context) (label : Option String) (start stop : Nat) (st : render_state)
    (hord : data_ranges_ordered log)
    (hslot : 0 ≤ (log.data_range log.data_range_count).size)
    (hreach : render_reach mem dis log stop (render_start label start) st)
    (hlt : st.cur < stop) :
    render_reach mem dis log stop (render_start label start) (render_iter mem dis log st) ∧
    (∀ i, i < log.data_range_count → in_data_range log i st.cur → r8 mem st.cur = 0xcc →
      ¬ takes_filler mem log st ∧
      ((render_iter mem dis log st).cur : Int) = st.cur + (log.data_range i).size ∧
      ∃ stacked last,
        (render_iter mem dis log st).out = st.out ++ stacked ++ [last] ∧
        event_addr last = some st.cur ∧
        event_buffer last = data_text mem st.cur (log.data_range i).size ∧
        ∀ e, e ∈ stacked → event_addr e = some st.cur ∧ event_buffer e = "") ∧
    (takes_filler mem log st →
      (∀ i, i < log.data_range_count → ¬ in_data_range log i st.cur) ∧
      (render_iter mem dis log st).cur = st.cur + 1 ∧
      (render_iter mem dis log st).out = st.out) := by
  have h0 := render_start_data_cursor_ok log label start
  have hinv := render_reach_data_cursor_ok mem dis log stop _ st hord hslot h0 hreach
  refine ⟨render_reach.step hreach hlt, fun i hi hin _ => ?_, fun hf => ?_⟩
  · have hskip := skip_data_ranges_eq_of_in_range log st i hord hinv hi hin
    have htd : takes_data log st := by
      unfold takes_data
      rw [hskip]
      exact hin
    refine ⟨fun hf => hf.1 htd, ?_⟩
    rw [render_iter_in_range mem dis log st i hord hinv hi hin]
    obtain ⟨hcur, _, _⟩ := print_and_advance_fields log
      { st with curdata := i, curcomment := skip_comments log st.cur st.curcomment }
      (data_text mem st.cur (log.data_range i).size) (log.data_range i).size
    obtain ⟨stacked, last, hout, hla, hlb, hst⟩ := print_and_advance_out log
      { st with curdata := i, curcomment := skip_comments log st.cur st.curcomment }
      (data_text mem st.cur (log.data_range i).size) (log.data_range i).size
    refine ⟨?_, stacked, last, hout, hla, hlb, fun e he => ⟨(hst e he).1, (hst e he).2.1⟩⟩
    rw [hcur]
    have hsz := (hord.1 i hi).2
    simp only []
    rcases hsz with h | h | h | h <;> omega
  · refine ⟨fun i hi hin => ?_, ?_, ?_⟩
    · have hskip := skip_data_ranges_eq_of_in_range log st i hord hinv hi hin
      apply hf.1
      unfold takes_data
      rw [hskip]
      exact hin
    · rw [render_iter_eq, if_pos hf]
    · rw [render_iter_eq, if_pos hf]

theorem data_precedes_filler_witness :
    data_ranges_ordered scenario_log ∧ in_data_range scenario_log 0 0x1000 ∧
      r8 filler_mem 0x1000 = 0xcc ∧
      ¬ takes_filler filler_mem scenario_log (render_start none 0x1000) :=
  ⟨by decide, by decide, by decide,
    ((data_precedes_filler filler_mem scenario_dis scenario_log none 0x1000 0x1007
      (render_start none 0x1000) (by decide) (by decide) render_reach.start (by decide)).2.1
      0 (by decide) (by decide) (by decide)).1⟩

/-- Claim C23 as stated fails when the ranges were registered out of order (assertions
off). With [0x2000,0x2003] registered before [0x1000,0x1003] and filler bytes in the
buffer, the walk over [0x1000,0x1004) takes the filler branch at 0x1000, inside the second
registered range, and so on up to 0x1003: no data literal is printed, the cursor advances
by one byte and not by the element size 4. In the reference order the same bytes are
printed as one literal. -/
theorem data_before_filler_counterexample :
    unordered_ranges_log.data_range_count = 2 ∧
    in_data_range unordered_ranges_log 1 0x1000 ∧
    (unordered_ranges_log.data_range 1).size = 4 ∧
    r8 filler_mem 0x1000 = 0xCC ∧
    takes_filler filler_mem unordered_ranges_log (render_start none 0x1000) ∧
    (render_iter filler_mem scenario_dis unordered_ranges_log (render_start none 0x1000)).cur
      = 0x1001 ∧
    (render filler_mem scenario_dis 4 unordered_ranges_log none 0x1000 0x1004).map
        (fun st => (st.out, st.cur)) = some ([], 0x1004) ∧
    (render filler_mem scenario_dis 1 scenario_log none 0x1000 0x1004).map
        (fun st => (st.out, st.cur)) =
      some ([log_event.comment_line 0x1000 "dd      CCCCCCCC" "const"], 0x1004) := by
  decide

/-! ## Claim C25: the walk through one data range -/

theorem data_text_ne_empty (mem : Nat → Nat) (cur : Nat) (size : Int) :
    data_text mem cur size ≠ "" := by
  intro h
  have hl := congrArg String.length h
  have hz : "".length = 0 := rfl
  unfold data_text at hl
  split at hl
  · simp only [String.length_append] at hl
    have : "dw      ".length = 8 := by decide
    omega
  · split at hl
    · simp only [String.length_append] at hl
      have : "dd      ".length = 8 := by decide
      omega
    · split at hl
      · simp only [String.length_append] at hl
        have : "dq      ".length = 8 := by decide
        omega
      · simp only [String.length_append] at hl
        have : "db      ".length = 8 := by decide
        omega

/-- The rounds of the loop from the base of a registered range: after `k` rounds, `k` not
above the number of elements, the cursor is `k` elements on, the disassembler has not been
invoked, and the lines printed are for the element starts passed, one data literal each. -/
theorem data_range_rounds (mem : Nat → Nat) (dis : Nat → String × Nat)
    (log : a64log_context) (stop : Nat) (s0 st : render_state) (i s n : Nat)
    (hord : data_ranges_ordered log)
    (hslot : 0 ≤ (log.data_range log.data_range_count).size)
    (h0 : data_cursor_ok log s0)
    (hreach : render_reach mem dis log stop s0 st)
    (hi : i < log.data_range_count)
    (hs : (log.data_range i).size = (s : Int))
    (hn : (log.data_range i).end_ + 1 = (log.data_range i).base + n * s)
    (henter : st.cur = (log.data_range i).base)
    (hstop : (log.data_range i).end_ < stop) :
    ∀ k, k ≤ n →
      render_reach mem dis log stop s0 (Nat.iterate (render_iter mem dis log) k st) ∧
      (Nat.iterate (render_iter mem dis log) k st).cur = (log.data_range i).base + k * s ∧
      (Nat.iterate (render_iter mem dis log) k st).dis_calls = st.dis_calls ∧
      ∃ lines, (Nat.iterate (render_iter mem dis log) k st).out = st.out ++ lines ∧
        (∀ e, e ∈ lines → ∃ j, j < k ∧ event_addr e = some ((log.data_range i).base + j * s)) ∧
        (text_lines lines).map (fun e => (event_addr e, event_buffer e)) =
          (List.range k).map (fun j => (some ((log.data_range i).base + j * s),
            data_text mem ((log.data_range i).base + j * s) (s : Int))) := by
  have hspos : 1 ≤ s := by
    have := (hord.1 i hi).2
    rw [hs] at this
    omega
  intro k
  induction k with
  | zero =>
    intro _
    refine ⟨hreach, by simpa using henter, rfl, [], by simp, by simp, by simp [text_lines]⟩
  | succ k ih =>
    intro hk
    obtain ⟨hr, hcur, hdc, lines, hout, haddr, htext⟩ := ih (by omega)
    have hmul : (k + 1) * s ≤ n * s := Nat.mul_le_mul_right s hk
    have hks : (k + 1) * s = k * s + s := by ring
    have hin : in_data_range log i (Nat.iterate (render_iter mem dis log) k st).cur := by
      unfold in_data_range
      rw [hcur]
      constructor
      · omega
      · omega
    have hlt : (Nat.iterate (render_iter mem dis log) k st).cur < stop := by
      have := hin.2
      omega
    have hinv := render_reach_data_cursor_ok mem dis log stop s0 _ hord hslot h0 hr
    have hstep := render_iter_in_range mem dis log _ i hord hinv hi hin
    rw [Function.iterate_succ_apply']
    obtain ⟨hc1, _, hd1⟩ := print_and_advance_fields log
      { Nat.iterate (render_iter mem dis log) k st with
        curdata := i
        curcomment := skip_comments log (Nat.iterate (render_iter mem dis log) k st).cur
          (Nat.iterate (render_iter mem dis log) k st).curcomment }
      (data_text mem (Nat.iterate (render_iter mem dis log) k st).cur (log.data_range i).size)
      (log.data_range i).size
    obtain ⟨stacked, last, ho1, hla, hlb, hst⟩ := print_and_advance_out log
      { Nat.iterate (render_iter mem dis log) k st with
        curdata := i
        curcomment := skip_comments log (Nat.iterate (render_iter mem dis log) k st).cur
          (Nat.iterate (render_iter mem dis log) k st).curcomment }
      (data_text mem (Nat.iterate (render_iter mem dis log) k st).cur (log.data_range i).size)
      (log.data_range i).size
    refine ⟨render_reach.step hr hlt, ?_, ?_, lines ++ stacked ++ [last], ?_, ?_, ?_⟩
    · rw [hstep, hc1]
      simp only []
      rw [hcur, hs]
      omega
    · rw [hstep, hd1]
      exact hdc
    · rw [hstep, ho1]
      simp only []
      rw [hout]
      simp [List.append_assoc]
    · intro e he
      simp only [List.mem_append, List.mem_singleton] at he
      rcases he with (he | he) | he
      · obtain ⟨j, hj, hej⟩ := haddr e he
        exact ⟨j, by omega, hej⟩
      · refine ⟨k, by omega, ?_⟩
        have := (hst e he).1
        simp only [] at this
        rw [this, hcur]
      · subst he
        refine ⟨k, by omega, ?_⟩
        simp only [] at hla
        rw [hla, hcur]
    · have hfs : text_lines stacked = [] := by
        unfold text_lines
        rw [List.filter_eq_nil_iff]
        intro e he
        have := (hst e he).2.1
        simp [this]
      have hfl : text_lines [last] = [last] := by
        unfold text_lines
        have hne : event_buffer last ≠ "" := by
          rw [hlb]
          exact data_text_ne_empty _ _ _
        simp [hne]
      have happ : text_lines (lines ++ stacked ++ [last]) = text_lines lines ++ [last] := by
        have e1 : text_lines (lines ++ stacked ++ [last]) =
            text_lines lines ++ text_lines stacked ++ text_lines [last] := by
          unfold text_lines
          rw [List.filter_append, List.filter_append]
        rw [e1, hfs, hfl, List.append_nil]
      rw [happ, List.map_append, htext, List.range_succ, List.map_append]
      simp only [List.map_cons, List.map_nil] at hla hlb ⊢
      rw [hla, hlb, hcur, hs]

/-- Claim C25, amended to registries that hold what `a64log_mark_as_data` asserts (every
registered range has `end >= base` and a size of 1, 2, 4 or 8, each `base` lies above the
previous `end`) and whose slot just past the count has no negative size. For a registered
range `i` from `base` to `end` of element size `s` whose byte length `end - base + 1` is
`n * s`, with `stop > end`: when the cursor of the loop stands at `base`, the next `n`
rounds are rounds of the loop, each takes the data branch at the element start
`base + k * s`, whose `s` bytes lie in `[base, end]`; the lines they print are all for
these element starts, exactly `n` of them carry a text, in order the data literals of the
`n` elements (the others are stacked comments with empty text); the disassembler is not
invoked; and after them the cursor is exactly `end + 1`. -/
theorem data_range_walked_in_elements (mem : Nat → Nat) (dis : Nat → String × Nat)
    (log : a64log_context) (label : Option String) (start stop : Nat) (st : render_state)
    (i s n : Nat)
    (hord : data_ranges_ordered log)
    (hslot : 0 ≤ (log.data_range log.data_range_count).size)
    (hreach : render_reach mem dis log stop (render_start label start) st)
    (hi : i < log.data_range_count)
    (hs : (log.data_range i).size = (s : Int))
    (hn : (log.data_range i).end_ + 1 = (log.data_range i).base + n * s)
    (henter : st.cur = (log.data_range i).base)
    (hstop : (log.data_range i).end_ < stop) :
    n = ((log.data_range i).end_ + 1 - (log.data_range i).base) / s ∧
    render_reach mem dis log stop (render_start label start)
      (Nat.iterate (render_iter mem dis log) n st) ∧
    (Nat.iterate (render_iter mem dis log) n st).cur = (log.data_range i).end_ + 1 ∧
    (Nat.iterate (render_iter mem dis log) n st).dis_calls = st.dis_calls ∧
    (∀ k, k < n →
      (Nat.iterate (render_iter mem dis log) k st).cur = (log.data_range i).base + k * s ∧
      (Nat.iterate (render_iter mem dis log) k st).cur < stop ∧
      takes_data log (Nat.iterate (render_iter mem dis log) k st) ∧
      (log.data_range i).base ≤ (log.data_range i).base + k * s ∧
      (log.data_range i).base + k * s + s - 1 ≤ (log.data_range i).end_) ∧
    ∃ lines, (Nat.iterate (render_iter mem dis log) n st).out = st.out ++ lines ∧
      (∀ e, e ∈ lines → ∃ k, k < n ∧ event_addr e = some ((log.data_range i).base + k * s)) ∧
      (text_lines lines).length = n ∧
      (text_lines lines).map (fun e => (event_addr e, event_buffer e)) =
        (List.range n).map (fun k => (some ((log.data_range i).base + k * s),
          data_text mem ((log.data_range i).base + k * s) (s : Int))) := by
  have h0 := render_start_data_cursor_ok log label start
  have hall := data_range_rounds mem dis log stop _ st i s n hord hslot h0 hreach hi hs hn
    henter hstop
  have hspos : 1 ≤ s := by
    have := (hord.1 i hi).2
    rw [hs] at this
    omega
  obtain ⟨hr, hcur, hdc, lines, hout, haddr, htext⟩ := hall n (le_refl _)
  refine ⟨?_, hr, ?_, hdc, ?_, lines, hout, haddr, ?_, htext⟩
  · have : (log.data_range i).end_ + 1 - (log.data_range i).base = n * s := by omega
    rw [this, Nat.mul_div_cancel _ (by omega)]
  · rw [hcur]
    omega
  · intro k hk
    obtain ⟨hrk, hck, _, _⟩ := hall k (le_of_lt hk)
    have hmul : (k + 1) * s ≤ n * s := Nat.mul_le_mul_right s hk
    have hks : (k + 1) * s = k * s + s := by ring
    have hin : in_data_range log i (Nat.iterate (render_iter mem dis log) k st).cur := by
      unfold in_data_range
      rw [hck]
      constructor
      · omega
      · omega
    have hinv := render_reach_data_cursor_ok mem dis log stop _ _ hord hslot h0 hrk
    have hskip := skip_data_ranges_eq_of_in_range log _ i hord hinv hi hin
    refine ⟨hck, ?_, ?_, by omega, by omega⟩
    · have := hin.2
      omega
    · unfold takes_data
      rw [hskip]
      exact hin
  · have := congrArg List.length htext
    simpa using this

theorem data_range_walked_in_elements_witness :
    data_ranges_ordered scenario_log ∧
      (Nat.iterate (render_iter scenario_mem scenario_dis scenario_log) 1
        (render_start none 0x1000)).cur = (scenario_log.data_range 0).end_ + 1 :=
  ⟨by decide,
    (data_range_walked_in_elements scenario_mem scenario_dis scenario_log none 0x1000 0x1007
      (render_start none 0x1000) 0 4 1 (by decide) (by decide) render_reach.start
      (by decide) (by decide) (by decide) (by decide) (by decide)).2.2.1⟩

/-- Claim C25 as stated fails when the ranges were registered out of order (assertions
off). With [0x2000,0x2003] registered before [0x1000,0x1003], both of size 4, the walk over
[0x1000,0x1004) enters the second registered range exactly at its base 0x1000 with
`stop > end`; the claim gives one data line and the cursor at 0x1004 after it. The first
round leaves the cursor at 0x1001, inside the range, and the walk prints four lines of the
disassembler and no data literal. -/
theorem data_range_walk_counterexample :
    unordered_ranges_log.data_range_count = 2 ∧
    unordered_ranges_log.data_range 1 = { base := 0x1000, end_ := 0x1003, size := 4 } ∧
    (render_start none 0x1000).cur = (unordered_ranges_log.data_range 1).base ∧
    ¬ takes_data unordered_ranges_log (render_start none 0x1000) ∧
    (render_iter scenario_mem scenario_dis unordered_ranges_log (render_start none 0x1000)).cur
      = 0x1001 ∧
    (render scenario_mem scenario_dis 4 unordered_ranges_log none 0x1000 0x1004).map
        (fun st => (st.out, st.cur)) =
      some ([log_event.plain_line 0x1000 "???", log_event.plain_line 0x1001 "???",
             log_event.plain_line 0x1002 "???", log_event.plain_line 0x1003 "???"], 0x1004) := by
  decide

/-! ## Claim C26: the order of the printed comments and addresses -/

theorem render_iter_comments (mem : Nat → Nat) (dis : Nat → String × Nat)
    (log : a64log_context) (st : render_state) :
    (out_comments (render_iter mem dis log st).out = out_comments st.out ∧
      (render_iter mem dis log st).curcomment = skip_comments log st.cur st.curcomment) ∨
    ((skip_comments log st.cur st.curcomment < log.comment_count ∧
      st.cur = (log.comment_list (skip_comments log st.cur st.curcomment)).base) ∧
      out_comments (render_iter mem dis log st).out = out_comments st.out ++
        (List.range' (skip_comments log st.cur st.curcomment)
          ((stacked_comments log st.cur (skip_comments log st.cur st.curcomment)).1 -
            skip_comments log st.cur st.curcomment + 1)).map (comment_text log) ∧
      (render_iter mem dis log st).curcomment =
        (stacked_comments log st.cur (skip_comments log st.cur st.curcomment)).1) := by
  rw [render_iter_eq]
  by_cases hf : takes_filler mem log st
  · left
    rw [if_pos hf]
    exact ⟨rfl, rfl⟩
  · rw [if_neg hf]
    by_cases hm : skip_comments log st.cur st.curcomment < log.comment_count ∧
        st.cur = (log.comment_list (skip_comments log st.cur st.curcomment)).base
    · right
      refine ⟨hm, ?_, ?_⟩
      · rw [print_and_advance_matching log _ _ _ hm]
        have hle := (stacked_comments_spec log st.cur
          (skip_comments log st.cur st.curcomment) hm.1).1
        simp only []
        rw [List.range'_1_concat]
        have hsum : skip_comments log st.cur st.curcomment +
            ((stacked_comments log st.cur (skip_comments log st.cur st.curcomment)).1 -
              skip_comments log st.cur st.curcomment) =
            (stacked_comments log st.cur (skip_comments log st.cur st.curcomment)).1 := by
          omega
        rw [hsum]
        unfold out_comments
        rw [List.filterMap_append, List.filterMap_append, List.map_append,
          List.filterMap_map, List.append_assoc]
        congr 1
        have hfm : (event_comment ∘ fun j => log_event.comment_line st.cur ""
            (comment_string log (log.comment_list j))) =
            (some ∘ comment_text log) := rfl
        rw [hfm, List.filterMap_eq_map]
        rfl
      · unfold print_and_advance
        rw [if_pos hm]
    · left
      constructor
      · unfold print_and_advance
        rw [if_neg hm]
        unfold out_comments
        simp only []
        rw [List.filterMap_append]
        simp [event_comment]
      · unfold print_and_advance
        rw [if_neg hm]

theorem render_iter_printed_comments (mem : Nat → Nat) (dis : Nat → String × Nat)
    (log : a64log_context) (st : render_state) (idxs : List Nat)
    (hgt : st.cur < (render_iter mem dis log st).cur)
    (hok : printed_comments_ok log st idxs) :
    ∃ idxs1, printed_comments_ok log (render_iter mem dis log st) idxs1 := by
  obtain ⟨hout, hpw, hall⟩ := hok
  have hsk := skip_comments_spec log st.cur st.curcomment
  have hbelow : ∀ j, j ∈ idxs → j < skip_comments log st.cur st.curcomment := by
    intro j hj
    obtain ⟨hjc, hjle, hjb⟩ := hall j hj
    by_contra hge
    have heq : skip_comments log st.cur st.curcomment = j := by
      have := hsk.1
      omega
    have := hsk.2.2.2 (by rw [heq]; exact hjc)
    rw [heq] at this
    omega
  rcases render_iter_comments mem dis log st with ⟨ho, hc⟩ | ⟨hm, ho, hc⟩
  · refine ⟨idxs, ?_, hpw, ?_⟩
    · rw [ho, hout]
    · intro j hj
      obtain ⟨hjc, _, hjb⟩ := hall j hj
      refine ⟨hjc, ?_, by omega⟩
      rw [hc]
      exact le_of_lt (hbelow j hj)
  · have hst := stacked_comments_spec log st.cur
      (skip_comments log st.cur st.curcomment) hm.1
    refine ⟨idxs ++ List.range' (skip_comments log st.cur st.curcomment)
      ((stacked_comments log st.cur (skip_comments log st.cur st.curcomment)).1 -
        skip_comments log st.cur st.curcomment + 1), ?_, ?_, ?_⟩
    · rw [ho, hout, List.map_append]
    · rw [List.pairwise_append]
      refine ⟨hpw, List.pairwise_lt_range' _ _, ?_⟩
      intro a ha b hb
      have := hbelow a ha
      rw [List.mem_range'_1] at hb
      omega
    · intro j hj
      rw [List.mem_append] at hj
      rcases hj with hj | hj
      · obtain ⟨hjc, _, hjb⟩ := hall j hj
        refine ⟨hjc, ?_, by omega⟩
        rw [hc]
        have := hbelow j hj
        have := hst.1
        omega
      · rw [List.mem_range'_1] at hj
        have h1 := hst.1
        have h2 := hst.2.1
        refine ⟨by omega, by rw [hc]; omega, ?_⟩
        by_cases hjeq : j = skip_comments log st.cur st.curcomment
        · rw [hjeq, ← hm.2]
          exact hgt
        · have := hst.2.2.2.1 j (by omega) (by omega)
          rw [this]
          exact hgt

theorem render_reach_printed_comments (mem : Nat → Nat) (dis : Nat → String × Nat)
    (log : a64log_context) (label : Option String) (start stop : Nat) (st : render_state)
    (hadv : elements_advance dis log start)
    (hreach : render_reach mem dis log stop (render_start label start) st) :
    ∃ idxs, printed_comments_ok log st idxs := by
  induction hreach with
  | start =>
    refine ⟨[], ?_, List.Pairwise.nil, by simp⟩
    unfold render_start out_comments
    cases label <;> simp [event_comment]
  | @step st1 hr _ ih =>
    obtain ⟨idxs, hok⟩ := ih
    have hw := render_reach_walk_ok mem dis log start stop _ st1 hadv
      (render_start_walk_ok log label start) hr
    exact render_iter_printed_comments mem dis log st1 idxs
      (render_iter_cur_gt mem dis log start st1 hadv hw) hok

theorem sublist_range_of_increasing (idxs : List Nat) (n : Nat)
    (hpw : idxs.Pairwise (fun a b => a < b)) (hlt : ∀ j, j ∈ idxs → j < n) :
    List.Sublist idxs (List.range n) := by
  have hnd : idxs.Nodup := hpw.imp (fun h => Nat.ne_of_lt h)
  have hsub : idxs ⊆ List.range n := fun j hj => List.mem_range.mpr (hlt j hj)
  have hs1 : List.Sorted (fun a b : Nat => a ≤ b) idxs := hpw.imp (fun h => Nat.le_of_lt h)
  exact List.sublist_of_subperm_of_sorted (List.subperm_of_subset hnd hsub) hs1
    (List.sorted_le_range n)

theorem render_reach_addrs (mem : Nat → Nat) (dis : Nat → String × Nat)
    (log : a64log_context) (label : Option String) (start stop : Nat) (st : render_state)
    (hadv : elements_advance dis log start)
    (hreach : render_reach mem dis log stop (render_start label start) st) :
    (out_addrs st.out).Pairwise (fun a b => a ≤ b) ∧
    ∀ a, a ∈ out_addrs st.out → start ≤ a ∧ a < stop := by
  induction hreach with
  | start =>
    have : out_addrs (render_start label start).out = [] := by
      unfold render_start out_addrs
      cases label <;> simp [event_addr]
    rw [this]
    exact ⟨List.Pairwise.nil, by simp⟩
  | @step st1 hr hlt ih =>
    have hw := render_reach_walk_ok mem dis log start stop _ st1 hadv
      (render_start_walk_ok log label start) hr
    obtain ⟨lines, hout, hlines⟩ := render_iter_out mem dis log st1
    have hnew : ∀ a, a ∈ out_addrs lines → a = st1.cur := by
      intro a ha
      unfold out_addrs at ha
      rw [List.mem_filterMap] at ha
      obtain ⟨e, he, hea⟩ := ha
      rw [hlines e he] at hea
      exact (Option.some.inj hea).symm
    have hold : ∀ a, a ∈ out_addrs st1.out → a < st1.cur := by
      intro a ha
      unfold out_addrs at ha
      rw [List.mem_filterMap] at ha
      obtain ⟨e, he, hea⟩ := ha
      exact hw.2.2.2 e he a hea
    have happ : out_addrs (render_iter mem dis log st1).out =
        out_addrs st1.out ++ out_addrs lines := by
      rw [hout]
      unfold out_addrs
      rw [List.filterMap_append]
    rw [happ]
    constructor
    · rw [List.pairwise_append]
      refine ⟨ih.1, ?_, ?_⟩
      · rw [List.pairwise_iff_forall_sublist]
        intro a b hab
        have ha := hnew a (hab.subset (by simp))
        have hb := hnew b (hab.subset (by simp))
        omega
      · intro a ha b hb
        have := hold a ha
        have := hnew b hb
        omega
    · intro a ha
      rw [List.mem_append] at ha
      rcases ha with ha | ha
      · exact ih.2 a ha
      · rw [hnew a ha]
        exact ⟨hw.1, hlt⟩

/-- Claim C26, amended by what the claim leaves out: every slot of `data_range[]` up to the
count that ends at or after `start` holds a positive size, so that with a disassembler that
always consumes at least one byte every element advances the cursor. Then the render
returns when given `stop - start` rounds, and in every state of the loop, so in the
finished render: the comments on the lines printed so far, in output order, are the texts
of registered comments with strictly increasing indices, hence a subsequence of the
registered comments in registration order in which each is used at most once; and the
addresses of the lines printed so far never decrease and lie in `[start, stop)`. The order
of the comment addresses is not needed for this. -/
theorem printed_comments_in_order (mem : Nat → Nat) (dis : Nat → String × Nat)
    (log : a64log_context) (label : Option String) (start stop : Nat) (st : render_state)
    (hadv : elements_advance dis log start)
    (hreach : render_reach mem dis log stop (render_start label start) st) :
    (∃ idxs : List Nat, idxs.Pairwise (fun a b => a < b) ∧
      (∀ j, j ∈ idxs → j < log.comment_count) ∧
      out_comments st.out = idxs.map (comment_text log)) ∧
    List.Sublist (out_comments st.out) (registered_comments log) ∧
    (out_addrs st.out).Pairwise (fun a b => a ≤ b) ∧
    (∀ a, a ∈ out_addrs st.out → start ≤ a ∧ a < stop) ∧
    (∀ fuel, stop - start ≤ fuel →
      ∃ st1, render mem dis fuel log label start stop = some st1 ∧
        render_reach mem dis log stop (render_start label start) st1) := by
  obtain ⟨idxs, hout, hpw, hall⟩ :=
    render_reach_printed_comments mem dis log label start stop st hadv hreach
  have haddr := render_reach_addrs mem dis log label start stop st hadv hreach
  refine ⟨⟨idxs, hpw, fun j hj => (hall j hj).1, hout⟩, ?_, haddr.1, haddr.2, ?_⟩
  · rw [hout]
    unfold registered_comments
    exact (sublist_range_of_increasing idxs log.comment_count hpw
      (fun j hj => (hall j hj).1)).map _
  · intro fuel hfuel
    obtain ⟨st1, h1⟩ := render_loop_terminates mem dis log start stop hadv fuel
      (render_start label start) (render_start_walk_ok log label start) hfuel
    exact ⟨st1, h1, (render_loop_reach mem dis log stop (render_start label start) fuel _ st1
      render_reach.start h1).1⟩

theorem printed_comments_in_order_witness :
    (∀ a, 1 ≤ (scenario_dis a).2) ∧
    List.Sublist
      (out_comments
        (render_iter scenario_mem scenario_dis scenario_log (render_start none 0x1000)).out)
      (registered_comments scenario_log) :=
  ⟨fun a => by unfold scenario_dis; split <;> simp,
    (printed_comments_in_order scenario_mem scenario_dis scenario_log none 0x1000 0x1007
      (render_iter scenario_mem scenario_dis scenario_log (render_start none 0x1000))
      ⟨fun a => by unfold scenario_dis; split <;> simp, fun i hi hs => by
        have h : i = 0 ∨ i = 1 := by
          have : scenario_log.data_range_count = 1 := rfl
          omega
        rcases h with rfl | rfl
        · decide
        · exact absurd hs (by decide)⟩
      (render_reach.step render_reach.start (by decide))).2.1⟩

/-- Claim C26 as stated fails when a data range holds a size that is not positive
(assertions off), with the comment addresses in order and a disassembler that always
consumes at least one byte. With the range [0x1002,0x1002] of size -2, a comment at 0x1002
and a disassembler of four-byte instructions, the render of [0x1002,0x1004) returns after
two lines, for 0x1002 and then for 0x1000: the addresses decrease, and 0x1000 lies below
`start`. With a disassembler of one-byte instructions the cursor comes back to 0x1002 in
the fourth round and the one registered comment is printed a second time. -/
theorem printed_addresses_counterexample :
    comments_ordered backward_log ∧ (∀ a, 1 ≤ (wide_dis a).2) ∧
    (∀ a, 1 ≤ (scenario_dis a).2) ∧
    backward_log.data_range_count = 1 ∧
    backward_log.data_range 0 = { base := 0x1002, end_ := 0x1002, size := -2 } ∧
    registered_comments backward_log = ["inner"] ∧
    (render scenario_mem wide_dis 2 backward_log none 0x1002 0x1004).map
        (fun st => (st.out, st.cur)) =
      some ([log_event.comment_line 0x1002 "db      34" "inner",
             log_event.plain_line 0x1000 "MOV"], 0x1004) ∧
    (render scenario_mem wide_dis 2 backward_log none 0x1002 0x1004).map
        (fun st => out_addrs st.out) = some [0x1002, 0x1000] ∧
    out_comments (Nat.iterate (render_iter scenario_mem scenario_dis backward_log) 4
      (render_start none 0x1002)).out = ["inner", "inner"] ∧
    (Nat.iterate (render_iter scenario_mem scenario_dis backward_log) 3
      (render_start none 0x1002)).cur = 0x1002 := by
  refine ⟨by decide, fun _ => by simp [wide_dis], fun a => by unfold scenario_dis; split <;> simp,
    by decide, by decide, by decide, by decide, by decide, by decide, by decide⟩

end A64Log

namespace Eigccarm

/-! ## Claim C20: _mulu_32x32_shift -/

theorem mulu_32x32_shift_ignores_shift (a b shift : Nat) :
    _mulu_32x32_shift a b shift = ((a % 2 ^ 32) * (b % 2 ^ 32)) % 2 ^ 32 := rfl

theorem mulu_32x32_hi_shifts (a b : Nat) :
    _mulu_32x32_hi a b = mulu_32x32_shift_described a b 32 := by
  unfold _mulu_32x32_hi mulu_32x32_shift_described lsr umull
  have h1 : a % 2 ^ 32 < 2 ^ 32 := Nat.mod_lt _ (by norm_num)
  have h2 : b % 2 ^ 32 < 2 ^ 32 := Nat.mod_lt _ (by norm_num)
  have h3 : a % 2 ^ 32 * (b % 2 ^ 32) < 2 ^ 64 := by
    calc a % 2 ^ 32 * (b % 2 ^ 32) < 2 ^ 32 * 2 ^ 32 := Nat.mul_lt_mul'' h1 h2
      _ = 2 ^ 64 := by norm_num
  rw [Nat.mod_eq_of_lt h3]

/-- Claim C20 at a failing input. For a = 2, b = 2, shift = 1 the product shifted right by
one bit is 2, but `_mulu_32x32_shift` returns 4, the low 32 bits of the unshifted product:
its assembly has the `umull` but not the `lsr` that the comment above it describes and that
`_mulu_32x32_hi` and `_mul_32x32_shift` have. For shift = 0 the two agree. -/
theorem mulu_32x32_shift_misses_shift :
    _mulu_32x32_shift 2 2 1 = 4 ∧ mulu_32x32_shift_described 2 2 1 = 2 ∧
    _mulu_32x32_shift 0x80000000 2 32 = 0 ∧
    mulu_32x32_shift_described 0x80000000 2 32 = 1 ∧
    _mulu_32x32_hi 0x80000000 2 = 1 ∧
    _mulu_32x32_shift 2 2 0 = mulu_32x32_shift_described 2 2 0 := by
  decide

/-! ## Claim C21: _mul_32x32_shift -/

theorem to_int32_to_w (a : Int) (h1 : -2 ^ 31 ≤ a) (h2 : a < 2 ^ 31) :
    to_int32 (to_w a) = a := by
  unfold to_int32 to_w
  have hm : ((a % 2 ^ 32).toNat : Int) = a % 2 ^ 32 :=
    Int.toNat_of_nonneg (Int.emod_nonneg _ (by norm_num))
  have hlt : (a % 2 ^ 32).toNat < 2 ^ 32 := by
    have := Int.emod_lt_of_pos a (show (0 : Int) < 2 ^ 32 by norm_num)
    omega
  rw [Nat.mod_eq_of_lt hlt]
  split
  · rename_i h
    omega
  · rename_i h
    omega

theorem to_int32_congr (x : Nat) (y : Int) (h : (x : Int) % 2 ^ 32 = y % 2 ^ 32) :
    to_int32 x = to_int32 ((y % 2 ^ 32).toNat) := by
  have hy : ((y % 2 ^ 32).toNat : Int) = y % 2 ^ 32 :=
    Int.toNat_of_nonneg (Int.emod_nonneg _ (by norm_num))
  have hx : x % 2 ^ 32 = (y % 2 ^ 32).toNat % 2 ^ 32 := by
    have : ((x % 2 ^ 32 : Nat) : Int) = (((y % 2 ^ 32).toNat % 2 ^ 32 : Nat) : Int) := by
      have hc : (((2 : Nat) ^ 32 : Nat) : Int) = 2 ^ 32 := by norm_num
      rw [Int.natCast_mod, Int.natCast_mod, hy, hc, h, Int.emod_emod_of_dvd _ (dvd_refl _)]
    exact_mod_cast this
  unfold to_int32
  rw [hx]

/-- For a shift of at most 32 bits the zero bits that `lsr` brings in stay above the low
32 bits, and `_mul_32x32_shift` returns what its comment describes. -/
theorem mul_32x32_shift_small (a b : Int) (shift : Nat) (ha1 : -2 ^ 31 ≤ a)
    (ha2 : a < 2 ^ 31) (hb1 : -2 ^ 31 ≤ b) (hb2 : b < 2 ^ 31) (hs : shift ≤ 32) :
    _mul_32x32_shift a b shift = mul_32x32_shift_described a b shift := by
  unfold _mul_32x32_shift mul_32x32_shift_described smull
  rw [to_int32_to_w a ha1 ha2, to_int32_to_w b hb1 hb2]
  apply to_int32_congr
  unfold lsr
  have hs64 : shift % 64 = shift := Nat.mod_eq_of_lt (by omega)
  rw [hs64]
  have hp : ((((a * b) % 2 ^ 64).toNat : Nat) : Int) = (a * b) % 2 ^ 64 :=
    Int.toNat_of_nonneg (Int.emod_nonneg _ (by norm_num))
  have hlt : ((a * b) % 2 ^ 64).toNat < 2 ^ 64 := by
    have := Int.emod_lt_of_pos (a * b) (show (0 : Int) < 2 ^ 64 by norm_num)
    omega
  rw [Nat.mod_eq_of_lt hlt]
  rw [Int.natCast_div, hp, Int.shiftRight_eq_div_pow]
  have hc : (((2 : Nat) ^ shift : Nat) : Int) = 2 ^ shift := by norm_num
  rw [hc]
  -- (p % 2^64) / 2^s ≡ p / 2^s  (mod 2^32)
  have hpow : (2 : Int) ^ 64 = 2 ^ shift * (2 ^ (32 - shift) * 2 ^ 32) := by
    rw [← mul_assoc, ← pow_add, ← pow_add]
    congr 1
    omega
  have hdecomp : a * b = (a * b) % 2 ^ 64 + 2 ^ 64 * ((a * b) / 2 ^ 64) :=
    (Int.emod_add_ediv (a * b) (2 ^ 64)).symm
  have h2s : (0 : Int) < 2 ^ shift := by positivity
  have hdiv : (a * b) / 2 ^ shift =
      ((a * b) % 2 ^ 64) / 2 ^ shift + (2 ^ (32 - shift) * 2 ^ 32) * ((a * b) / 2 ^ 64) := by
    have hq : a * b = (a * b) % 2 ^ 64 +
        2 ^ shift * ((2 ^ (32 - shift) * 2 ^ 32) * ((a * b) / 2 ^ 64)) := by
      rw [← mul_assoc, ← hpow]
      exact hdecomp
    conv_lhs => rw [hq, Int.add_mul_ediv_left _ _ (ne_of_gt h2s)]
  rw [hdiv]
  have : (2 : Int) ^ (32 - shift) * 2 ^ 32 * (a * b / 2 ^ 64) =
      2 ^ 32 * (2 ^ (32 - shift) * (a * b / 2 ^ 64)) := by ring
  rw [this, Int.add_mul_emod_self_left]

/-- Claim C21 at a failing input. For a = -1, b = 1, shift = 33 the signed product -1
shifted right with sign propagation stays -1, but `_mul_32x32_shift` returns 2147483647:
its `lsr` is a logical shift, which brings 33 zero bits in at the top of the 64-bit
product, and for a shift above 32 some of them reach the low 32 bits. The comment in the
function says it is valid for shifts from 0 to 63. For shift = 32 (and below) the two
agree on these inputs. -/
theorem mul_32x32_shift_logical_shift :
    _mul_32x32_shift (-1) 1 33 = 2147483647 ∧ mul_32x32_shift_described (-1) 1 33 = -1 ∧
    _mul_32x32_shift (-1) 1 63 = 1 ∧ mul_32x32_shift_described (-1) 1 63 = -1 ∧
    _mul_32x32_shift (-1) 1 32 = -1 ∧ mul_32x32_shift_described (-1) 1 32 = -1 ∧
    _mul_32x32_shift (-6) 7 2 = -11 ∧ mul_32x32_shift_described (-6) 7 2 = -11 ∧
    _mul_32x32_shift 0x40000000 8 33 = 1 ∧ mul_32x32_shift_described 0x40000000 8 33 = 1 := by
  decide

end Eigccarm

namespace Hfox

/-! ## Claim C27: the cached bank pointers of the Harry Fox cartridge -/

theorem restore_banks_agree (rom_base : Nat) (d : msx_cart_hfox_device) :
    banks_agree rom_base (restore_banks rom_base d) := by
  unfold banks_agree restore_banks elem
  simp

theorem restore_banks_selected (rom_base : Nat) (d : msx_cart_hfox_device) :
    (restore_banks rom_base d).m_selected_bank = d.m_selected_bank := rfl

theorem device_post_load_agrees (rom_base : Nat) (d : msx_cart_hfox_device) :
    banks_agree rom_base (device_post_load rom_base d) :=
  restore_banks_agree rom_base d

theorem initialize_cartridge_agrees (rom_base rom_size : Nat) (d : msx_cart_hfox_device)
    (hsize : 0x10000 ≤ rom_size) :
    ∃ d1, initialize_cartridge rom_base rom_size d = some d1 ∧ banks_agree rom_base d1 := by
  refine ⟨restore_banks rom_base d, ?_, restore_banks_agree rom_base d⟩
  unfold initialize_cartridge
  rw [if_neg (by omega)]

theorem write_cart_agrees (rom_base : Nat) (d : msx_cart_hfox_device) (offset data : Nat)
    (h : banks_agree rom_base d) : banks_agree rom_base (write_cart rom_base d offset data) := by
  unfold write_cart
  split
  · exact restore_banks_agree _ _
  · split
    · exact restore_banks_agree _ _
    · exact h

theorem device_reset_bank_base (d : msx_cart_hfox_device) :
    (device_reset d).m_bank_base = d.m_bank_base ∧ (device_reset d).m_selected_bank = (0, 0) :=
  ⟨rfl, rfl⟩

/-- After `device_reset` the cached pointers agree with the selected banks only when they
pointed at bank 0 before the call: the function leaves them as they were. -/
theorem device_reset_agrees_iff (rom_base : Nat) (d : msx_cart_hfox_device) :
    banks_agree rom_base (device_reset d) ↔
      d.m_bank_base = (rom_base, rom_base + 0x4000) := by
  unfold banks_agree device_reset elem
  simp only [if_true, if_neg (show ¬ (1 = 0) by decide)]
  constructor
  · rintro ⟨h1, h2⟩
    apply Prod.ext
    · simpa using h1
    · simpa using h2
  · intro h
    rw [h]
    simp

/-- When the cached pointers agree with the selected banks, `read_cart` returns the byte of
the currently selected bank. -/
theorem read_cart_selected (mem : Nat → Nat) (rom_base : Nat) (d : msx_cart_hfox_device)
    (offset : Nat) (h : banks_agree rom_base d) (h1 : 0x4000 ≤ offset) (h2 : offset < 0xc000) :
    read_cart mem d offset = selected_byte mem rom_base d offset := by
  unfold read_cart selected_byte
  rw [if_pos ⟨h1, h2⟩]
  obtain ⟨hb0, hb1⟩ := h
  have hand : offset &&& 0x3fff = offset % 0x4000 := Nat.and_pow_two_sub_one_eq_mod offset 14
  have hshift : offset >>> 15 = offset / 2 ^ 15 := Nat.shiftRight_eq_div_pow offset 15
  rw [hand, hshift]
  by_cases hlow : offset < 0x8000
  · have h0 : offset / 2 ^ 15 = 0 := Nat.div_eq_of_lt (by norm_num; omega)
    rw [h0, hb0]
    have e : offset % 0x4000 = offset - 0x4000 := by omega
    rw [e]
  · have h1 : offset / 2 ^ 15 = 1 := by
      apply Nat.div_eq_of_lt_le <;> norm_num <;> omega
    rw [h1, hb1]
    generalize elem d.m_selected_bank 1 &&& 1 = s
    have e : rom_base + s * 0x8000 + 0x4000 + offset % 0x4000 =
        rom_base + s * 0x8000 + (offset - 0x4000) := by omega
    rw [e]

/-- Claim C27 at a failing input. With a ROM of two banks at 0x100000, after
`initialize_cartridge`, `write_cart(0x6000, 1)` and `device_reset` the selected banks are
both 0 but `m_bank_base[0]` still points at bank 1 (0x108000): `device_reset` stores the
zeros and does not call `restore_banks`, which `write_cart` and `device_post_load` do after
they change or reload `m_selected_bank`. So `read_cart(0x4000)` returns the byte 0x22 of
bank 1 where the byte of the selected bank 0 is 0x11. Before the reset the pointers agree
with the selected banks, and `device_post_load` after the reset makes them agree again. -/
theorem device_reset_keeps_bank_pointers :
    ∃ d0 d1 d2, initialize_cartridge 0x100000 0x10000 constructed = some d0 ∧
      banks_agree 0x100000 d0 ∧
      d1 = write_cart 0x100000 d0 0x6000 1 ∧ banks_agree 0x100000 d1 ∧
      d2 = device_reset d1 ∧ reset_after_bank_switch = some d2 ∧
      d2.m_selected_bank = (0, 0) ∧ d2.m_bank_base = (0x108000, 0x104000) ∧
      ¬ banks_agree 0x100000 d2 ∧
      read_cart two_bank_mem d2 0x4000 = 0x22 ∧
      selected_byte two_bank_mem 0x100000 d2 0x4000 = 0x11 ∧
      banks_agree 0x100000 (device_post_load 0x100000 d2) ∧
      read_cart two_bank_mem (device_post_load 0x100000 d2) 0x4000 = 0x11 := by
  refine ⟨_, _, _, rfl, ?_, rfl, ?_, rfl, rfl, ?_, ?_, ?_, ?_, ?_, ?_, ?_⟩ <;> decide

end Hfox
